import Mathlib

/-! imque: lock-free message queue in shared memory.

A shallow embedding of `include/imque/allocator/variable_allocator.hh` and
`include/imque/queue_impl.hh`, executed by one thread at a time.

* Shared memory is a total function from index to record; a write is
  `Function.update`.
* A compare-and-swap really compares the stored record with the expected one.
* Recursive C++ functions take a `fuel` argument; `Res.out_of_fuel` is the
  answer of a call that needed more.
* `assert` is enabled (`deq` calls `release` inside one): a failed assertion
  ends the call with `Res.assert_failed`. `deq_ndebug` is `deq` as compiled with
  `NDEBUG`.
* Bit fields and `uint32_t` arithmetic are `Nat` with explicit `%`.
-/

namespace imque

/-- Result of a modelled call. -/
inductive Res (α : Type) where
  | ok (a : α) : Res α
  | assert_failed : Res α
  | out_of_fuel : Res α

/-! ## VariableAllocatorAux::Node -/

/-- The record `struct Node { next:26; version:6; count:30; status:2; }`. -/
structure Node where
  next : Nat
  version : Nat
  count : Nat
  status : Nat
deriving DecidableEq

namespace Node

def AVAILABLE : Nat := 0
def JOIN_HEAD : Nat := 1
def JOIN_TAIL : Nat := 2

def is_avaiable (n : Node) : Bool := n.status == AVAILABLE
def is_join_head (n : Node) : Bool := (n.status &&& JOIN_HEAD) != 0
def is_join_tail (n : Node) : Bool := (n.status &&& JOIN_TAIL) != 0

/-- The record `join` builds. Inside the two-bit field `~JOIN_HEAD` is `JOIN_TAIL`
and `~JOIN_TAIL` is `JOIN_HEAD`. -/
def join (n tail_node : Node) : Node :=
  { next := tail_node.next
    version := (tail_node.version + 1) % 2 ^ 6
    count := (n.count + tail_node.count) % 2 ^ 30
    status := (n.status &&& JOIN_TAIL) ||| (tail_node.status &&& JOIN_HEAD) }

def change_next (n : Node) (new_next : Nat) : Node :=
  { next := new_next % 2 ^ 26, version := (n.version + 1) % 2 ^ 6, count := n.count, status := n.status }

def change_count (n : Node) (new_count : Nat) : Node :=
  { next := n.next, version := (n.version + 1) % 2 ^ 6, count := new_count % 2 ^ 30, status := n.status }

def change_status (n : Node) (new_status : Nat) : Node :=
  { next := n.next, version := (n.version + 1) % 2 ^ 6, count := n.count, status := new_status % 2 ^ 2 }

end Node

/-! ## atomic::Snapshot -/

/-- Modelled from the spec: `atomic::Snapshot<Node>` is declared in a part of
`atomic.hh` that is not in the repository extract. The spec (4.A) says: construction
reads the word once into a local copy; `node()` exposes the local copy; `update(addr)`
re-reads from a new address; `is_modified()` re-reads the same address and reports
whether it differs; `cas(new)` attempts to install `new` at the address, expecting the
observed value. `place` is the address as an index into the node array. -/
structure NodeSnapshot where
  place : Nat
  val : Node

/-- The allocator object: `node_count_`, and `nodes_` as the array it points to. -/
structure VariableAllocator where
  node_count_ : Nat
  nodes_is_null : Bool
  nodes_ : Nat → Node

def RETRY_LIMIT : Int := 32
def FAST_RETRY_LIMIT : Int := 1
def NODE_COUNT_LIMIT : Nat := 0x1000000

/-- Modelled from the spec: `Snapshot::update(addr)` / construction from an address. -/
def snapshot_at (a : VariableAllocator) (i : Nat) : NodeSnapshot :=
  { place := i, val := a.nodes_ i }

/-- Modelled from the spec: `Snapshot::isModified()`. -/
def isModified (a : VariableAllocator) (s : NodeSnapshot) : Bool :=
  a.nodes_ s.place != s.val

/-- Modelled from the spec: `Snapshot::compare_and_swap(new)`. On success the stored
record and the local copy both become `new_val` (the walk relies on it: step 4 of the
traversal tests the marks `now set` on the same snapshots). -/
def compare_and_swap (a : VariableAllocator) (s : NodeSnapshot) (new_val : Node) :
    Bool × VariableAllocator × NodeSnapshot :=
  if a.nodes_ s.place = s.val then
    (true, { a with nodes_ := Function.update a.nodes_ s.place new_val }, { s with val := new_val })
  else
    (false, a, s)

namespace VariableAllocator

/-- Conversion `operator bool()`. -/
def is_valid (a : VariableAllocator) : Bool :=
  !a.nodes_is_null && decide (2 < a.node_count_) && decide (a.node_count_ < NODE_COUNT_LIMIT)

/-- Member `init()`: six field stores when the allocator is valid. -/
def init (a : VariableAllocator) : VariableAllocator :=
  if a.is_valid then
    let n0 : Node := { a.nodes_ 0 with next := 1, count := 0, status := Node.AVAILABLE }
    let n1 : Node := { a.nodes_ 1 with next := a.node_count_ % 2 ^ 26,
                                       count := (a.node_count_ - 1) % 2 ^ 30,
                                       status := Node.AVAILABLE }
    { a with nodes_ := Function.update (Function.update a.nodes_ 0 n0) 1 n1 }
  else a

end VariableAllocator

/-- Functor `IsEnoughChunk(need_chunk_count)`. -/
def IsEnoughChunk (count_ : Nat) (curr : NodeSnapshot) : Bool :=
  curr.val.is_avaiable && decide (curr.val.count > count_)

/-- Functor `IsPredecessor(node_index)`. -/
def IsPredecessor (node_index_ : Nat) (curr : NodeSnapshot) : Bool :=
  decide (node_index_ < curr.val.next)

/-- Member `is_joinable(node)`, `index(node)` being `place`. -/
def is_joinable (node : NodeSnapshot) : Bool :=
  node.val.next == (node.place + node.val.count) % 2 ^ 32

/-- Member `get_next_snapshot(pred, curr)`: the flag and the new `curr`. -/
def get_next_snapshot (a : VariableAllocator) (pred : NodeSnapshot) : Res (Bool × NodeSnapshot) :=
  if pred.val.next = a.node_count_ then .assert_failed
  else
    let curr := snapshot_at a pred.val.next
    if isModified a pred then .ok (false, curr)
    else if curr.val.is_join_head && !is_joinable curr then .assert_failed
    else if !pred.val.is_join_head && curr.val.is_join_tail then .ok (false, curr)
    else .ok (true, curr)

/-- Member `update_node_status(pred, curr)`: flag, memory, `pred`, `curr`. -/
def update_node_status (a : VariableAllocator) (pred curr : NodeSnapshot) :
    Bool × VariableAllocator × NodeSnapshot × NodeSnapshot :=
  if !is_joinable pred then (true, a, pred, curr)
  else
    match compare_and_swap a pred (pred.val.change_status (pred.val.status ||| Node.JOIN_HEAD)) with
    | (false, a1, pred1) => (false, a1, pred1, curr)
    | (true, a1, pred1) =>
      match compare_and_swap a1 curr (curr.val.change_status (curr.val.status ||| Node.JOIN_TAIL)) with
      | (b, a2, curr2) => (b, a2, pred1, curr2)

/-- Member `join_nodes_if_need(pred, curr)`: flag, memory, `pred`, `curr`. -/
def join_nodes_if_need (a : VariableAllocator) (pred curr : NodeSnapshot) :
    Res (Bool × VariableAllocator × NodeSnapshot × NodeSnapshot) :=
  if !(pred.val.is_join_head && curr.val.is_join_tail) then .ok (true, a, pred, curr)
  else if !is_joinable pred then .assert_failed
  else
    match compare_and_swap a pred (pred.val.join curr.val) with
    | (false, a1, pred1) => .ok (false, a1, pred1, curr)
    | (true, a1, pred1) => .ok (true, a1, pred1, pred1)

/-- The condition of the `if` in `find_candidate`, negated: the three calls in order,
a later one made only when the earlier ones returned true. -/
def walk_step (a : VariableAllocator) (pred : NodeSnapshot) :
    Res (Bool × VariableAllocator × NodeSnapshot × NodeSnapshot) :=
  match get_next_snapshot a pred with
  | .assert_failed => .assert_failed
  | .out_of_fuel => .out_of_fuel
  | .ok (false, curr) => .ok (false, a, pred, curr)
  | .ok (true, curr) =>
    match update_node_status a pred curr with
    | (false, a1, pred1, curr1) => .ok (false, a1, pred1, curr1)
    | (true, a1, pred1, curr1) => join_nodes_if_need a1 pred1 curr1

/-- Member `find_candidate(fn, pred, curr, retry)`. The out-parameter `curr` is
overwritten by `get_next_snapshot` before it is read, so it is a result only:
`some curr` for `true`, `none` for `false`. The three-argument overload is the call
with `pred = snapshot_at a 0`. -/
def find_candidate (fn : NodeSnapshot → Bool) :
    Nat → VariableAllocator → NodeSnapshot → Int → Res (Option NodeSnapshot × VariableAllocator)
  | 0, _, _, _ => .out_of_fuel
  | fuel + 1, a, pred, retry =>
    if retry < 0 then .ok (none, a)
    else if pred.val.next = a.node_count_ then .ok (none, a)
    else
      match walk_step a pred with
      | .assert_failed => .assert_failed
      | .out_of_fuel => .out_of_fuel
      | .ok (false, a1, _, _) => find_candidate fn fuel a1 (snapshot_at a1 0) (retry - 1)
      | .ok (true, a1, _, curr1) =>
        if fn curr1 then .ok (some curr1, a1)
        else find_candidate fn fuel a1 curr1 retry

namespace VariableAllocator

/-- Member `allocate(size)`, `size` a `uint32_t`. -/
def allocate : Nat → VariableAllocator → Nat → Res (Nat × VariableAllocator)
  | 0, _, _ => .out_of_fuel
  | fuel + 1, a, size =>
    if size = 0 then .ok (0, a)
    else
      let need_chunk_count := ((size + 32 - 1) / 32) % 2 ^ 32
      match find_candidate (IsEnoughChunk need_chunk_count) fuel a (snapshot_at a 0) RETRY_LIMIT with
      | .assert_failed => .assert_failed
      | .out_of_fuel => .out_of_fuel
      | .ok (none, a1) => .ok (0, a1)
      | .ok (some cand, a1) =>
        let new_count := (cand.val.count + 2 ^ 32 - need_chunk_count) % 2 ^ 32
        match compare_and_swap a1 cand (cand.val.change_count new_count) with
        | (false, a2, _) => allocate fuel a2 size
        | (true, a2, cand2) =>
          let allocated_node_index := (cand2.place + new_count) % 2 ^ 32
          let node : Node := { a2.nodes_ allocated_node_index with
                               version := (cand2.val.version + 1) % 2 ^ 6,
                               count := need_chunk_count % 2 ^ 30,
                               status := Node.AVAILABLE }
          .ok (allocated_node_index,
               { a2 with nodes_ := Function.update a2.nodes_ allocated_node_index node })

/-- Member `release_impl(descriptor, retry_limit, fast)`. -/
def release_impl : Nat → VariableAllocator → Nat → Int → Bool → Res (Bool × VariableAllocator)
  | 0, _, _, _, _ => .out_of_fuel
  | fuel + 1, a, descriptor, retry_limit, fast =>
    if descriptor = 0 ∨ descriptor ≥ a.node_count_ then
      if descriptor < a.node_count_ then .ok (true, a) else .assert_failed
    else
      match find_candidate (IsPredecessor descriptor) fuel a (snapshot_at a 0) retry_limit with
      | .assert_failed => .assert_failed
      | .out_of_fuel => .out_of_fuel
      | .ok (none, a1) => .ok (false, a1)
      | .ok (some pred, a1) =>
        if ¬ (descriptor ≥ (pred.place + pred.val.count) % 2 ^ 32) then .assert_failed
        else if ¬ pred.val.is_avaiable then .assert_failed
        else
          let node := a1.nodes_ descriptor
          let is_neighbor : Bool := descriptor == (pred.place + pred.val.count) % 2 ^ 32
          let new_pred_node : Node :=
            if is_neighbor then pred.val.change_count ((pred.val.count + node.count) % 2 ^ 32)
            else pred.val.change_next descriptor
          let a2 : VariableAllocator :=
            if is_neighbor then a1
            else { a1 with nodes_ := Function.update a1.nodes_ descriptor { node with next := pred.val.next } }
          match compare_and_swap a2 pred new_pred_node with
          | (false, a3, _) => if fast then .ok (false, a3) else release_impl fuel a3 descriptor retry_limit fast
          | (true, a3, _) => .ok (true, a3)

/-- Member `release(descriptor)`. -/
def release (fuel : Nat) (a : VariableAllocator) (descriptor : Nat) : Res (Bool × VariableAllocator) :=
  release_impl fuel a descriptor RETRY_LIMIT false

/-- Member `fast_release(descriptor)`. -/
def fast_release (fuel : Nat) (a : VariableAllocator) (descriptor : Nat) : Res (Bool × VariableAllocator) :=
  release_impl fuel a descriptor FAST_RETRY_LIMIT true

end VariableAllocator

end imque

namespace imque

/-! ## The free list as a list of runs -/

/-- Index of the first run of a list, `T` when there is none. -/
def first_index (T : Nat) : List (Nat × Nat) → Nat
  | [] => T
  | r :: _ => r.1

/-- Runs `(index, count)` in increasing order, each ending at or before the next one
starts, the last ending at or before `T`. -/
def WF (T : Nat) : List (Nat × Nat) → Prop
  | [] => True
  | p :: rest => p.1 + p.2 ≤ first_index T rest ∧ p.1 < first_index T rest ∧ WF T rest

/-- The node array stores the list: each run's node holds its count, links to the
next run (to `T` at the end) and is AVAILABLE. -/
def Repr (nodes : Nat → Node) (T : Nat) : List (Nat × Nat) → Prop
  | [] => True
  | p :: rest =>
    (nodes p.1).next = first_index T rest ∧ (nodes p.1).count = p.2 ∧
      (nodes p.1).status = Node.AVAILABLE ∧ Repr nodes T rest

/-- Sum of the counts of a list of runs. -/
def count_sum : List (Nat × Nat) → Nat
  | [] => 0
  | r :: rest => r.2 + count_sum rest

/-- Chunk `x` lies in one of the runs. -/
def covers (l : List (Nat × Nat)) (x : Nat) : Prop :=
  ∃ r ∈ l, r.1 ≤ x ∧ x < r.1 + r.2

/-- The walk of `find_candidate` on the list of runs: `p` is the run of `pred`, `rest`
the runs after it. The answer is the runs the walk leaves behind it and, when the
callback accepted a run, that run with the runs after it. `P index count next` is the
callback. -/
def awalk (T : Nat) (P : Nat → Nat → Nat → Bool) :
    Nat × Nat → List (Nat × Nat) → List (Nat × Nat) × Option ((Nat × Nat) × List (Nat × Nat))
  | p, [] => ([p], none)
  | p, q :: rest =>
    if p.1 + p.2 = q.1 then
      if P p.1 (p.2 + q.2) (first_index T rest) then ([], some ((p.1, p.2 + q.2), rest))
      else awalk T P (p.1, p.2 + q.2) rest
    else if P q.1 q.2 (first_index T rest) then ([p], some (q, rest))
    else (p :: (awalk T P q rest).1, (awalk T P q rest).2)

/-- The whole list after a walk. -/
def aresult (r : List (Nat × Nat) × Option ((Nat × Nat) × List (Nat × Nat))) : List (Nat × Nat) :=
  match r.2 with
  | none => r.1
  | some (m, post) => r.1 ++ m :: post

end imque

namespace imque

/-- What `allocate` does to the list of runs (node 0 first) when it asks for `n`
chunks: the descriptor and the new list. -/
def aalloc (T n : Nat) : List (Nat × Nat) → Nat × List (Nat × Nat)
  | [] => (0, [])
  | p :: rest =>
    match awalk T (fun _ c _ => decide (n < c)) p rest with
    | (l, none) => (0, l)
    | (pre, some (m, post)) => (m.1 + (m.2 - n), pre ++ (m.1, m.2 - n) :: post)

/-- What `release` of the run `(d, k)` does to the list of runs (node 0 first). -/
def arelease (T d k : Nat) : List (Nat × Nat) → List (Nat × Nat)
  | [] => []
  | p :: rest =>
    match awalk T (fun _ _ nx => decide (d < nx)) p rest with
    | (l, none) => l
    | (pre, some (m, post)) =>
      if d = m.1 + m.2 then pre ++ (m.1, m.2 + k) :: post else pre ++ m :: (d, k) :: post

/-- The state of the allocator between two calls: `fl` is the free list (node 0
first), `held` the descriptors handed out and not yet released. -/
structure Inv (a : VariableAllocator) (fl : List (Nat × Nat)) (held : List Nat) : Prop where
  valid : a.is_valid = true
  head : ∃ runs, fl = (0, 0) :: runs ∧ first_index a.node_count_ runs = 1
  wf : WF a.node_count_ fl
  pos : ∀ r ∈ fl, r.1 ≠ 0 → 1 ≤ r.2
  repr : Repr a.nodes_ a.node_count_ fl
  held_nodup : held.Nodup
  held_ok : ∀ d ∈ held, (a.nodes_ d).status = 0 ∧ 1 ≤ (a.nodes_ d).count ∧ 1 ≤ d ∧
    d + (a.nodes_ d).count ≤ a.node_count_
  disj_free : ∀ d ∈ held, ∀ x, d ≤ x → x < d + (a.nodes_ d).count → ¬ covers fl x
  disj_held : ∀ d ∈ held, ∀ e ∈ held, d ≠ e →
    d + (a.nodes_ d).count ≤ e ∨ e + (a.nodes_ e).count ≤ d
  total : count_sum fl + (held.map fun d => (a.nodes_ d).count).sum = a.node_count_ - 1

/-- States reached from `init` by calls of `allocate` and of `release` on held
descriptors, one call at a time, with the descriptors held. -/
inductive Reachable : VariableAllocator → List Nat → Prop where
  | init (a : VariableAllocator) : a.is_valid = true → Reachable a.init []
  | allocate (a a1 : VariableAllocator) (held : List Nat) (fuel size d : Nat) :
      Reachable a held → size < 2 ^ 32 → a.allocate fuel size = .ok (d, a1) →
      Reachable a1 (if d = 0 then held else d :: held)
  | release (a a1 : VariableAllocator) (held : List Nat) (fuel d : Nat) (b : Bool) :
      Reachable a held → d ∈ held → a.release fuel d = .ok (b, a1) →
      Reachable a1 (if b then held.erase d else held)

end imque

namespace imque

namespace VariableAllocator

/-- The nodes met by following `next` from node `i` until `node_count_`, each with its
count. -/
def free_list_from (a : VariableAllocator) : Nat → Nat → List (Nat × Nat)
  | 0, _ => []
  | fuel + 1, i =>
    if i = a.node_count_ then []
    else (i, (a.nodes_ i).count) :: free_list_from a fuel (a.nodes_ i).next

/-- The free list: the nodes reachable from node 0 through `next`. -/
def free_list (a : VariableAllocator) : List (Nat × Nat) :=
  a.free_list_from a.node_count_ 0

/-- Chunk `x` belongs to a run of the free list. -/
def is_free_chunk (a : VariableAllocator) (x : Nat) : Bool :=
  a.free_list.any fun r => decide (r.1 ≤ x) && decide (x < r.1 + r.2)

/-- Sum of `count` over the held descriptors. -/
def held_count (a : VariableAllocator) (held : List Nat) : Nat :=
  (held.map fun d => (a.nodes_ d).count).sum

end VariableAllocator

end imque

namespace imque

/-- The value of an `ok` result, `dflt` otherwise. -/
def Res.get {α : Type} (r : Res α) (dflt : α) : α :=
  match r with
  | .ok x => x
  | _ => dflt

/-- An allocator over a zero-filled region of `n` nodes, before `init`. -/
def zero_allocator (n : Nat) : VariableAllocator :=
  { node_count_ := n, nodes_is_null := false, nodes_ := fun _ => ⟨0, 0, 0, 0⟩ }

/-- The state after `allocate(size)`, the state itself when the call did not return. -/
def after_allocate (a : VariableAllocator) (fuel size : Nat) : VariableAllocator :=
  ((a.allocate fuel size).get (0, a)).2

/-- The state after `release(d)`, the state itself when the call did not return. -/
def after_release (a : VariableAllocator) (fuel d : Nat) : VariableAllocator :=
  ((a.release fuel d).get (false, a)).2

end imque

namespace imque

/-! ## QueueImpl -/

/-- The slot `struct Entry { state:1; value:31; }`. -/
structure Entry where
  state : Nat
  value : Nat
deriving DecidableEq

namespace Entry

def FREE : Nat := 0
def USED : Nat := 1

end Entry

/-- The queue object: the fields of `Header` (with `stat.overflowed_count`), the slot
array `entries`, the allocator `alc_`, and the bytes of the allocator's chunk array
(`chunks b` is the byte at offset `b` from `chunks_`). -/
structure QueueImpl where
  read_pos : Nat
  write_pos : Nat
  overflowed_count : Nat
  entry_count : Nat
  entries : Nat → Entry
  alc_ : VariableAllocator
  chunks : Nat → Nat

/-- The size of `Chunk`. -/
def sizeof_Chunk : Nat := 32

/-- The size of `size_t` (LP64). -/
def sizeof_size_t : Nat := 8

/-- Store of a `size_t` at byte offset `addr`, least significant byte first. -/
def write_size_t (mem : Nat → Nat) (addr v : Nat) : Nat → Nat :=
  fun x => if addr ≤ x ∧ x < addr + sizeof_size_t then (v / 256 ^ (x - addr)) % 256 else mem x

/-- Load of a `size_t` at byte offset `addr`. -/
def read_size_t (mem : Nat → Nat) (addr : Nat) : Nat :=
  mem addr + 256 * (mem (addr + 1) + 256 * (mem (addr + 2) + 256 * (mem (addr + 3)
    + 256 * (mem (addr + 4) + 256 * (mem (addr + 5) + 256 * (mem (addr + 6)
    + 256 * mem (addr + 7)))))))

/-- Library call `memcpy(chunks_ + addr, data, size)`, `data i` being the i-th source
byte. -/
def memcpy_to (mem : Nat → Nat) (addr : Nat) (data : Nat → Nat) (size : Nat) : Nat → Nat :=
  fun x => if addr ≤ x ∧ x < addr + size then data (x - addr) else mem x

/-- The `size` bytes from byte offset `addr` (what `buf.assign(data, size)` copies). -/
def read_bytes (mem : Nat → Nat) (addr size : Nat) : List Nat :=
  (List.range size).map fun i => mem (addr + i)

/-- The message a caller passes as `(data, size)`. -/
def message (data : Nat → Nat) (size : Nat) : List Nat :=
  (List.range size).map data

namespace QueueImpl

/-- Member `Header::next_write_pos()`. -/
def next_write_pos (q : QueueImpl) : Nat := ((q.write_pos + 1) % 2 ^ 32) % q.entry_count

/-- Member `isEmpty()`. -/
def isEmpty (q : QueueImpl) : Bool := q.read_pos == q.write_pos

/-- Member `isFull()`. -/
def isFull (q : QueueImpl) : Bool := q.read_pos == q.next_write_pos

/-- Member `overflowedCount()`. -/
def overflowedCount (q : QueueImpl) : Nat := q.overflowed_count

/-- The call `__sync_add_and_fetch(&que_->stat.overflowed_count, 1)`. -/
def add_overflow (q : QueueImpl) : QueueImpl :=
  { q with overflowed_count := (q.overflowed_count + 1) % 2 ^ 32 }

/-- Conversion `operator bool()`. -/
def is_valid (q : QueueImpl) : Bool := q.alc_.is_valid

/-- Member `init()`. -/
def init (q : QueueImpl) : QueueImpl :=
  { q with
    alc_ := q.alc_.init
    read_pos := 0
    write_pos := 0
    overflowed_count := 0
    entries := fun i => if i < q.entry_count then ⟨0, 0⟩ else q.entries i }

/-- The call `__sync_bool_compare_and_swap(&que_->write_pos, old, new)`. -/
def cas_write_pos (q : QueueImpl) (old new : Nat) : QueueImpl :=
  if q.write_pos = old then { q with write_pos := new } else q

/-- The call `__sync_bool_compare_and_swap(&que_->read_pos, old, new)`. -/
def cas_read_pos (q : QueueImpl) (old new : Nat) : QueueImpl :=
  if q.read_pos = old then { q with read_pos := new } else q

/-- The call `__sync_bool_compare_and_swap(pe->uint32_ptr(), e.uint32(), new_e.uint32())`
on slot `i`. -/
def cas_entry (q : QueueImpl) (i : Nat) (e new_e : Entry) : Bool × QueueImpl :=
  if q.entries i = e then (true, { q with entries := Function.update q.entries i new_e })
  else (false, q)

/-- Member `enq_impl(value)`. -/
def enq_impl : Nat → QueueImpl → Nat → Res (Bool × QueueImpl)
  | 0, _, _ => .out_of_fuel
  | fuel + 1, q, value =>
    let curr_read := q.read_pos
    let curr_write := q.write_pos
    let next_write := ((curr_write + 1) % 2 ^ 32) % q.entry_count
    if curr_read = next_write then .ok (false, q.add_overflow)
    else
      let e := q.entries curr_write
      if e.state ≠ Entry.FREE then
        enq_impl fuel (q.cas_write_pos curr_write next_write) value
      else
        match q.cas_entry curr_write e ⟨Entry.USED, value % 2 ^ 31⟩ with
        | (false, q1) => enq_impl fuel q1 value
        | (true, q1) => .ok (true, q1.cas_write_pos curr_write next_write)

/-- Member `deq_impl()`. -/
def deq_impl : Nat → QueueImpl → Res (Nat × QueueImpl)
  | 0, _ => .out_of_fuel
  | fuel + 1, q =>
    let curr_read := q.read_pos
    let curr_write := q.write_pos
    let next_read := ((curr_read + 1) % 2 ^ 32) % q.entry_count
    if curr_read = curr_write then .ok (0, q)
    else
      let e := q.entries curr_read
      if e.state = Entry.FREE then
        deq_impl fuel (q.cas_read_pos curr_read next_read)
      else
        match q.cas_entry curr_read e ⟨Entry.FREE, 0⟩ with
        | (false, q1) => deq_impl fuel q1
        | (true, q1) => .ok (e.value, q1.cas_read_pos curr_read next_read)

/-- Member `enq(data, size)`: `data i` is the i-th byte of the caller's buffer. The
argument of `allocate` is a `uint32_t`, so `sizeof(size_t) + size` is cut to 32 bits. -/
def enq (fuel : Nat) (q : QueueImpl) (data : Nat → Nat) (size : Nat) : Res (Bool × QueueImpl) :=
  if q.isFull then .ok (false, q.add_overflow)
  else
    match q.alc_.allocate fuel ((sizeof_size_t + size) % 2 ^ 32) with
    | .assert_failed => .assert_failed
    | .out_of_fuel => .out_of_fuel
    | .ok (alloc_id, alc1) =>
      if alloc_id = 0 then .ok (false, { q with alc_ := alc1 }.add_overflow)
      else
        let q1 : QueueImpl :=
          { q with
            alc_ := alc1
            chunks := memcpy_to (write_size_t q.chunks (sizeof_Chunk * alloc_id) size)
              (sizeof_Chunk * alloc_id + sizeof_size_t) data size }
        match enq_impl fuel q1 alloc_id with
        | .assert_failed => .assert_failed
        | .out_of_fuel => .out_of_fuel
        | .ok (true, q2) => .ok (true, q2)
        | .ok (false, q2) =>
          match q2.add_overflow.alc_.release fuel alloc_id with
          | .assert_failed => .assert_failed
          | .out_of_fuel => .out_of_fuel
          | .ok (_, alc2) => .ok (false, { q2.add_overflow with alc_ := alc2 })

/-- Member `deq(buf)` as compiled with assertions enabled: the flag, the buffer and the
state. The call of `release` is the argument of an `assert`; `deq_ndebug` is the member
as compiled with `NDEBUG`. -/
def deq (fuel : Nat) (q : QueueImpl) (buf : List Nat) : Res (Bool × List Nat × QueueImpl) :=
  if q.isEmpty then .ok (false, buf, q)
  else
    match deq_impl fuel q with
    | .assert_failed => .assert_failed
    | .out_of_fuel => .out_of_fuel
    | .ok (alloc_id, q1) =>
      if alloc_id = 0 then .ok (false, buf, q1)
      else
        let size := read_size_t q1.chunks (sizeof_Chunk * alloc_id)
        let buf1 := read_bytes q1.chunks (sizeof_Chunk * alloc_id + sizeof_size_t) size
        match q1.alc_.release fuel alloc_id with
        | .assert_failed => .assert_failed
        | .out_of_fuel => .out_of_fuel
        | .ok (false, _) => .assert_failed
        | .ok (true, alc1) => .ok (true, buf1, { q1 with alc_ := alc1 })

end QueueImpl

/-- A call made on the queue. -/
inductive Op where
  | enq (data : Nat → Nat) (size : Nat) : Op
  | deq : Op

/-- The calls of `ops` made one after another: the messages of the calls of `enq` that
returned true, the buffers of the calls of `deq` that returned true (both in call
order), and the final state. -/
def run (fuel : Nat) : List Op → QueueImpl → Res (List (List Nat) × List (List Nat) × QueueImpl)
  | [], q => .ok ([], [], q)
  | Op.enq data size :: ops, q =>
    match q.enq fuel data size with
    | .assert_failed => .assert_failed
    | .out_of_fuel => .out_of_fuel
    | .ok (b, q1) =>
      match run fuel ops q1 with
      | .assert_failed => .assert_failed
      | .out_of_fuel => .out_of_fuel
      | .ok (s, r, q2) => .ok (if b then message data size :: s else s, r, q2)
  | Op.deq :: ops, q =>
    match q.deq fuel [] with
    | .assert_failed => .assert_failed
    | .out_of_fuel => .out_of_fuel
    | .ok (b, buf, q1) =>
      match run fuel ops q1 with
      | .assert_failed => .assert_failed
      | .out_of_fuel => .out_of_fuel
      | .ok (s, r, q2) => .ok (s, if b then buf :: r else r, q2)

/-- The state of the queue between two calls: `pending` lists the messages in the ring,
oldest first, each with its descriptor; `fl` and `held` describe the allocator. -/
structure QInv (q : QueueImpl) (fl : List (Nat × Nat)) (held : List Nat)
    (pending : List (Nat × List Nat)) : Prop where
  ec_pos : 1 ≤ q.entry_count
  ec_lt : q.entry_count < 2 ^ 32
  rd : q.read_pos < q.entry_count
  wr : q.write_pos = (q.read_pos + pending.length) % q.entry_count
  len : pending.length < q.entry_count
  used : ∀ i p, pending[i]? = some p →
    q.entries ((q.read_pos + i) % q.entry_count) = ⟨Entry.USED, p.1⟩
  free : ∀ i, pending.length ≤ i → i < q.entry_count →
    (q.entries ((q.read_pos + i) % q.entry_count)).state = Entry.FREE
  alloc : Inv q.alc_ fl held
  held_iff : ∀ d, d ∈ held ↔ d ∈ pending.map Prod.fst
  nodup : (pending.map Prod.fst).Nodup
  payload : ∀ p ∈ pending,
    read_size_t q.chunks (sizeof_Chunk * p.1) = p.2.length ∧
    read_bytes q.chunks (sizeof_Chunk * p.1 + sizeof_size_t) p.2.length = p.2 ∧
    sizeof_size_t + p.2.length ≤ sizeof_Chunk * (q.alc_.nodes_ p.1).count

/-- A queue over zero-filled memory with `e` slots and `n` allocator nodes, before
`init`. -/
def zero_queue (e n : Nat) : QueueImpl :=
  { read_pos := 0, write_pos := 0, overflowed_count := 0, entry_count := e,
    entries := fun _ => ⟨0, 0⟩, alc_ := zero_allocator n, chunks := fun _ => 0 }

end imque

namespace imque

/-- The state after `enq(data, size)`, the state itself when the call did not return. -/
def after_enq (q : QueueImpl) (fuel : Nat) (data : Nat → Nat) (size : Nat) : QueueImpl :=
  ((q.enq fuel data size).get (false, q)).2

/-- The state after `deq(buf)`, the state itself when the call did not return. -/
def after_deq (q : QueueImpl) (fuel : Nat) : QueueImpl :=
  ((q.deq fuel []).get (false, [], q)).2.2

/-- The bytes `10k, 10k+1, ...` as a caller's buffer. -/
def sample_data (k : Nat) : Nat → Nat := fun i => 10 * k + i

/-- The bytes of a list as a caller's buffer. -/
def list_data (b : List Nat) : Nat → Nat := fun i => b.getD i 0

end imque

namespace imque

/-- A queue with 2 slots in which a producer has written slot 0 (the call
`enq(sample_data 1, 1)`) but has not yet advanced `write_pos`. -/
def stalled_queue : QueueImpl :=
  { after_enq (zero_queue 2 10).init 11 (sample_data 1) 1 with write_pos := 0 }

/-- A queue with 2 slots after one completed `enq(sample_data 1, 1)`: the ring is full. -/
def full_queue : QueueImpl :=
  after_enq (zero_queue 2 10).init 11 (sample_data 1) 1

end imque

namespace imque

/-! ## Region layout -/

/-- The size of `Node` in bytes: the bit fields `next:26` and `version:6` fill one
`uint32_t`, `count:30` and `status:2` a second one. -/
def sizeof_Node : Nat := (26 + 6 + 30 + 2) / 8

/-- The size of `Entry` in bytes: the bit fields `state:1` and `value:31`. -/
def sizeof_Entry : Nat := (1 + 31) / 8

/-- The size of `Header` in bytes: `read_pos`, `write_pos`, `stat` and `entry_count`,
four `uint32_t`; the array `entries[0]` adds nothing. -/
def sizeof_Header : Nat := 4 * 4

/-- Static member `que_size(entry_count)`, computed in `size_t`. -/
def que_size (entry_count : Nat) : Nat :=
  (sizeof_Header + sizeof_Entry * entry_count) % 2 ^ 64

namespace VariableAllocator

/-- Constructor `VariableAllocator(region, size)`, `size` a `uint32_t`: `region` is
given by whether the pointer is null and by the records it points to. -/
def construct (region_is_null : Bool) (region : Nat → Node) (size : Nat) : VariableAllocator :=
  { node_count_ := (size / (sizeof_Node + sizeof_Chunk)) % 2 ^ 32
    nodes_is_null := region_is_null
    nodes_ := region }

end VariableAllocator

namespace QueueImpl

/-- Constructor `QueueImpl(entry_count, shm)`. The class `SharedMemory` is not part of
the sources at hand: `shm` is given by `shm_size` (the value of `shm.size()`), `shm_ok`
(its conversion to `bool`) and `region` (what the mapped bytes hold). The second
argument of the allocator's constructor, `shm.size()-que_size(entry_count)`, is
computed in `size_t` and converted to `uint32_t`. -/
def construct (entry_count shm_size : Nat) (shm_ok : Bool) (region : QueueImpl) : QueueImpl :=
  { region with
    entry_count := if shm_ok then entry_count % 2 ^ 32 else region.entry_count
    alc_ := VariableAllocator.construct region.alc_.nodes_is_null region.alc_.nodes_
      (((shm_size + 2 ^ 64 - que_size entry_count) % 2 ^ 64) % 2 ^ 32) }

/-- The descriptors in the ring: the values of the slots from `read_pos` up to
`write_pos`. -/
def held_descriptors (q : QueueImpl) : List Nat :=
  (List.range ((q.write_pos + q.entry_count - q.read_pos) % q.entry_count)).map
    fun i => (q.entries ((q.read_pos + i) % q.entry_count)).value

end QueueImpl

/-- States of the queue reached from `init` by calls of `enq` and `deq`, one call at a
time, the messages being short enough for the 32-bit argument of `allocate`. -/
inductive QReachable : QueueImpl → Prop where
  | init (q : QueueImpl) : q.is_valid = true → 1 ≤ q.entry_count → q.entry_count < 2 ^ 32 →
      QReachable q.init
  | enq (q q1 : QueueImpl) (fuel : Nat) (data : Nat → Nat) (size : Nat) (b : Bool) :
      QReachable q → sizeof_size_t + size < 2 ^ 32 → q.alc_.node_count_ < fuel →
      q.enq fuel data size = .ok (b, q1) → QReachable q1
  | deq (q q1 : QueueImpl) (fuel : Nat) (buf buf1 : List Nat) (b : Bool) :
      QReachable q → q.alc_.node_count_ < fuel →
      q.deq fuel buf = .ok (b, buf1, q1) → QReachable q1

/-- An allocator of 10 nodes after allocate A and B (one chunk each), release A, release
B: nothing is held and the free list has the runs of node 1 (8 chunks) and node 9. -/
def two_runs_allocator : VariableAllocator :=
  after_release (after_release (after_allocate (after_allocate
    (zero_allocator 10).init 11 32) 11 32) 11 9) 11 8

/-! ## States of an interrupted walk -/

/-- An allocator of 10 nodes in which a walk has marked node 1 (chunks 1..3) as
JOIN_HEAD and has not yet marked its neighbour, node 4. -/
def abandoned_allocator : VariableAllocator :=
  { node_count_ := 10
    nodes_is_null := false
    nodes_ := fun i =>
      if i = 0 then ⟨1, 0, 0, Node.AVAILABLE⟩
      else if i = 1 then ⟨4, 1, 3, Node.JOIN_HEAD⟩
      else if i = 4 then ⟨10, 0, 6, Node.AVAILABLE⟩
      else ⟨0, 0, 0, 0⟩ }

/-- An allocator of 10 nodes in which node 4 carries JOIN_TAIL and the node before it,
node 1, does not carry JOIN_HEAD. -/
def stale_tail_allocator : VariableAllocator :=
  { node_count_ := 10
    nodes_is_null := false
    nodes_ := fun i =>
      if i = 0 then ⟨1, 0, 0, Node.AVAILABLE⟩
      else if i = 1 then ⟨4, 0, 2, Node.AVAILABLE⟩
      else if i = 4 then ⟨10, 1, 6, Node.JOIN_TAIL⟩
      else ⟨0, 0, 0, 0⟩ }

end imque

namespace imque

/-! ## Compare-and-swap that can fail -/

/-- The outcome of the compare-and-swaps of a call, standing for concurrent writers:
`walk k` says that the k-th compare-and-swap made by the walks (`update_node_status`,
`join_nodes_if_need`) fails, `install k` that the compare-and-swap on `pred` in the k-th
attempt of `release_impl` fails. -/
structure Oracle where
  walk : Nat → Bool
  install : Nat → Bool

/-- What a walk returns, with counters: `found` is the out-parameter when the walk
returned true, `mem` the memory, `last` the argument `pred` of the call that returned,
`cas_count` the number of compare-and-swaps of the walks so far, `restarts` the number
of times `retry` was decremented, `calls` the number of calls of the four-argument
`find_candidate`. -/
structure Walk where
  found : Option NodeSnapshot
  mem : VariableAllocator
  last : NodeSnapshot
  cas_count : Nat
  restarts : Nat
  calls : Nat

/-- What `release_impl` returns, with counters: `attempts` is the number of calls of
`release_impl` that started a walk. -/
structure Released where
  result : Bool
  mem : VariableAllocator
  cas_count : Nat
  attempts : Nat

namespace Contended

/-- A compare-and-swap that fails when the oracle says so, leaving memory and the
snapshot as they are. -/
def compare_and_swap (fail : Bool) (a : VariableAllocator) (s : NodeSnapshot) (new_val : Node) :
    Bool × VariableAllocator × NodeSnapshot :=
  if fail then (false, a, s) else imque.compare_and_swap a s new_val

/-- Member `update_node_status(pred, curr)`; `k` counts the compare-and-swaps. -/
def update_node_status (o : Oracle) (k : Nat) (a : VariableAllocator) (pred curr : NodeSnapshot) :
    Bool × VariableAllocator × NodeSnapshot × NodeSnapshot × Nat :=
  if !is_joinable pred then (true, a, pred, curr, k)
  else
    match compare_and_swap (o.walk k) a pred
        (pred.val.change_status (pred.val.status ||| Node.JOIN_HEAD)) with
    | (false, a1, pred1) => (false, a1, pred1, curr, k + 1)
    | (true, a1, pred1) =>
      match compare_and_swap (o.walk (k + 1)) a1 curr
          (curr.val.change_status (curr.val.status ||| Node.JOIN_TAIL)) with
      | (b, a2, curr2) => (b, a2, pred1, curr2, k + 2)

/-- Member `join_nodes_if_need(pred, curr)`; `k` counts the compare-and-swaps. -/
def join_nodes_if_need (o : Oracle) (k : Nat) (a : VariableAllocator) (pred curr : NodeSnapshot) :
    Res (Bool × VariableAllocator × NodeSnapshot × NodeSnapshot × Nat) :=
  if !(pred.val.is_join_head && curr.val.is_join_tail) then .ok (true, a, pred, curr, k)
  else if !is_joinable pred then .assert_failed
  else
    match compare_and_swap (o.walk k) a pred (pred.val.join curr.val) with
    | (false, a1, pred1) => .ok (false, a1, pred1, curr, k + 1)
    | (true, a1, pred1) => .ok (true, a1, pred1, pred1, k + 1)

/-- The condition of the `if` in `find_candidate`, negated. -/
def walk_step (o : Oracle) (k : Nat) (a : VariableAllocator) (pred : NodeSnapshot) :
    Res (Bool × VariableAllocator × NodeSnapshot × NodeSnapshot × Nat) :=
  match get_next_snapshot a pred with
  | .assert_failed => .assert_failed
  | .out_of_fuel => .out_of_fuel
  | .ok (false, curr) => .ok (false, a, pred, curr, k)
  | .ok (true, curr) =>
    match update_node_status o k a pred curr with
    | (false, a1, pred1, curr1, k1) => .ok (false, a1, pred1, curr1, k1)
    | (true, a1, pred1, curr1, k1) => join_nodes_if_need o k1 a1 pred1 curr1

/-- Member `find_candidate(fn, pred, curr, retry)`; `k`, `restarts` and `calls` are the
counters of `Walk`. -/
def find_candidate (fn : NodeSnapshot → Bool) (o : Oracle) :
    Nat → Nat → VariableAllocator → NodeSnapshot → Int → Nat → Nat → Res Walk
  | 0, _, _, _, _, _, _ => .out_of_fuel
  | fuel + 1, k, a, pred, retry, restarts, calls =>
    if retry < 0 then .ok ⟨none, a, pred, k, restarts, calls + 1⟩
    else if pred.val.next = a.node_count_ then .ok ⟨none, a, pred, k, restarts, calls + 1⟩
    else
      match walk_step o k a pred with
      | .assert_failed => .assert_failed
      | .out_of_fuel => .out_of_fuel
      | .ok (false, a1, _, _, k1) =>
        find_candidate fn o fuel k1 a1 (snapshot_at a1 0) (retry - 1) (restarts + 1) (calls + 1)
      | .ok (true, a1, pred1, curr1, k1) =>
        if fn curr1 then .ok ⟨some curr1, a1, pred1, k1, restarts, calls + 1⟩
        else find_candidate fn o fuel k1 a1 curr1 retry restarts (calls + 1)

/-- Member `release_impl(descriptor, retry_limit, fast)`; `k` counts the
compare-and-swaps of the walks, `n` the attempts made so far. -/
def release_impl (o : Oracle) :
    Nat → VariableAllocator → Nat → Int → Bool → Nat → Nat → Res Released
  | 0, _, _, _, _, _, _ => .out_of_fuel
  | fuel + 1, a, descriptor, retry_limit, fast, k, n =>
    if descriptor = 0 ∨ descriptor ≥ a.node_count_ then
      if descriptor < a.node_count_ then .ok ⟨true, a, k, n⟩ else .assert_failed
    else
      match find_candidate (IsPredecessor descriptor) o fuel k a (snapshot_at a 0) retry_limit 0 0 with
      | .assert_failed => .assert_failed
      | .out_of_fuel => .out_of_fuel
      | .ok ⟨none, a1, _, k1, _, _⟩ => .ok ⟨false, a1, k1, n + 1⟩
      | .ok ⟨some pred, a1, _, k1, _, _⟩ =>
        if ¬ (descriptor ≥ (pred.place + pred.val.count) % 2 ^ 32) then .assert_failed
        else if ¬ pred.val.is_avaiable then .assert_failed
        else
          let node := a1.nodes_ descriptor
          let is_neighbor : Bool := descriptor == (pred.place + pred.val.count) % 2 ^ 32
          let new_pred_node : Node :=
            if is_neighbor then pred.val.change_count ((pred.val.count + node.count) % 2 ^ 32)
            else pred.val.change_next descriptor
          let a2 : VariableAllocator :=
            if is_neighbor then a1
            else { a1 with nodes_ := Function.update a1.nodes_ descriptor { node with next := pred.val.next } }
          match compare_and_swap (o.install n) a2 pred new_pred_node with
          | (false, a3, _) =>
            if fast then .ok ⟨false, a3, k1, n + 1⟩
            else release_impl o fuel a3 descriptor retry_limit fast k1 (n + 1)
          | (true, a3, _) => .ok ⟨true, a3, k1, n + 1⟩

/-- Member `release(descriptor)`. -/
def release (o : Oracle) (fuel : Nat) (a : VariableAllocator) (descriptor : Nat) : Res Released :=
  release_impl o fuel a descriptor RETRY_LIMIT false 0 0

/-- Member `fast_release(descriptor)`. -/
def fast_release (o : Oracle) (fuel : Nat) (a : VariableAllocator) (descriptor : Nat) :
    Res Released :=
  release_impl o fuel a descriptor FAST_RETRY_LIMIT true 0 0

end Contended

/-- The oracle under which no compare-and-swap fails. -/
def no_failure : Oracle := { walk := fun _ => false, install := fun _ => false }

/-- The oracle under which the walks' compare-and-swaps succeed and the first `m`
installs fail. -/
def failing_installs (m : Nat) : Oracle :=
  { walk := fun _ => false, install := fun j => decide (j < m) }

/-- The records of an allocator of 10 nodes after four calls `allocate(32)`
(descriptors 9 down to 6), `release(7)` and `release(6)`: the descriptors 8 and 9 are
held and the free list has the runs of node 1 (chunks 1..6) and node 7, which touch. -/
def crowded_allocator : VariableAllocator :=
  { node_count_ := 10
    nodes_is_null := false
    nodes_ := fun i =>
      if i = 0 then ⟨1, 0, 0, Node.AVAILABLE⟩
      else if i = 1 then ⟨7, 6, 6, Node.AVAILABLE⟩
      else if i = 6 then ⟨0, 5, 1, Node.AVAILABLE⟩
      else if i = 7 then ⟨10, 4, 1, Node.AVAILABLE⟩
      else if i = 8 then ⟨0, 3, 1, Node.AVAILABLE⟩
      else if i = 9 then ⟨0, 2, 1, Node.AVAILABLE⟩
      else ⟨0, 0, 0, 0⟩ }

end imque

namespace imque

namespace QueueImpl

/-- Member `deq(buf)` as compiled with `NDEBUG`: the statement
`assert(alc_.release(alloc_id));` expands to nothing, so `release` is not called. -/
def deq_ndebug (fuel : Nat) (q : QueueImpl) (buf : List Nat) :
    Res (Bool × List Nat × QueueImpl) :=
  if q.isEmpty then .ok (false, buf, q)
  else
    match deq_impl fuel q with
    | .assert_failed => .assert_failed
    | .out_of_fuel => .out_of_fuel
    | .ok (alloc_id, q1) =>
      if alloc_id = 0 then .ok (false, buf, q1)
      else
        let size := read_size_t q1.chunks (sizeof_Chunk * alloc_id)
        let buf1 := read_bytes q1.chunks (sizeof_Chunk * alloc_id + sizeof_size_t) size
        .ok (true, buf1, q1)

end QueueImpl

end imque

namespace imque

/-! ## One step of the walk -/

theorem cas_ok (a : VariableAllocator) (s : NodeSnapshot) (v : Node)
    (h : a.nodes_ s.place = s.val) :
    compare_and_swap a s v
      = (true, { a with nodes_ := Function.update a.nodes_ s.place v }, { s with val := v }) := by
  simp [compare_and_swap, h]

theorem is_joinable_eq (s : NodeSnapshot) (hb : s.place + s.val.count < 2 ^ 32) :
    is_joinable s = decide (s.val.next = s.place + s.val.count) := by
  unfold is_joinable
  rw [Nat.mod_eq_of_lt hb]
  rfl

theorem get_next_snapshot_ok (a : VariableAllocator) (pred : NodeSnapshot)
    (hN : pred.val.next ≠ a.node_count_) (hsync : a.nodes_ pred.place = pred.val)
    (hps : pred.val.status = 0) (hqs : (a.nodes_ pred.val.next).status = 0) :
    get_next_snapshot a pred = .ok (true, snapshot_at a pred.val.next) := by
  simp [get_next_snapshot, isModified, hN, hsync, snapshot_at, Node.is_join_head,
    Node.is_join_tail, hps, hqs]

theorem walk_step_nojoin (a : VariableAllocator) (p : Nat)
    (hnext : (a.nodes_ p).next ≠ a.node_count_)
    (hps : (a.nodes_ p).status = 0)
    (hqs : (a.nodes_ (a.nodes_ p).next).status = 0)
    (hb : p + (a.nodes_ p).count < 2 ^ 32)
    (hj : (a.nodes_ p).next ≠ p + (a.nodes_ p).count) :
    walk_step a (snapshot_at a p)
      = .ok (true, a, snapshot_at a p, snapshot_at a (a.nodes_ p).next) := by
  have h1 := get_next_snapshot_ok a (snapshot_at a p) hnext rfl hps hqs
  have h2 : is_joinable (snapshot_at a p) = false := by
    rw [is_joinable_eq _ hb]; simpa [snapshot_at] using hj
  simp only [snapshot_at] at h1 h2 ⊢
  simp [walk_step, h1, update_node_status, h2, join_nodes_if_need, Node.is_join_head, hps]

theorem walk_step_join (a : VariableAllocator) (p : Nat)
    (hnext : (a.nodes_ p).next ≠ a.node_count_)
    (hps : (a.nodes_ p).status = 0)
    (hqs : (a.nodes_ (a.nodes_ p).next).status = 0)
    (hne : (a.nodes_ p).next ≠ p)
    (hb : p + (a.nodes_ p).count < 2 ^ 32)
    (hj : (a.nodes_ p).next = p + (a.nodes_ p).count) :
    ∃ a3 : VariableAllocator,
      walk_step a (snapshot_at a p) = .ok (true, a3, snapshot_at a3 p, snapshot_at a3 p) ∧
      a3.node_count_ = a.node_count_ ∧ a3.nodes_is_null = a.nodes_is_null ∧
      (a3.nodes_ p).next = (a.nodes_ (a.nodes_ p).next).next ∧
      (a3.nodes_ p).count = ((a.nodes_ p).count + (a.nodes_ (a.nodes_ p).next).count) % 2 ^ 30 ∧
      (a3.nodes_ p).status = 0 ∧
      ∀ i, i ≠ p → i ≠ (a.nodes_ p).next → a3.nodes_ i = a.nodes_ i := by
  have h1 := get_next_snapshot_ok a (snapshot_at a p) hnext rfl hps hqs
  have h2 : is_joinable (snapshot_at a p) = true := by
    rw [is_joinable_eq _ hb]; simpa [snapshot_at] using hj
  simp only [snapshot_at] at h1 h2 ⊢
  generalize hq : (a.nodes_ p).next = q at *
  generalize hnp : a.nodes_ p = np at *
  generalize hnq : a.nodes_ q = nq at *
  let pm : Node := np.change_status (np.status ||| Node.JOIN_HEAD)
  let qm : Node := nq.change_status (nq.status ||| Node.JOIN_TAIL)
  let a1 : VariableAllocator := { a with nodes_ := Function.update a.nodes_ p pm }
  let a2 : VariableAllocator := { a1 with nodes_ := Function.update a1.nodes_ q qm }
  let a3 : VariableAllocator := { a2 with nodes_ := Function.update a2.nodes_ p (pm.join qm) }
  have c1 : compare_and_swap a ⟨p, np⟩ pm = (true, a1, ⟨p, pm⟩) := cas_ok a ⟨p, np⟩ pm hnp
  have c2 : compare_and_swap a1 ⟨q, nq⟩ qm = (true, a2, ⟨q, qm⟩) :=
    cas_ok a1 ⟨q, nq⟩ qm (by simp [a1, Function.update, hne, hnq])
  have c3 : compare_and_swap a2 ⟨p, pm⟩ (pm.join qm) = (true, a3, ⟨p, pm.join qm⟩) :=
    cas_ok a2 ⟨p, pm⟩ (pm.join qm) (by simp [a2, a1, Function.update, Ne.symm hne])
  have hjm : is_joinable ⟨p, pm⟩ = true := by
    simpa [is_joinable, pm, Node.change_status] using h2
  have hpmh : pm.is_join_head = true := by
    simp [pm, Node.change_status, Node.is_join_head, hps, Node.JOIN_HEAD]
  have hqmt : qm.is_join_tail = true := by
    simp [qm, Node.change_status, Node.is_join_tail, hqs, Node.JOIN_TAIL]
  refine ⟨a3, ?_, rfl, rfl, ?_, ?_, ?_, ?_⟩
  · simp only [walk_step, h1, update_node_status, h2]
    simp [c1, c2, join_nodes_if_need, hjm, c3, hpmh, hqmt, snapshot_at, a3]
  · simp [a3, Node.join, qm, Node.change_status]
  · simp [a3, Node.join, qm, pm, Node.change_status]
  · simp [a3, Node.join, qm, pm, Node.change_status, hps, hqs, Node.JOIN_HEAD, Node.JOIN_TAIL]
  · intro i hi1 hi2
    simp [a3, a2, a1, Function.update, hi1, hi2]

end imque

namespace imque

/-! ## Lists of runs -/

theorem first_index_le (T : Nat) : ∀ l : List (Nat × Nat), WF T l → first_index T l ≤ T
  | [], _ => le_refl _
  | p :: rest, h => by
    have h1 := first_index_le T rest h.2.2
    have h2 := h.2.1
    simp only [first_index]
    omega

theorem WF_lt_of_mem (T : Nat) : ∀ (rest : List (Nat × Nat)) (p : Nat × Nat),
    WF T (p :: rest) → ∀ r ∈ rest, p.1 < r.1
  | [], _, _, r, hr => by simp at hr
  | q :: rest, p, h, r, hr => by
    have hpq : p.1 < q.1 := h.2.1
    rcases List.mem_cons.1 hr with h1 | h1
    · rw [h1]; exact hpq
    · exact lt_trans hpq (WF_lt_of_mem T rest q h.2.2 r h1)

theorem Repr_congr {nodes nodes1 : Nat → Node} (T : Nat) : ∀ l : List (Nat × Nat),
    (∀ r ∈ l, nodes1 r.1 = nodes r.1) → Repr nodes T l → Repr nodes1 T l
  | [], _, _ => trivial
  | p :: rest, h, hr => by
    have hp := h p (List.mem_cons_self _ _)
    refine ⟨by rw [hp]; exact hr.1, by rw [hp]; exact hr.2.1, by rw [hp]; exact hr.2.2.1, ?_⟩
    exact Repr_congr T rest (fun r hr1 => h r (List.mem_cons_of_mem _ hr1)) hr.2.2.2

theorem aresult_cons (p : Nat × Nat) (l : List (Nat × Nat))
    (o : Option ((Nat × Nat) × List (Nat × Nat))) :
    aresult (p :: l, o) = p :: aresult (l, o) := by
  cases o <;> rfl

theorem first_index_aresult (T : Nat) (P : Nat → Nat → Nat → Bool) :
    ∀ (rest : List (Nat × Nat)) (p : Nat × Nat),
      first_index T (aresult (awalk T P p rest)) = p.1
  | [], p => rfl
  | q :: rest, p => by
    unfold awalk
    split_ifs with h1 h2 h3
    · rfl
    · exact first_index_aresult T P rest (p.1, p.2 + q.2)
    · rfl
    · rw [aresult_cons]; rfl

/-! ## The walk on memory follows the walk on the list -/

theorem find_candidate_sim (fn : NodeSnapshot → Bool) (P : Nat → Nat → Nat → Bool)
    (hfn : ∀ s : NodeSnapshot, s.val.status = 0 → fn s = P s.place s.val.count s.val.next)
    (N : Nat) (hN : N < 2 ^ 24) :
    ∀ (rest : List (Nat × Nat)) (p : Nat × Nat) (a : VariableAllocator) (fuel : Nat) (retry : Int),
      a.node_count_ = N → WF N (p :: rest) → Repr a.nodes_ N (p :: rest) →
      rest.length < fuel → 0 ≤ retry →
      ∃ a1 : VariableAllocator,
        find_candidate fn fuel a (snapshot_at a p.1) retry
          = .ok ((awalk N P p rest).2.map (fun mp => snapshot_at a1 mp.1.1), a1) ∧
        a1.node_count_ = N ∧ a1.nodes_is_null = a.nodes_is_null ∧
        Repr a1.nodes_ N (aresult (awalk N P p rest)) ∧
        ∀ i, i ∉ (p :: rest).map Prod.fst → a1.nodes_ i = a.nodes_ i := by
  intro rest
  induction rest with
  | nil =>
    intro p a fuel retry haN hwf hrep hfuel hretry
    obtain ⟨k, rfl⟩ : ∃ k, fuel = k + 1 := ⟨fuel - 1, by simp at hfuel; omega⟩
    have hnext : (a.nodes_ p.1).next = a.node_count_ := by rw [haN]; exact hrep.1
    refine ⟨a, ?_, haN, rfl, hrep, fun _ _ => rfl⟩
    simp [find_candidate, snapshot_at, hnext, not_lt.2 hretry, awalk]
  | cons q rest ih =>
    intro p a fuel retry haN hwf hrep hfuel hretry
    obtain ⟨k, rfl⟩ : ∃ k, fuel = k + 1 := ⟨fuel - 1, by simp at hfuel; omega⟩
    have hk : rest.length < k := by simpa using hfuel
    have hnx : (a.nodes_ p.1).next = q.1 := hrep.1
    have hcnt : (a.nodes_ p.1).count = p.2 := hrep.2.1
    have hps : (a.nodes_ p.1).status = 0 := hrep.2.2.1
    have hrq := hrep.2.2.2
    have hqnx : (a.nodes_ q.1).next = first_index N rest := hrq.1
    have hqcnt : (a.nodes_ q.1).count = q.2 := hrq.2.1
    have hqs : (a.nodes_ q.1).status = 0 := hrq.2.2.1
    have hpq : p.1 < q.1 := hwf.2.1
    have hpq2 : p.1 + p.2 ≤ q.1 := hwf.1
    have hq1 : q.1 + q.2 ≤ first_index N rest := hwf.2.2.1
    have hq2 : q.1 < first_index N rest := hwf.2.2.2.1
    have hfi : first_index N rest ≤ N := first_index_le N rest hwf.2.2.2.2
    have hnext : (a.nodes_ p.1).next ≠ a.node_count_ := by rw [hnx, haN]; omega
    have hqs1 : (a.nodes_ (a.nodes_ p.1).next).status = 0 := by rw [hnx]; exact hqs
    have hb : p.1 + (a.nodes_ p.1).count < 2 ^ 32 := by rw [hcnt]; omega
    have hlt := WF_lt_of_mem N rest q hwf.2.2
    by_cases hj : p.1 + p.2 = q.1
    · -- the two runs touch: they are joined
      obtain ⟨a3, hstep, h3N, h3null, h3nx, h3cnt, h3s, h3frame⟩ :=
        walk_step_join a p.1 hnext hps hqs1 (by rw [hnx]; omega) hb (by rw [hnx, hcnt]; omega)
      rw [hnx] at h3nx h3cnt h3frame
      rw [hqnx] at h3nx
      rw [hcnt, hqcnt, Nat.mod_eq_of_lt (by omega)] at h3cnt
      have hrep3 : Repr a3.nodes_ N ((p.1, p.2 + q.2) :: rest) := by
        refine ⟨h3nx, h3cnt, h3s, ?_⟩
        refine Repr_congr N rest (fun r hr => h3frame r.1 ?_ ?_) hrq.2.2.2
        · have := hlt r hr; omega
        · have := hlt r hr; omega
      have hfn3 : fn (snapshot_at a3 p.1) = P p.1 (p.2 + q.2) (first_index N rest) := by
        rw [hfn _ h3s]; simp only [snapshot_at]; rw [h3cnt, h3nx]
      by_cases hP : P p.1 (p.2 + q.2) (first_index N rest) = true
      · refine ⟨a3, ?_, by rw [h3N, haN], h3null, ?_, ?_⟩
        · simp [find_candidate, not_lt.2 hretry, hstep, hfn3, hP, awalk, hj]
          simpa [snapshot_at] using hnext
        · simpa [awalk, hj, hP, aresult] using hrep3
        · intro i hi
          simp only [List.map_cons, List.mem_cons, not_or] at hi
          exact h3frame i hi.1 hi.2.1
      · have hwf3 : WF N ((p.1, p.2 + q.2) :: rest) := by
          refine ⟨?_, ?_, hwf.2.2.2.2⟩
          · show p.1 + (p.2 + q.2) ≤ first_index N rest
            omega
          · show p.1 < first_index N rest
            omega
        obtain ⟨a4, hfc, h4N, h4null, h4rep, h4frame⟩ :=
          ih (p.1, p.2 + q.2) a3 k retry (by rw [h3N, haN]) hwf3 hrep3 hk hretry
        refine ⟨a4, ?_, h4N, by rw [h4null, h3null], ?_, ?_⟩
        · simp only [Bool.not_eq_true] at hP
          simp [find_candidate, not_lt.2 hretry, hstep, hfn3, hP, awalk, hj]
          rw [if_neg (by simpa [snapshot_at] using hnext)]
          exact hfc
        · simp only [Bool.not_eq_true] at hP
          simpa [awalk, hj, hP] using h4rep
        · intro i hi
          simp only [List.map_cons, List.mem_cons, not_or] at hi
          rw [h4frame i (by simp only [List.map_cons, List.mem_cons, not_or]; exact ⟨hi.1, hi.2.2⟩)]
          exact h3frame i hi.1 hi.2.1
    · -- a gap between the runs: nothing is written
      have hstep := walk_step_nojoin a p.1 hnext hps hqs1 hb (by rw [hnx, hcnt]; omega)
      rw [hnx] at hstep
      have hfnq : fn (snapshot_at a q.1) = P q.1 q.2 (first_index N rest) := by
        rw [hfn _ hqs]; simp only [snapshot_at]; rw [hqcnt, hqnx]
      by_cases hP : P q.1 q.2 (first_index N rest) = true
      · refine ⟨a, ?_, haN, rfl, ?_, fun _ _ => rfl⟩
        · simp [find_candidate, not_lt.2 hretry, hstep, hfnq, hP, awalk, hj]
          simpa [snapshot_at] using hnext
        · simpa [awalk, hj, hP, aresult] using hrep
      · obtain ⟨a4, hfc, h4N, h4null, h4rep, h4frame⟩ :=
          ih q a k retry haN hwf.2.2 hrq hk hretry
        have hpn : p.1 ∉ (q :: rest).map Prod.fst := by
          simp only [List.map_cons, List.mem_cons, List.mem_map, not_or, not_exists, not_and]
          refine ⟨by omega, fun r hr => ?_⟩
          have := hlt r hr; omega
        refine ⟨a4, ?_, h4N, h4null, ?_, ?_⟩
        · simp only [Bool.not_eq_true] at hP
          simp [find_candidate, not_lt.2 hretry, hstep, hfnq, hP, awalk, hj]
          rw [if_neg (by simpa [snapshot_at] using hnext)]
          exact hfc
        · simp only [Bool.not_eq_true] at hP
          simp only [awalk, hj, hP, if_false, aresult_cons, Bool.false_eq_true]
          have hp4 := h4frame p.1 hpn
          refine ⟨?_, by rw [hp4]; exact hcnt, by rw [hp4]; exact hps, h4rep⟩
          rw [hp4, first_index_aresult]; exact hnx
        · intro i hi
          simp only [List.map_cons, List.mem_cons, not_or] at hi
          exact h4frame i (by simp only [List.map_cons, List.mem_cons, not_or]; exact hi.2)

end imque

namespace imque

/-! ## Properties of the walk on lists -/

theorem WF_bound (T : Nat) : ∀ l : List (Nat × Nat), WF T l → ∀ r ∈ l, r.1 + r.2 ≤ T ∧ r.1 < T
  | [], _, r, hr => by simp at hr
  | p :: rest, h, r, hr => by
    have hfi := first_index_le T rest h.2.2
    rcases List.mem_cons.1 hr with h1 | h1
    · subst h1
      exact ⟨le_trans h.1 hfi, lt_of_lt_of_le h.2.1 hfi⟩
    · exact WF_bound T rest h.2.2 r h1

theorem WF_ge_of_mem (T : Nat) : ∀ (rest : List (Nat × Nat)) (p : Nat × Nat),
    WF T (p :: rest) → ∀ r ∈ rest, p.1 + p.2 ≤ r.1
  | [], _, _, r, hr => by simp at hr
  | q :: rest, p, h, r, hr => by
    have hpq : p.1 + p.2 ≤ q.1 := h.1
    rcases List.mem_cons.1 hr with h1 | h1
    · rw [h1]; exact hpq
    · have := WF_lt_of_mem T rest q h.2.2 r h1
      omega

theorem first_index_append (T : Nat) (l1 l2 : List (Nat × Nat)) :
    first_index T (l1 ++ l2) = first_index (first_index T l2) l1 := by
  cases l1 <;> rfl

theorem WF_append (T : Nat) (l2 : List (Nat × Nat)) : ∀ l1 : List (Nat × Nat),
    WF T (l1 ++ l2) ↔ WF (first_index T l2) l1 ∧ WF T l2
  | [] => by simp [WF]
  | p :: rest => by
    show (p.1 + p.2 ≤ first_index T (rest ++ l2) ∧ p.1 < first_index T (rest ++ l2) ∧
        WF T (rest ++ l2)) ↔
      (p.1 + p.2 ≤ first_index (first_index T l2) rest ∧
        p.1 < first_index (first_index T l2) rest ∧ WF (first_index T l2) rest) ∧ WF T l2
    rw [first_index_append, WF_append T l2 rest]
    tauto

theorem Repr_append (nodes : Nat → Node) (T : Nat) (l2 : List (Nat × Nat)) :
    ∀ l1 : List (Nat × Nat),
      Repr nodes T (l1 ++ l2) ↔ Repr nodes (first_index T l2) l1 ∧ Repr nodes T l2
  | [] => by simp [Repr]
  | p :: rest => by
    show ((nodes p.1).next = first_index T (rest ++ l2) ∧ (nodes p.1).count = p.2 ∧
        (nodes p.1).status = Node.AVAILABLE ∧ Repr nodes T (rest ++ l2)) ↔
      ((nodes p.1).next = first_index (first_index T l2) rest ∧ (nodes p.1).count = p.2 ∧
        (nodes p.1).status = Node.AVAILABLE ∧ Repr nodes (first_index T l2) rest) ∧ Repr nodes T l2
    rw [first_index_append, Repr_append nodes T l2 rest]
    tauto

theorem count_sum_append : ∀ l1 l2 : List (Nat × Nat),
    count_sum (l1 ++ l2) = count_sum l1 + count_sum l2
  | [], l2 => by simp [count_sum]
  | p :: rest, l2 => by
    show p.2 + count_sum (rest ++ l2) = p.2 + count_sum rest + count_sum l2
    rw [count_sum_append rest l2]
    omega

theorem covers_append (l1 l2 : List (Nat × Nat)) (x : Nat) :
    covers (l1 ++ l2) x ↔ covers l1 x ∨ covers l2 x := by
  simp only [covers, List.mem_append]
  constructor
  · rintro ⟨r, h1 | h1, h2⟩
    · exact Or.inl ⟨r, h1, h2⟩
    · exact Or.inr ⟨r, h1, h2⟩
  · rintro (⟨r, h1, h2⟩ | ⟨r, h1, h2⟩)
    · exact ⟨r, Or.inl h1, h2⟩
    · exact ⟨r, Or.inr h1, h2⟩

theorem covers_cons (p : Nat × Nat) (l : List (Nat × Nat)) (x : Nat) :
    covers (p :: l) x ↔ (p.1 ≤ x ∧ x < p.1 + p.2) ∨ covers l x := by
  simp [covers]

theorem covers_nil (x : Nat) : ¬ covers [] x := by
  simp [covers]

theorem awalk_WF (T : Nat) (P : Nat → Nat → Nat → Bool) :
    ∀ (rest : List (Nat × Nat)) (p : Nat × Nat),
      WF T (p :: rest) → WF T (aresult (awalk T P p rest))
  | [], p, h => h
  | q :: rest, p, h => by
    have hm : p.1 + p.2 = q.1 → WF T ((p.1, p.2 + q.2) :: rest) := fun hj => by
      have h1 : q.1 + q.2 ≤ first_index T rest := h.2.2.1
      have h2 : q.1 < first_index T rest := h.2.2.2.1
      have h3 : p.1 < q.1 := h.2.1
      exact ⟨show p.1 + (p.2 + q.2) ≤ first_index T rest by omega,
        show p.1 < first_index T rest by omega, h.2.2.2.2⟩
    unfold awalk
    split_ifs with h1 h2 h3
    · exact hm h1
    · exact awalk_WF T P rest _ (hm h1)
    · exact h
    · rw [aresult_cons]
      refine ⟨?_, ?_, awalk_WF T P rest q h.2.2⟩
      · rw [first_index_aresult]; exact h.1
      · rw [first_index_aresult]; exact h.2.1

theorem awalk_count_sum (T : Nat) (P : Nat → Nat → Nat → Bool) :
    ∀ (rest : List (Nat × Nat)) (p : Nat × Nat),
      count_sum (aresult (awalk T P p rest)) = count_sum (p :: rest)
  | [], p => rfl
  | q :: rest, p => by
    unfold awalk
    split_ifs with h1 h2 h3
    · simp only [aresult, List.nil_append, count_sum]; omega
    · rw [awalk_count_sum T P rest]; simp only [count_sum]; omega
    · rfl
    · rw [aresult_cons]
      simp only [count_sum]
      rw [awalk_count_sum T P rest]
      simp only [count_sum]

theorem awalk_covers (T : Nat) (P : Nat → Nat → Nat → Bool) (x : Nat) :
    ∀ (rest : List (Nat × Nat)) (p : Nat × Nat),
      covers (aresult (awalk T P p rest)) x ↔ covers (p :: rest) x
  | [], p => Iff.rfl
  | q :: rest, p => by
    have hm : p.1 + p.2 = q.1 →
        (covers ((p.1, p.2 + q.2) :: rest) x ↔ covers (p :: q :: rest) x) := fun hj => by
      simp only [covers_cons]
      constructor
      · rintro (h | h)
        · by_cases hx : x < p.1 + p.2
          · exact Or.inl ⟨h.1, hx⟩
          · exact Or.inr (Or.inl ⟨by omega, by omega⟩)
        · exact Or.inr (Or.inr h)
      · rintro (h | h | h)
        · exact Or.inl ⟨h.1, by omega⟩
        · exact Or.inl ⟨by omega, by omega⟩
        · exact Or.inr h
    unfold awalk
    split_ifs with h1 h2 h3
    · exact hm h1
    · rw [awalk_covers T P x rest]; exact hm h1
    · exact Iff.rfl
    · rw [aresult_cons, covers_cons, awalk_covers T P x rest, covers_cons p]

theorem awalk_pos (T : Nat) (P : Nat → Nat → Nat → Bool) :
    ∀ (rest : List (Nat × Nat)) (p : Nat × Nat),
      (∀ r ∈ p :: rest, r.1 ≠ 0 → 1 ≤ r.2) →
      ∀ r ∈ aresult (awalk T P p rest), r.1 ≠ 0 → 1 ≤ r.2
  | [], p, h => h
  | q :: rest, p, h => by
    have hm : ∀ r ∈ (p.1, p.2 + q.2) :: rest, r.1 ≠ 0 → 1 ≤ r.2 := by
      intro r hr hr0
      rcases List.mem_cons.1 hr with h1 | h1
      · subst h1
        have := h p (List.mem_cons_self _ _) hr0
        show 1 ≤ p.2 + q.2
        omega
      · exact h r (List.mem_cons_of_mem _ (List.mem_cons_of_mem _ h1)) hr0
    unfold awalk
    split_ifs with h1 h2 h3
    · exact hm
    · exact awalk_pos T P rest _ hm
    · exact h
    · rw [aresult_cons]
      intro r hr hr0
      rcases List.mem_cons.1 hr with h4 | h4
      · exact h r (by rw [h4]; exact List.mem_cons_self _ _) hr0
      · exact awalk_pos T P rest q (fun r hr => h r (List.mem_cons_of_mem _ hr)) r h4 hr0

theorem awalk_found_P (T : Nat) (P : Nat → Nat → Nat → Bool) :
    ∀ (rest : List (Nat × Nat)) (p m : Nat × Nat) (post : List (Nat × Nat)),
      (awalk T P p rest).2 = some (m, post) → P m.1 m.2 (first_index T post) = true
  | [], p, m, post, h => by simp [awalk] at h
  | q :: rest, p, m, post, h => by
    unfold awalk at h
    split_ifs at h with h1 h2 h3
    · simp only [Option.some.injEq, Prod.mk.injEq] at h
      obtain ⟨rfl, rfl⟩ := h
      exact h2
    · exact awalk_found_P T P rest _ m post h
    · simp only [Option.some.injEq, Prod.mk.injEq] at h
      obtain ⟨rfl, rfl⟩ := h
      exact h3
    · exact awalk_found_P T P rest _ m post h

theorem awalk_head (T : Nat) (P : Nat → Nat → Nat → Bool) (p : Nat × Nat) :
    ∀ rest : List (Nat × Nat), p.1 + p.2 ≠ first_index T rest →
      ∃ l o, awalk T P p rest = (p :: l, o) ∧ first_index T (aresult (l, o)) = first_index T rest
  | [], _ => ⟨[], none, rfl, rfl⟩
  | q :: rest, h => by
    have hj : ¬ p.1 + p.2 = q.1 := h
    unfold awalk
    rw [if_neg hj]
    split_ifs with h3
    · exact ⟨[], some (q, rest), rfl, rfl⟩
    · exact ⟨_, _, rfl, first_index_aresult T P rest q⟩

/-- A walk for `IsPredecessor d` stops at a run that starts at or before `d`. -/
theorem awalk_pred_le (T d : Nat) :
    ∀ (rest : List (Nat × Nat)) (p m : Nat × Nat) (post : List (Nat × Nat)),
      p.1 ≤ d → first_index T rest ≤ d →
      (awalk T (fun _ _ nx => decide (d < nx)) p rest).2 = some (m, post) → m.1 ≤ d
  | [], p, m, post, _, _, h => by simp [awalk] at h
  | q :: rest, p, m, post, hp, hq, h => by
    unfold awalk at h
    split_ifs at h with h1 h2 h3
    · simp only [Option.some.injEq, Prod.mk.injEq] at h
      obtain ⟨rfl, rfl⟩ := h
      exact hp
    · exact awalk_pred_le T d rest (p.1, p.2 + q.2) m post hp (by simpa using h2) h
    · simp only [Option.some.injEq, Prod.mk.injEq] at h
      obtain ⟨rfl, rfl⟩ := h
      exact hq
    · exact awalk_pred_le T d rest q m post hq (by simpa using h3) h

/-- A walk for `IsPredecessor d` finds a run when `d` is below the end of the list. -/
theorem awalk_pred_found (T d : Nat) (hd : d < T) :
    ∀ (rest : List (Nat × Nat)) (p : Nat × Nat), rest ≠ [] →
      ∃ m post, (awalk T (fun _ _ nx => decide (d < nx)) p rest).2 = some (m, post)
  | [], _, h => absurd rfl h
  | [q], p, _ => by
    unfold awalk
    split_ifs with h1 h2 h3
    · exact ⟨_, _, rfl⟩
    · simp [first_index, hd] at h2
    · exact ⟨_, _, rfl⟩
    · simp [first_index, hd] at h3
  | q :: r :: rest, p, _ => by
    unfold awalk
    split_ifs with h1 h2 h3
    · exact ⟨_, _, rfl⟩
    · exact awalk_pred_found T d hd (r :: rest) _ (by simp)
    · exact ⟨_, _, rfl⟩
    · exact awalk_pred_found T d hd (r :: rest) _ (by simp)

end imque

namespace imque

theorem awalk_indices (T : Nat) (P : Nat → Nat → Nat → Bool) :
    ∀ (rest : List (Nat × Nat)) (p : Nat × Nat),
      ∀ r ∈ aresult (awalk T P p rest), r.1 ∈ (p :: rest).map Prod.fst
  | [], p, r, hr => by
    simp only [awalk, aresult, List.mem_singleton] at hr
    simp [hr]
  | q :: rest, p, r, hr => by
    have hm : ∀ r ∈ (p.1, p.2 + q.2) :: rest, r.1 ∈ (p :: q :: rest).map Prod.fst := by
      intro r hr
      rcases List.mem_cons.1 hr with h | h
      · subst h; simp
      · simp only [List.map_cons, List.mem_cons, List.mem_map]
        exact Or.inr (Or.inr ⟨r, h, rfl⟩)
    unfold awalk at hr
    split_ifs at hr with h1 h2 h3
    · exact hm r hr
    · have := awalk_indices T P rest _ r hr
      simp only [List.map_cons, List.mem_cons] at this ⊢
      rcases this with h | h
      · exact Or.inl h
      · exact Or.inr (Or.inr h)
    · simp only [aresult, List.singleton_append, List.mem_cons] at hr
      simp only [List.map_cons, List.mem_cons, List.mem_map]
      rcases hr with h | h | h
      · exact Or.inl (by rw [h])
      · exact Or.inr (Or.inl (by rw [h]))
      · exact Or.inr (Or.inr ⟨r, h, rfl⟩)
    · rw [aresult_cons] at hr
      rcases List.mem_cons.1 hr with h | h
      · subst h; simp
      · have := awalk_indices T P rest q r h
        simp only [List.map_cons, List.mem_cons] at this ⊢
        exact Or.inr this

theorem aresult_found (pre : List (Nat × Nat)) (m : Nat × Nat) (post : List (Nat × Nat)) :
    aresult (pre, some (m, post)) = pre ++ m :: post := rfl

theorem IsEnoughChunk_eq (n : Nat) (s : NodeSnapshot) (h : s.val.status = 0) :
    IsEnoughChunk n s = (fun _ c _ => decide (n < c)) s.place s.val.count s.val.next := by
  simp [IsEnoughChunk, Node.is_avaiable, h, Node.AVAILABLE]

theorem IsPredecessor_eq (d : Nat) (s : NodeSnapshot) :
    IsPredecessor d s = (fun _ _ nx => decide (d < nx)) s.place s.val.count s.val.next := rfl

/-- On a well-formed free list `allocate` returns what `aalloc` computes and leaves
the list `aalloc` computes in memory. -/
theorem allocate_sim (N : Nat) (hN : N < 2 ^ 24) (a : VariableAllocator)
    (p : Nat × Nat) (rest : List (Nat × Nat)) (size fuel : Nat)
    (haN : a.node_count_ = N) (hp0 : p.1 = 0) (hwf : WF N (p :: rest))
    (hrep : Repr a.nodes_ N (p :: rest))
    (hs0 : 0 < size) (hs : size < 2 ^ 32) (hfuel : (p :: rest).length < fuel) :
    ∃ a1 : VariableAllocator,
      a.allocate fuel size = .ok ((aalloc N ((size + 31) / 32) (p :: rest)).1, a1) ∧
      a1.node_count_ = N ∧ a1.nodes_is_null = a.nodes_is_null ∧
      Repr a1.nodes_ N (aalloc N ((size + 31) / 32) (p :: rest)).2 ∧
      ((aalloc N ((size + 31) / 32) (p :: rest)).1 ≠ 0 →
        (a1.nodes_ (aalloc N ((size + 31) / 32) (p :: rest)).1).count = (size + 31) / 32 ∧
        (a1.nodes_ (aalloc N ((size + 31) / 32) (p :: rest)).1).status = 0) ∧
      ∀ i, i ∉ (p :: rest).map Prod.fst → i ≠ (aalloc N ((size + 31) / 32) (p :: rest)).1 →
        a1.nodes_ i = a.nodes_ i := by
  obtain ⟨k, rfl⟩ : ∃ k, fuel = k + 1 := ⟨fuel - 1, by simp at hfuel; omega⟩
  have hk : rest.length < k := by simpa using hfuel
  have hneed : ((size + 32 - 1) / 32) % 2 ^ 32 = (size + 31) / 32 := by omega
  obtain ⟨a1, hfc, h1N, h1null, h1rep, h1frame⟩ :=
    find_candidate_sim (IsEnoughChunk ((size + 31) / 32)) (fun _ c _ => decide ((size + 31) / 32 < c))
      (fun s hs => IsEnoughChunk_eq _ s hs) N hN rest p a k RETRY_LIMIT haN hwf hrep hk
      (by simp [RETRY_LIMIT])
  have hwf1 := awalk_WF N (fun _ c _ => decide ((size + 31) / 32 < c)) rest p hwf
  have hidx := awalk_indices N (fun _ c _ => decide ((size + 31) / 32 < c)) rest p
  have hP := awalk_found_P N (fun _ c _ => decide ((size + 31) / 32 < c)) rest p
  rw [hp0] at hfc
  rcases hw : awalk N (fun _ c _ => decide ((size + 31) / 32 < c)) p rest with ⟨pre, _ | ⟨m, post⟩⟩
  · -- no run is large enough
    rw [hw] at hfc h1rep
    refine ⟨a1, ?_, h1N, h1null, ?_, ?_, ?_⟩
    · simp only [VariableAllocator.allocate, Nat.pos_iff_ne_zero.1 hs0, if_false, hneed, hfc,
        Option.map_none', aalloc, hw]
    · simpa [aalloc, hw, aresult] using h1rep
    · simp [aalloc, hw]
    · intro i hi _
      exact h1frame i hi
  · -- the run `m` is split
    rw [hw] at hfc h1rep hwf1 hidx
    have hPm := hP m post (by rw [hw])
    simp only [decide_eq_true_eq] at hPm
    rw [aresult_found] at h1rep hwf1 hidx
    have hrepm := ((Repr_append _ _ _ _).1 h1rep).2
    have hreppre := ((Repr_append _ _ _ _).1 h1rep).1
    have hwfm := ((WF_append _ _ _).1 hwf1).2
    have hwfpre := ((WF_append _ _ _).1 hwf1).1
    have hmN := WF_bound N _ hwfm m (List.mem_cons_self _ _)
    have hmcnt : (a1.nodes_ m.1).count = m.2 := hrepm.2.1
    have hmnx : (a1.nodes_ m.1).next = first_index N post := hrepm.1
    have hms : (a1.nodes_ m.1).status = 0 := hrepm.2.2.1
    have hnc : (m.2 + 2 ^ 32 - (size + 31) / 32) % 2 ^ 32 = m.2 - (size + 31) / 32 := by omega
    have hidx2 : (m.1 + (m.2 - (size + 31) / 32)) % 2 ^ 32 = m.1 + (m.2 - (size + 31) / 32) := by
      omega
    have hne : m.1 + (m.2 - (size + 31) / 32) ≠ m.1 := by omega
    have hcas := cas_ok a1 (snapshot_at a1 m.1)
      ((a1.nodes_ m.1).change_count (m.2 - (size + 31) / 32)) rfl
    let nm : Node := (a1.nodes_ m.1).change_count (m.2 - (size + 31) / 32)
    let na : Nat → Node := Function.update a1.nodes_ m.1 nm
    let nd : Node :=
      { next := (na (m.1 + (m.2 - (size + 31) / 32))).next
        version := (nm.version + 1) % 2 ^ 6
        count := ((size + 31) / 32) % 2 ^ 30
        status := Node.AVAILABLE }
    have hA : ∀ i, i ≠ m.1 → i ≠ m.1 + (m.2 - (size + 31) / 32) →
        Function.update na (m.1 + (m.2 - (size + 31) / 32)) nd i = a1.nodes_ i := by
      intro i h1 h2
      rw [Function.update_noteq h2]
      exact Function.update_noteq h1 _ _
    have hM : Function.update na (m.1 + (m.2 - (size + 31) / 32)) nd m.1 = nm := by
      rw [Function.update_noteq (Ne.symm hne)]
      exact Function.update_same _ _ _
    have hD : Function.update na (m.1 + (m.2 - (size + 31) / 32)) nd
        (m.1 + (m.2 - (size + 31) / 32)) = nd := Function.update_same _ _ _
    have hal : aalloc N ((size + 31) / 32) (p :: rest)
        = (m.1 + (m.2 - (size + 31) / 32), pre ++ (m.1, m.2 - (size + 31) / 32) :: post) := by
      simp only [aalloc, hw]
    rw [hal]
    refine ⟨{ a1 with nodes_ := Function.update na (m.1 + (m.2 - (size + 31) / 32)) nd },
      ?_, ?_, ?_, ?_, ?_, ?_⟩
    · simp only [VariableAllocator.allocate, Nat.pos_iff_ne_zero.1 hs0, if_false, hneed, haN, hfc,
        Option.map_some']
      simp only [snapshot_at] at hcas ⊢
      rw [hmcnt, hnc, hcas]
      simp only [hidx2, na, nd, nm]
      rw [hidx2]
    · exact h1N
    · exact h1null
    · rw [Repr_append]
      refine ⟨?_, ?_, ?_, ?_, ?_⟩
      · refine Repr_congr _ pre (fun r hr => ?_) hreppre
        have := (WF_bound _ pre hwfpre r hr).2
        simp only [first_index] at this
        exact hA r.1 (by omega) (by omega)
      · show (Function.update na (m.1 + (m.2 - (size + 31) / 32)) nd m.1).next = first_index N post
        rw [hM]; exact hmnx
      · show (Function.update na (m.1 + (m.2 - (size + 31) / 32)) nd m.1).count
          = m.2 - (size + 31) / 32
        rw [hM]
        show (m.2 - (size + 31) / 32) % 2 ^ 30 = m.2 - (size + 31) / 32
        omega
      · show (Function.update na (m.1 + (m.2 - (size + 31) / 32)) nd m.1).status = Node.AVAILABLE
        rw [hM]; exact hms
      · refine Repr_congr _ post (fun r hr => ?_) hrepm.2.2.2
        have := WF_ge_of_mem N post m hwfm r hr
        exact hA r.1 (by omega) (by omega)
    · intro _
      show (Function.update na (m.1 + (m.2 - (size + 31) / 32)) nd
          (m.1 + (m.2 - (size + 31) / 32))).count = _ ∧
        (Function.update na (m.1 + (m.2 - (size + 31) / 32)) nd
          (m.1 + (m.2 - (size + 31) / 32))).status = _
      rw [hD]
      refine ⟨?_, rfl⟩
      show ((size + 31) / 32) % 2 ^ 30 = (size + 31) / 32
      omega
    · intro i hi hid
      have him : i ≠ m.1 := fun h => hi (h ▸ hidx m (by simp))
      show Function.update na (m.1 + (m.2 - (size + 31) / 32)) nd i = a.nodes_ i
      rw [hA i him hid]
      exact h1frame i hi

end imque

namespace imque

/-- On a well-formed free list `release` of a held run returns true and leaves the list
`arelease` computes in memory. -/
theorem release_sim (N : Nat) (hN : N < 2 ^ 24) (a : VariableAllocator)
    (p : Nat × Nat) (rest : List (Nat × Nat)) (d k fuel : Nat)
    (haN : a.node_count_ = N) (hp0 : p.1 = 0) (hwf : WF N (p :: rest))
    (hrep : Repr a.nodes_ N (p :: rest)) (hrest : rest ≠ [])
    (hd0 : 0 < d) (hdN : d < N) (hdk : d + k ≤ N)
    (hdi : d ∉ (p :: rest).map Prod.fst)
    (hdc : (a.nodes_ d).count = k) (hds : (a.nodes_ d).status = 0)
    (hpred : ∀ pre m post, awalk N (fun _ _ nx => decide (d < nx)) p rest = (pre, some (m, post)) →
      m.1 + m.2 ≤ d)
    (hfuel : (p :: rest).length < fuel) :
    ∃ a1 : VariableAllocator,
      a.release fuel d = .ok (true, a1) ∧
      a1.node_count_ = N ∧ a1.nodes_is_null = a.nodes_is_null ∧
      Repr a1.nodes_ N (arelease N d k (p :: rest)) ∧
      ∀ i, i ∉ (p :: rest).map Prod.fst → i ≠ d → a1.nodes_ i = a.nodes_ i := by
  obtain ⟨j, rfl⟩ : ∃ j, fuel = j + 1 := ⟨fuel - 1, by simp at hfuel; omega⟩
  have hj : rest.length < j := by simpa using hfuel
  obtain ⟨a1, hfc, h1N, h1null, h1rep, h1frame⟩ :=
    find_candidate_sim (IsPredecessor d) (fun _ _ nx => decide (d < nx))
      (fun s _ => IsPredecessor_eq d s) N hN rest p a j RETRY_LIMIT haN hwf hrep hj
      (by simp [RETRY_LIMIT])
  have hwf1 := awalk_WF N (fun _ _ nx => decide (d < nx)) rest p hwf
  have hidx := awalk_indices N (fun _ _ nx => decide (d < nx)) rest p
  rw [hp0] at hfc
  rcases hw : awalk N (fun _ _ nx => decide (d < nx)) p rest with ⟨pre, _ | ⟨m, post⟩⟩
  · obtain ⟨m, post, hfound⟩ := awalk_pred_found N d hdN rest p hrest
    rw [hw] at hfound; simp at hfound
  have hmd := hpred pre m post hw
  rw [hw] at hfc h1rep hwf1 hidx
  rw [aresult_found] at h1rep hwf1 hidx
  have hrepm := ((Repr_append _ _ _ _).1 h1rep).2
  have hreppre := ((Repr_append _ _ _ _).1 h1rep).1
  have hwfm := ((WF_append _ _ _).1 hwf1).2
  have hwfpre := ((WF_append _ _ _).1 hwf1).1
  have hmN := WF_bound N _ hwfm m (List.mem_cons_self _ _)
  have hmcnt : (a1.nodes_ m.1).count = m.2 := hrepm.2.1
  have hmnx : (a1.nodes_ m.1).next = first_index N post := hrepm.1
  have hms : (a1.nodes_ m.1).status = 0 := hrepm.2.2.1
  have hmne : m.1 ≠ d := fun h => hdi (h ▸ hidx m (by simp))
  have h1d : a1.nodes_ d = a.nodes_ d := h1frame d hdi
  have hmod : (m.1 + (a1.nodes_ m.1).count) % 2 ^ 32 = m.1 + m.2 := by rw [hmcnt]; omega
  have hge : ¬ ¬ (d ≥ (m.1 + (a1.nodes_ m.1).count) % 2 ^ 32) := by
    rw [hmod]; exact not_not.2 hmd
  have hav : ¬ ¬ ((a1.nodes_ m.1).is_avaiable = true) := by
    simp [Node.is_avaiable, hms, Node.AVAILABLE]
  have hprei : ∀ r ∈ pre, r.1 ≠ m.1 ∧ r.1 ≠ d := fun r hr =>
    ⟨by have := (WF_bound _ pre hwfpre r hr).2; simp only [first_index] at this; omega,
     fun h => hdi (h ▸ hidx r (by simp [hr]))⟩
  have hposti : ∀ r ∈ post, r.1 ≠ m.1 ∧ r.1 ≠ d := fun r hr =>
    ⟨by have := WF_lt_of_mem N post m hwfm r hr; omega,
     fun h => hdi (h ▸ hidx r (by simp [hr]))⟩
  by_cases hnb : d = m.1 + m.2
  · -- the run is appended to the run before it
    have hbeq : (d == (m.1 + (a1.nodes_ m.1).count) % 2 ^ 32) = true := by
      rw [hmod]; simpa using hnb
    have har : arelease N d k (p :: rest) = pre ++ (m.1, m.2 + k) :: post := by
      simp only [arelease, hw]
      rw [if_pos hnb]
    rw [har]
    let nm : Node := (a1.nodes_ m.1).change_count (((a1.nodes_ m.1).count + (a1.nodes_ d).count) % 2 ^ 32)
    have hcas := cas_ok a1 (snapshot_at a1 m.1) nm rfl
    have hA : ∀ i, i ≠ m.1 → Function.update a1.nodes_ m.1 nm i = a1.nodes_ i :=
      fun i h => Function.update_noteq h _ _
    have hM : Function.update a1.nodes_ m.1 nm m.1 = nm := Function.update_same _ _ _
    refine ⟨{ a1 with nodes_ := Function.update a1.nodes_ m.1 nm }, ?_, h1N, h1null, ?_, ?_⟩
    · simp only [VariableAllocator.release, VariableAllocator.release_impl, haN]
      rw [if_neg (by omega), hfc]
      simp only [Option.map_some', snapshot_at] at hcas ⊢
      rw [if_neg hge, if_neg hav]
      simp only [hbeq, if_true]
      rw [hcas]
    · rw [Repr_append]
      refine ⟨?_, ?_, ?_, ?_, ?_⟩
      · exact Repr_congr _ pre (fun r hr => hA r.1 (hprei r hr).1) hreppre
      · show (Function.update a1.nodes_ m.1 nm m.1).next = first_index N post
        rw [hM]; exact hmnx
      · show (Function.update a1.nodes_ m.1 nm m.1).count = m.2 + k
        rw [hM]
        show (((a1.nodes_ m.1).count + (a1.nodes_ d).count) % 2 ^ 32) % 2 ^ 30 = m.2 + k
        rw [hmcnt, h1d, hdc]
        omega
      · show (Function.update a1.nodes_ m.1 nm m.1).status = Node.AVAILABLE
        rw [hM]; exact hms
      · exact Repr_congr _ post (fun r hr => hA r.1 (hposti r hr).1) hrepm.2.2.2
    · intro i hi hid
      have him : i ≠ m.1 := fun h => hi (h ▸ hidx m (by simp))
      show Function.update a1.nodes_ m.1 nm i = a.nodes_ i
      rw [hA i him]
      exact h1frame i hi
  · -- the run becomes a node of the list, after `m`
    have hbeq : (d == (m.1 + (a1.nodes_ m.1).count) % 2 ^ 32) = false := by
      rw [hmod]; simpa using hnb
    have har : arelease N d k (p :: rest) = pre ++ m :: (d, k) :: post := by
      simp only [arelease, hw]
      rw [if_neg hnb]
    rw [har]
    let nd : Node := { a1.nodes_ d with next := (a1.nodes_ m.1).next }
    let na : Nat → Node := Function.update a1.nodes_ d nd
    let nm : Node := (a1.nodes_ m.1).change_next d
    have hcas := cas_ok { a1 with nodes_ := na } (snapshot_at a1 m.1) nm
      (Function.update_noteq hmne _ _)
    have hA : ∀ i, i ≠ m.1 → i ≠ d → Function.update na m.1 nm i = a1.nodes_ i := by
      intro i h1 h2
      rw [Function.update_noteq h1]
      exact Function.update_noteq h2 _ _
    have hM : Function.update na m.1 nm m.1 = nm := Function.update_same _ _ _
    have hD : Function.update na m.1 nm d = nd := by
      rw [Function.update_noteq (Ne.symm hmne)]
      exact Function.update_same _ _ _
    refine ⟨{ a1 with nodes_ := Function.update na m.1 nm }, ?_, h1N, h1null, ?_, ?_⟩
    · simp only [VariableAllocator.release, VariableAllocator.release_impl, haN]
      rw [if_neg (by omega), hfc]
      simp only [Option.map_some', snapshot_at] at hcas ⊢
      rw [if_neg hge, if_neg hav]
      simp only [hbeq, Bool.false_eq_true, if_false]
      rw [hcas]
    · rw [Repr_append]
      refine ⟨?_, ?_, ?_, ?_, ?_, ?_, ?_, ?_⟩
      · exact Repr_congr _ pre (fun r hr => hA r.1 (hprei r hr).1 (hprei r hr).2) hreppre
      · show (Function.update na m.1 nm m.1).next = d
        rw [hM]
        show d % 2 ^ 26 = d
        omega
      · show (Function.update na m.1 nm m.1).count = m.2
        rw [hM]; exact hmcnt
      · show (Function.update na m.1 nm m.1).status = Node.AVAILABLE
        rw [hM]; exact hms
      · show (Function.update na m.1 nm d).next = first_index N post
        rw [hD]; exact hmnx
      · show (Function.update na m.1 nm d).count = k
        rw [hD]
        show (a1.nodes_ d).count = k
        rw [h1d]; exact hdc
      · show (Function.update na m.1 nm d).status = Node.AVAILABLE
        rw [hD]
        show (a1.nodes_ d).status = 0
        rw [h1d]; exact hds
      · exact Repr_congr _ post (fun r hr => hA r.1 (hposti r hr).1 (hposti r hr).2) hrepm.2.2.2
    · intro i hi hid
      have him : i ≠ m.1 := fun h => hi (h ▸ hidx m (by simp))
      show Function.update na m.1 nm i = a.nodes_ i
      rw [hA i him hid]
      exact h1frame i hi

end imque

namespace imque

/-! ## More fuel does not change an answer -/

theorem find_candidate_fuel_succ (fn : NodeSnapshot → Bool) :
    ∀ (fuel : Nat) (a : VariableAllocator) (pred : NodeSnapshot) (retry : Int)
      (x : Option NodeSnapshot × VariableAllocator),
      find_candidate fn fuel a pred retry = .ok x →
      find_candidate fn (fuel + 1) a pred retry = .ok x
  | 0, _, _, _, _, h => by simp [find_candidate] at h
  | fuel + 1, a, pred, retry, x, h => by
    unfold find_candidate at h ⊢
    split_ifs at h ⊢ with h1 h2
    · exact h
    · exact h
    · rcases hs : walk_step a pred with ⟨b, a1, p1, c1⟩ | _ | _
      · rw [hs] at h
        cases b
        · exact find_candidate_fuel_succ fn fuel a1 _ _ x h
        · simp only at h ⊢
          split_ifs at h ⊢ with h3
          · exact h
          · exact find_candidate_fuel_succ fn fuel a1 _ _ x h
      · rw [hs] at h; simp at h
      · rw [hs] at h; simp at h

theorem find_candidate_fuel_mono (fn : NodeSnapshot → Bool) (fuel fuel1 : Nat)
    (a : VariableAllocator) (pred : NodeSnapshot) (retry : Int)
    (x : Option NodeSnapshot × VariableAllocator) (hle : fuel ≤ fuel1)
    (h : find_candidate fn fuel a pred retry = .ok x) :
    find_candidate fn fuel1 a pred retry = .ok x := by
  induction hle with
  | refl => exact h
  | step _ ih => exact find_candidate_fuel_succ fn _ a pred retry x ih

end imque

namespace imque

theorem allocate_fuel_succ :
    ∀ (fuel : Nat) (a : VariableAllocator) (size : Nat) (x : Nat × VariableAllocator),
      a.allocate fuel size = .ok x → a.allocate (fuel + 1) size = .ok x
  | 0, _, _, _, h => by simp [VariableAllocator.allocate] at h
  | fuel + 1, a, size, x, h => by
    unfold VariableAllocator.allocate at h ⊢
    split_ifs at h ⊢ with h1
    · exact h
    · simp only at h ⊢
      rcases hs : find_candidate (IsEnoughChunk (((size + 32 - 1) / 32) % 2 ^ 32)) fuel a
          (snapshot_at a 0) RETRY_LIMIT with ⟨o, a1⟩ | _ | _
      · rw [hs] at h
        rw [find_candidate_fuel_succ _ fuel a _ _ _ hs]
        cases o with
        | none => exact h
        | some cand =>
          simp only at h ⊢
          rcases hc : compare_and_swap a1 cand
              (cand.val.change_count ((cand.val.count + 2 ^ 32 - ((size + 32 - 1) / 32) % 2 ^ 32) % 2 ^ 32))
            with ⟨b, a2, c2⟩
          rw [hc] at h
          cases b
          · exact allocate_fuel_succ fuel a2 size x h
          · exact h
      · rw [hs] at h; simp at h
      · rw [hs] at h; simp at h

theorem allocate_fuel_mono (fuel fuel1 : Nat) (a : VariableAllocator) (size : Nat)
    (x : Nat × VariableAllocator) (hle : fuel ≤ fuel1) (h : a.allocate fuel size = .ok x) :
    a.allocate fuel1 size = .ok x := by
  induction hle with
  | refl => exact h
  | step _ ih => exact allocate_fuel_succ _ a size x ih

theorem release_impl_fuel_succ :
    ∀ (fuel : Nat) (a : VariableAllocator) (d : Nat) (retry : Int) (fast : Bool)
      (x : Bool × VariableAllocator),
      a.release_impl fuel d retry fast = .ok x → a.release_impl (fuel + 1) d retry fast = .ok x
  | 0, _, _, _, _, _, h => by simp [VariableAllocator.release_impl] at h
  | fuel + 1, a, d, retry, fast, x, h => by
    unfold VariableAllocator.release_impl at h ⊢
    by_cases h1 : d = 0 ∨ d ≥ a.node_count_
    · rw [if_pos h1] at h ⊢
      exact h
    · rw [if_neg h1] at h ⊢
      rcases hs : find_candidate (IsPredecessor d) fuel a (snapshot_at a 0) retry with ⟨o, a1⟩ | _ | _
      · rw [hs] at h
        rw [find_candidate_fuel_succ _ fuel a _ _ _ hs]
        cases o with
        | none => exact h
        | some pred =>
          simp only at h ⊢
          by_cases h3 : ¬ (d ≥ (pred.place + pred.val.count) % 2 ^ 32)
          · rw [if_pos h3] at h ⊢; exact h
          · rw [if_neg h3] at h ⊢
            by_cases h4 : ¬ pred.val.is_avaiable = true
            · rw [if_pos h4] at h ⊢; exact h
            · rw [if_neg h4] at h ⊢
              generalize compare_and_swap _ pred _ = r at h ⊢
              rcases r with ⟨b, a3, c3⟩
              cases b
              · simp only at h ⊢
                cases fast
                · exact release_impl_fuel_succ fuel a3 d retry false x h
                · exact h
              · exact h
      · rw [hs] at h; simp at h
      · rw [hs] at h; simp at h

theorem release_fuel_mono (fuel fuel1 : Nat) (a : VariableAllocator) (d : Nat)
    (x : Bool × VariableAllocator) (hle : fuel ≤ fuel1) (h : a.release fuel d = .ok x) :
    a.release fuel1 d = .ok x := by
  induction hle with
  | refl => exact h
  | step _ ih => exact release_impl_fuel_succ _ a d _ _ x ih

end imque

namespace imque

/-! ## The invariant -/

theorem is_valid_bounds (a : VariableAllocator) (h : a.is_valid = true) :
    2 < a.node_count_ ∧ a.node_count_ < 2 ^ 24 := by
  simp only [VariableAllocator.is_valid, NODE_COUNT_LIMIT, Bool.and_eq_true, decide_eq_true_eq] at h
  exact ⟨h.1.2, by have := h.2; omega⟩

theorem is_valid_congr (a a1 : VariableAllocator) (hN : a1.node_count_ = a.node_count_)
    (hnull : a1.nodes_is_null = a.nodes_is_null) (h : a.is_valid = true) : a1.is_valid = true := by
  simp only [VariableAllocator.is_valid, hN, hnull] at h ⊢
  exact h

theorem init_node_count (a : VariableAllocator) : a.init.node_count_ = a.node_count_ := by
  unfold VariableAllocator.init
  split_ifs <;> rfl

theorem init_is_valid (a : VariableAllocator) (h : a.is_valid = true) : a.init.is_valid = true := by
  unfold VariableAllocator.init
  rw [if_pos h]
  exact h

theorem init_node0 (a : VariableAllocator) (h : a.is_valid = true) :
    (a.init.nodes_ 0).next = 1 ∧ (a.init.nodes_ 0).count = 0 ∧ (a.init.nodes_ 0).status = 0 := by
  unfold VariableAllocator.init
  rw [if_pos h]
  simp [Function.update, Node.AVAILABLE]

theorem init_node1 (a : VariableAllocator) (h : a.is_valid = true) :
    (a.init.nodes_ 1).next = a.node_count_ ∧ (a.init.nodes_ 1).count = a.node_count_ - 1 ∧
      (a.init.nodes_ 1).status = 0 := by
  have hb := is_valid_bounds a h
  unfold VariableAllocator.init
  rw [if_pos h]
  simp only [Function.update, Node.AVAILABLE, dite_eq_ite, if_true, eq_rec_constant]
  refine ⟨?_, ?_, trivial⟩
  · show a.node_count_ % 2 ^ 26 = a.node_count_
    omega
  · show (a.node_count_ - 1) % 2 ^ 30 = a.node_count_ - 1
    omega

theorem Inv_init (a : VariableAllocator) (h : a.is_valid = true) :
    Inv a.init [(0, 0), (1, a.node_count_ - 1)] [] := by
  have hb := is_valid_bounds a h
  have h0 := init_node0 a h
  have h1 := init_node1 a h
  have hN := init_node_count a
  refine ⟨init_is_valid a h, ⟨[(1, a.node_count_ - 1)], rfl, rfl⟩, ?_, ?_, ?_, List.nodup_nil,
    ?_, ?_, ?_, ?_⟩
  · rw [hN]
    refine ⟨?_, ?_, ?_, ?_, trivial⟩ <;> simp only [first_index] <;> omega
  · intro r hr hr0
    simp only [List.mem_cons, List.mem_singleton, List.not_mem_nil, or_false] at hr
    rcases hr with rfl | rfl
    · exact absurd rfl hr0
    · show 1 ≤ a.node_count_ - 1
      omega
  · rw [hN]
    exact ⟨h0.1, h0.2.1, h0.2.2, h1.1, h1.2.1, h1.2.2, trivial⟩
  · intro d hd; simp at hd
  · intro d hd; simp at hd
  · intro d hd; simp at hd
  · rw [hN]
    simp [count_sum]

theorem Inv.bounds {a : VariableAllocator} {fl : List (Nat × Nat)} {held : List Nat}
    (h : Inv a fl held) : 2 < a.node_count_ ∧ a.node_count_ < 2 ^ 24 :=
  is_valid_bounds a h.valid

theorem covers_of_mem {l : List (Nat × Nat)} {r : Nat × Nat} (hr : r ∈ l) (h : 1 ≤ r.2) :
    covers l r.1 :=
  ⟨r, hr, le_refl _, by omega⟩

theorem Inv.held_not_index {a : VariableAllocator} {fl : List (Nat × Nat)} {held : List Nat}
    (h : Inv a fl held) {d : Nat} (hd : d ∈ held) : d ∉ fl.map Prod.fst := by
  intro hmem
  obtain ⟨r, hr, hrd⟩ := List.mem_map.1 hmem
  have hok := h.held_ok d hd
  have hr0 : r.1 ≠ 0 := by rw [hrd]; omega
  have hcov := covers_of_mem hr (h.pos r hr hr0)
  rw [hrd] at hcov
  exact h.disj_free d hd d (le_refl _) (by omega) hcov

end imque

namespace imque

theorem first_index_append_cons (T : Nat) (l post : List (Nat × Nat)) (i c c1 : Nat) :
    first_index T (l ++ (i, c) :: post) = first_index T (l ++ (i, c1) :: post) := by
  cases l <;> rfl

/-- The invariant is kept by `allocate`, which answers what `aalloc` computes. -/
theorem Inv_allocate (a : VariableAllocator) (fl : List (Nat × Nat)) (held : List Nat)
    (h : Inv a fl held) (size fuel : Nat) (hs0 : 0 < size) (hs : size < 2 ^ 32)
    (hfuel : fl.length < fuel) :
    ∃ a1 : VariableAllocator,
      a.allocate fuel size = .ok ((aalloc a.node_count_ ((size + 31) / 32) fl).1, a1) ∧
      a1.node_count_ = a.node_count_ ∧
      (∀ e ∈ held, a1.nodes_ e = a.nodes_ e) ∧
      ((aalloc a.node_count_ ((size + 31) / 32) fl).1 ≠ 0 →
        (a1.nodes_ (aalloc a.node_count_ ((size + 31) / 32) fl).1).count = (size + 31) / 32) ∧
      Inv a1 (aalloc a.node_count_ ((size + 31) / 32) fl).2
        (if (aalloc a.node_count_ ((size + 31) / 32) fl).1 = 0 then held
         else (aalloc a.node_count_ ((size + 31) / 32) fl).1 :: held) := by
  obtain ⟨runs, rfl, hfi⟩ := h.head
  have hb := h.bounds
  obtain ⟨a1, hal, h1N, h1null, h1rep, h1d, h1frame⟩ :=
    allocate_sim a.node_count_ hb.2 a (0, 0) runs size fuel rfl rfl h.wf h.repr hs0 hs hfuel
  have hn1 : 1 ≤ (size + 31) / 32 := by omega
  have hwfW := awalk_WF a.node_count_ (fun _ c _ => decide ((size + 31) / 32 < c)) runs (0, 0) h.wf
  have hposW := awalk_pos a.node_count_ (fun _ c _ => decide ((size + 31) / 32 < c)) runs (0, 0) h.pos
  have hcovW := fun x =>
    awalk_covers a.node_count_ (fun _ c _ => decide ((size + 31) / 32 < c)) x runs (0, 0)
  have hsumW := awalk_count_sum a.node_count_ (fun _ c _ => decide ((size + 31) / 32 < c)) runs (0, 0)
  have hP := awalk_found_P a.node_count_ (fun _ c _ => decide ((size + 31) / 32 < c)) runs (0, 0)
  obtain ⟨l, o, hw, hfl⟩ := awalk_head a.node_count_ (fun _ c _ => decide ((size + 31) / 32 < c))
    (0, 0) runs (by rw [hfi]; simp)
  rw [hw] at hwfW hposW hcovW hsumW hP
  rw [hfi] at hfl
  have hvalid : a1.is_valid = true := is_valid_congr a a1 h1N h1null h.valid
  cases o with
  | none =>
    have hal2 : aalloc a.node_count_ ((size + 31) / 32) ((0, 0) :: runs) = (0, (0, 0) :: l) := by
      simp only [aalloc, hw]
    rw [hal2] at hal h1rep h1d h1frame ⊢
    dsimp only at hal h1rep h1d h1frame ⊢
    have hfr : ∀ e ∈ held, a1.nodes_ e = a.nodes_ e := fun e he =>
      h1frame e (h.held_not_index he) (by have := (h.held_ok e he).2.2.1; omega)
    refine ⟨a1, hal, h1N, hfr, fun h0 => absurd rfl h0, ?_⟩
    simp only [if_true]
    rw [aresult_cons] at hwfW hposW hcovW hsumW
    have hl : aresult (l, none) = l := rfl
    rw [hl] at hwfW hposW hcovW hsumW hfl
    refine ⟨hvalid, ⟨l, rfl, by rw [h1N]; exact hfl⟩, by rw [h1N]; exact hwfW, hposW,
      by rw [h1N]; exact h1rep, h.held_nodup, ?_, ?_, ?_, ?_⟩
    · intro e he
      rw [hfr e he, h1N]
      exact h.held_ok e he
    · intro e he x hx1 hx2 hc
      rw [hfr e he] at hx2
      exact h.disj_free e he x hx1 hx2 ((hcovW x).1 hc)
    · intro e he f hf hne
      rw [hfr e he, hfr f hf]
      exact h.disj_held e he f hf hne
    · rw [h1N, hsumW, List.map_congr_left (fun e he => by rw [hfr e he])]
      exact h.total
  | some mp =>
    obtain ⟨m, post⟩ := mp
    have hal2 : aalloc a.node_count_ ((size + 31) / 32) ((0, 0) :: runs)
        = (m.1 + (m.2 - (size + 31) / 32),
           ((0, 0) :: l) ++ (m.1, m.2 - (size + 31) / 32) :: post) := by
      simp only [aalloc, hw]
    rw [hal2] at hal h1rep h1d h1frame ⊢
    dsimp only at hal h1rep h1d h1frame ⊢
    have hPm := hP m post rfl
    simp only [decide_eq_true_eq] at hPm
    rw [aresult_found] at hwfW hposW hcovW hsumW
    have hlr : aresult (l, some (m, post)) = l ++ m :: post := rfl
    rw [hlr] at hfl
    have hwfm := ((WF_append _ _ _).1 hwfW).2
    have hwfpre := ((WF_append _ _ _).1 hwfW).1
    have hmN := WF_bound _ _ hwfm m (List.mem_cons_self _ _)
    have hcovm : ∀ x, m.1 ≤ x → x < m.1 + m.2 → covers ((0, 0) :: runs) x := fun x hx1 hx2 =>
      (hcovW x).1 ((covers_append _ _ _).2 (Or.inr ((covers_cons _ _ _).2 (Or.inl ⟨hx1, hx2⟩))))
    have hd0 : m.1 + (m.2 - (size + 31) / 32) ≠ 0 := by omega
    have hdnew : m.1 + (m.2 - (size + 31) / 32) ∉ held := fun hmem =>
      h.disj_free _ hmem _ (le_refl _) (by have := (h.held_ok _ hmem).2.1; omega)
        (hcovm _ (by omega) (by omega))
    have hfr : ∀ e ∈ held, a1.nodes_ e = a.nodes_ e := fun e he =>
      h1frame e (h.held_not_index he) (fun heq => hdnew (heq ▸ he))
    have hdc := (h1d hd0).1
    have hds := (h1d hd0).2
    have hsub : ∀ x, covers (((0, 0) :: l) ++ (m.1, m.2 - (size + 31) / 32) :: post) x →
        covers (((0, 0) :: l) ++ m :: post) x ∧
          ¬ (m.1 + (m.2 - (size + 31) / 32) ≤ x ∧ x < m.1 + m.2) := by
      intro x hx
      rcases (covers_append _ _ _).1 hx with hx | hx
      · refine ⟨(covers_append _ _ _).2 (Or.inl hx), ?_⟩
        obtain ⟨r, hr, hr1, hr2⟩ := hx
        have := (WF_bound _ _ hwfpre r hr).1
        simp only [first_index] at this
        omega
      · rcases (covers_cons _ _ _).1 hx with hx | hx
        · simp only at hx
          exact ⟨(covers_append _ _ _).2 (Or.inr ((covers_cons _ _ _).2 (Or.inl ⟨hx.1, by omega⟩))),
            by omega⟩
        · refine ⟨(covers_append _ _ _).2 (Or.inr ((covers_cons _ _ _).2 (Or.inr hx))), ?_⟩
          obtain ⟨r, hr, hr1, hr2⟩ := hx
          have := WF_ge_of_mem _ post m hwfm r hr
          omega
    refine ⟨a1, hal, h1N, hfr, fun _ => hdc, ?_⟩
    rw [if_neg hd0]
    refine ⟨hvalid, ⟨l ++ (m.1, m.2 - (size + 31) / 32) :: post, rfl, ?_⟩, ?_, ?_,
      by rw [h1N]; exact h1rep, List.nodup_cons.2 ⟨hdnew, h.held_nodup⟩, ?_, ?_, ?_, ?_⟩
    · rw [h1N, first_index_append_cons _ l post m.1 _ m.2]; exact hfl
    · rw [h1N, WF_append]
      exact ⟨hwfpre, show m.1 + (m.2 - (size + 31) / 32) ≤ first_index _ post by
        have := hwfm.1; omega, hwfm.2.1, hwfm.2.2⟩
    · intro r hr hr0
      rcases List.mem_append.1 hr with hr1 | hr1
      · exact hposW r (List.mem_append.2 (Or.inl hr1)) hr0
      · rcases List.mem_cons.1 hr1 with hr2 | hr2
        · subst hr2
          show 1 ≤ m.2 - (size + 31) / 32
          omega
        · exact hposW r (List.mem_append.2 (Or.inr (List.mem_cons_of_mem _ hr2))) hr0
    · intro e he
      rcases List.mem_cons.1 he with he | he
      · subst he
        rw [hdc, h1N]
        exact ⟨hds, hn1, by omega, by omega⟩
      · rw [hfr e he, h1N]
        exact h.held_ok e he
    · intro e he x hx1 hx2 hc
      have hc2 := hsub x hc
      rcases List.mem_cons.1 he with he | he
      · subst he
        rw [hdc] at hx2
        exact hc2.2 ⟨hx1, by omega⟩
      · rw [hfr e he] at hx2
        exact h.disj_free e he x hx1 hx2 ((hcovW x).1 hc2.1)
    · have key : ∀ e ∈ held, m.1 + (m.2 - (size + 31) / 32) + (size + 31) / 32 ≤ e ∨
          e + (a.nodes_ e).count ≤ m.1 + (m.2 - (size + 31) / 32) := by
        intro e he
        by_contra hcon
        have hok := h.held_ok e he
        by_cases hle : e ≤ m.1 + (m.2 - (size + 31) / 32)
        · exact h.disj_free e he (m.1 + (m.2 - (size + 31) / 32)) hle (by omega)
            (hcovm _ (by omega) (by omega))
        · exact h.disj_free e he e (le_refl _) (by omega) (hcovm _ (by omega) (by omega))
      intro e he f hf hne
      rcases List.mem_cons.1 he with he | he <;> rcases List.mem_cons.1 hf with hf | hf
      · exact absurd (he.trans hf.symm) hne
      · subst he
        rw [hdc, hfr f hf]
        exact key f hf
      · subst hf
        rw [hdc, hfr e he]
        exact (key e he).symm
      · rw [hfr e he, hfr f hf]
        exact h.disj_held e he f hf hne
    · rw [h1N, List.map_cons, List.sum_cons, hdc,
        List.map_congr_left (fun e he => by rw [hfr e he])]
      have ht := h.total
      rw [← hsumW] at ht
      have e1 : count_sum (((0, 0) :: l) ++ m :: post)
          = count_sum ((0, 0) :: l) + (m.2 + count_sum post) := by
        rw [count_sum_append]; rfl
      have e2 : count_sum (((0, 0) :: l) ++ (m.1, m.2 - (size + 31) / 32) :: post)
          = count_sum ((0, 0) :: l) + ((m.2 - (size + 31) / 32) + count_sum post) := by
        rw [count_sum_append]; rfl
      rw [e1] at ht
      rw [e2]
      omega

end imque

namespace imque

theorem sum_map_erase_add (f : Nat → Nat) : ∀ (l : List Nat) (d : Nat), d ∈ l →
    ((l.erase d).map f).sum + f d = (l.map f).sum
  | [], d, h => by simp at h
  | e :: l, d, h => by
    by_cases hde : e = d
    · subst hde
      simp [Nat.add_comm]
    · have hd : d ∈ l := by
        rcases List.mem_cons.1 h with h1 | h1
        · exact absurd h1.symm hde
        · exact h1
      have ih := sum_map_erase_add f l d hd
      rw [List.erase_cons_tail (by simpa using hde)]
      simp only [List.map_cons, List.sum_cons]
      omega

/-- The invariant is kept by `release` of a held descriptor, which returns true. -/
theorem Inv_release (a : VariableAllocator) (fl : List (Nat × Nat)) (held : List Nat)
    (h : Inv a fl held) (d fuel : Nat) (hd : d ∈ held) (hfuel : fl.length < fuel) :
    ∃ a1 : VariableAllocator,
      a.release fuel d = .ok (true, a1) ∧
      a1.node_count_ = a.node_count_ ∧
      (∀ e ∈ held, e ≠ d → a1.nodes_ e = a.nodes_ e) ∧
      Inv a1 (arelease a.node_count_ d (a.nodes_ d).count fl) (held.erase d) := by
  obtain ⟨runs, rfl, hfi⟩ := h.head
  have hb := h.bounds
  have hok := h.held_ok d hd
  have hruns : runs ≠ [] := by
    intro h0
    rw [h0] at hfi
    simp only [first_index] at hfi
    omega
  have hwfW := awalk_WF a.node_count_ (fun _ _ nx => decide (d < nx)) runs (0, 0) h.wf
  have hposW := awalk_pos a.node_count_ (fun _ _ nx => decide (d < nx)) runs (0, 0) h.pos
  have hcovW := fun x => awalk_covers a.node_count_ (fun _ _ nx => decide (d < nx)) x runs (0, 0)
  have hsumW := awalk_count_sum a.node_count_ (fun _ _ nx => decide (d < nx)) runs (0, 0)
  have hP := awalk_found_P a.node_count_ (fun _ _ nx => decide (d < nx)) runs (0, 0)
  have hle := awalk_pred_le a.node_count_ d runs (0, 0)
  obtain ⟨l, o, hw, hfl⟩ := awalk_head a.node_count_ (fun _ _ nx => decide (d < nx))
    (0, 0) runs (by rw [hfi]; simp)
  obtain ⟨m, post, hfound⟩ := awalk_pred_found a.node_count_ d (by omega) runs (0, 0) hruns
  rw [hw] at hwfW hposW hcovW hsumW hP hfound hle
  rw [hfi] at hfl hle
  dsimp only at hfound
  subst hfound
  have hPm := hP m post rfl
  simp only [decide_eq_true_eq] at hPm
  rw [aresult_found] at hwfW hposW hcovW hsumW
  have hlr : aresult (l, some (m, post)) = l ++ m :: post := rfl
  rw [hlr] at hfl
  have hwfm := ((WF_append _ _ _).1 hwfW).2
  have hwfpre := ((WF_append _ _ _).1 hwfW).1
  have hmN := WF_bound _ _ hwfm m (List.mem_cons_self _ _)
  have hmem : m ∈ ((0, 0) :: l) ++ m :: post := List.mem_append.2 (Or.inr (List.mem_cons_self _ _))
  have hnotcov : ∀ x, d ≤ x → x < d + (a.nodes_ d).count →
      ¬ covers (((0, 0) :: l) ++ m :: post) x := fun x hx1 hx2 hc =>
    h.disj_free d hd x hx1 hx2 ((hcovW x).1 hc)
  have hmle : m.1 ≤ d := hle m post (by simp) hok.2.2.1 rfl
  have hmd : m.1 + m.2 ≤ d := by
    by_contra hcon
    exact hnotcov d (le_refl _) (by omega) ⟨m, hmem, hmle, by omega⟩
  have hmlt : m.1 < d := by
    by_cases hm0 : m.1 = 0
    · omega
    · have := hposW m hmem hm0
      omega
  have hdpost : d + (a.nodes_ d).count ≤ first_index a.node_count_ post := by
    cases post with
    | nil => exact hok.2.2.2
    | cons r post1 =>
      simp only [first_index] at hPm ⊢
      by_contra hcon
      have hrm : r ∈ ((0, 0) :: l) ++ m :: r :: post1 :=
        List.mem_append.2 (Or.inr (List.mem_cons_of_mem _ (List.mem_cons_self _ _)))
      have hr1 := hposW r hrm (by omega)
      exact hnotcov r.1 (by omega) (by omega) (covers_of_mem hrm hr1)
  obtain ⟨a1, hrel, h1N, h1null, h1rep, h1frame⟩ :=
    release_sim a.node_count_ hb.2 a (0, 0) runs d (a.nodes_ d).count fuel rfl rfl h.wf h.repr
      hruns (by omega) (by omega) hok.2.2.2 (h.held_not_index hd) rfl hok.1
      (fun pre1 m1 post1 hw1 => by
        rw [hw] at hw1
        simp only [Prod.mk.injEq, Option.some.injEq] at hw1
        obtain ⟨_, rfl, _⟩ := hw1
        exact hmd) hfuel
  have hvalid : a1.is_valid = true := is_valid_congr a a1 h1N h1null h.valid
  have hfr : ∀ e ∈ held, e ≠ d → a1.nodes_ e = a.nodes_ e := fun e he hne =>
    h1frame e (h.held_not_index he) hne
  have hfr2 : ∀ e ∈ held.erase d, a1.nodes_ e = a.nodes_ e := fun e he =>
    hfr e (List.mem_of_mem_erase he) ((List.Nodup.mem_erase_iff h.held_nodup).1 he).1
  refine ⟨a1, hrel, h1N, hfr, ?_⟩
  have hcovnew : ∀ x, covers (arelease a.node_count_ d (a.nodes_ d).count ((0, 0) :: runs)) x →
      covers (((0, 0) :: l) ++ m :: post) x ∨ (d ≤ x ∧ x < d + (a.nodes_ d).count) := by
    intro x hx
    simp only [arelease, hw] at hx
    split_ifs at hx with hnb
    · rcases (covers_append _ _ _).1 hx with hx | hx
      · exact Or.inl ((covers_append _ _ _).2 (Or.inl hx))
      · rcases (covers_cons _ _ _).1 hx with hx | hx
        · simp only at hx
          by_cases hxd : x < d
          · exact Or.inl ((covers_append _ _ _).2 (Or.inr ((covers_cons _ _ _).2
              (Or.inl ⟨hx.1, by omega⟩))))
          · exact Or.inr ⟨by omega, by omega⟩
        · exact Or.inl ((covers_append _ _ _).2 (Or.inr ((covers_cons _ _ _).2 (Or.inr hx))))
    · rcases (covers_append _ _ _).1 hx with hx | hx
      · exact Or.inl ((covers_append _ _ _).2 (Or.inl hx))
      · rcases (covers_cons _ _ _).1 hx with hx | hx
        · exact Or.inl ((covers_append _ _ _).2 (Or.inr ((covers_cons _ _ _).2 (Or.inl hx))))
        · rcases (covers_cons _ _ _).1 hx with hx | hx
          · exact Or.inr hx
          · exact Or.inl ((covers_append _ _ _).2 (Or.inr ((covers_cons _ _ _).2 (Or.inr hx))))
  refine ⟨hvalid, ?_, ?_, ?_, by rw [h1N]; exact h1rep, List.Nodup.erase _ h.held_nodup,
    ?_, ?_, ?_, ?_⟩
  · rw [h1N]
    simp only [arelease, hw]
    split_ifs with hnb
    · exact ⟨l ++ (m.1, m.2 + (a.nodes_ d).count) :: post, rfl, by
        rw [first_index_append_cons _ l post m.1 _ m.2]; exact hfl⟩
    · refine ⟨l ++ m :: (d, (a.nodes_ d).count) :: post, rfl, ?_⟩
      rw [← hfl]
      cases l <;> rfl
  · rw [h1N]
    simp only [arelease, hw]
    split_ifs with hnb
    · rw [WF_append]
      exact ⟨hwfpre, show m.1 + (m.2 + (a.nodes_ d).count) ≤ first_index _ post by omega,
        hwfm.2.1, hwfm.2.2⟩
    · rw [WF_append]
      exact ⟨hwfpre, show m.1 + m.2 ≤ d from hmd, show m.1 < d from hmlt,
        show d + (a.nodes_ d).count ≤ first_index _ post from hdpost,
        show d < first_index _ post from hPm, hwfm.2.2⟩
  · intro r hr hr0
    simp only [arelease, hw] at hr
    split_ifs at hr with hnb
    · rcases List.mem_append.1 hr with hr1 | hr1
      · exact hposW r (List.mem_append.2 (Or.inl hr1)) hr0
      · rcases List.mem_cons.1 hr1 with hr2 | hr2
        · subst hr2
          show 1 ≤ m.2 + (a.nodes_ d).count
          omega
        · exact hposW r (List.mem_append.2 (Or.inr (List.mem_cons_of_mem _ hr2))) hr0
    · rcases List.mem_append.1 hr with hr1 | hr1
      · exact hposW r (List.mem_append.2 (Or.inl hr1)) hr0
      · rcases List.mem_cons.1 hr1 with hr2 | hr2
        · exact hposW r (List.mem_append.2 (Or.inr (hr2 ▸ List.mem_cons_self _ _))) hr0
        · rcases List.mem_cons.1 hr2 with hr3 | hr3
          · subst hr3
            exact hok.2.1
          · exact hposW r (List.mem_append.2 (Or.inr (List.mem_cons_of_mem _ hr3))) hr0
  · intro e he
    rw [hfr2 e he, h1N]
    exact h.held_ok e (List.mem_of_mem_erase he)
  · intro e he x hx1 hx2 hc
    rw [hfr2 e he] at hx2
    have he1 := List.mem_of_mem_erase he
    have hne := ((List.Nodup.mem_erase_iff h.held_nodup).1 he).1
    rcases hcovnew x hc with hc1 | hc1
    · exact h.disj_free e he1 x hx1 hx2 ((hcovW x).1 hc1)
    · have := h.disj_held e he1 d hd hne
      omega
  · intro e he f hf hne
    rw [hfr2 e he, hfr2 f hf]
    exact h.disj_held e (List.mem_of_mem_erase he) f (List.mem_of_mem_erase hf) hne
  · rw [h1N, List.map_congr_left (fun e he => by rw [hfr2 e he])]
    have ht := h.total
    rw [← hsumW, ← sum_map_erase_add (fun e => (a.nodes_ e).count) held d hd] at ht
    have e1 : count_sum (((0, 0) :: l) ++ m :: post)
        = count_sum ((0, 0) :: l) + (m.2 + count_sum post) := by
      rw [count_sum_append]; rfl
    rw [e1] at ht
    simp only [arelease, hw]
    split_ifs with hnb
    · have e2 : count_sum (((0, 0) :: l) ++ (m.1, m.2 + (a.nodes_ d).count) :: post)
          = count_sum ((0, 0) :: l) + ((m.2 + (a.nodes_ d).count) + count_sum post) := by
        rw [count_sum_append]; rfl
      rw [e2]
      omega
    · have e2 : count_sum (((0, 0) :: l) ++ m :: (d, (a.nodes_ d).count) :: post)
          = count_sum ((0, 0) :: l) + (m.2 + ((a.nodes_ d).count + count_sum post)) := by
        rw [count_sum_append]; rfl
      rw [e2]
      omega

end imque

namespace imque

theorem allocate_zero (a : VariableAllocator) (fuel : Nat) (hf : 0 < fuel) :
    a.allocate fuel 0 = .ok (0, a) := by
  obtain ⟨k, rfl⟩ : ∃ k, fuel = k + 1 := ⟨fuel - 1, by omega⟩
  simp [VariableAllocator.allocate]

theorem allocate_zero_of_ok (a a1 : VariableAllocator) (fuel d : Nat)
    (h : a.allocate fuel 0 = .ok (d, a1)) : d = 0 ∧ a1 = a := by
  cases fuel with
  | zero => simp [VariableAllocator.allocate] at h
  | succ k =>
    simp only [VariableAllocator.allocate, if_true, Res.ok.injEq, Prod.mk.injEq] at h
    exact ⟨h.1.symm, h.2.symm⟩

/-- Every reachable state satisfies the invariant for some list of runs. -/
theorem Reachable.inv {a : VariableAllocator} {held : List Nat} (h : Reachable a held) :
    ∃ fl, Inv a fl held := by
  induction h with
  | init a hv => exact ⟨_, Inv_init a hv⟩
  | allocate a a1 held fuel size d _ hs hal ih =>
    obtain ⟨fl, hinv⟩ := ih
    by_cases hs0 : size = 0
    · subst hs0
      obtain ⟨rfl, rfl⟩ := allocate_zero_of_ok a a1 fuel d hal
      exact ⟨fl, by simpa using hinv⟩
    · obtain ⟨a2, hal2, _, _, _, hinv2⟩ :=
        Inv_allocate a fl held hinv size (max fuel (fl.length + 1)) (Nat.pos_of_ne_zero hs0) hs
          (by omega)
      have := allocate_fuel_mono fuel (max fuel (fl.length + 1)) a size _ (le_max_left _ _) hal
      rw [this] at hal2
      simp only [Res.ok.injEq, Prod.mk.injEq] at hal2
      obtain ⟨hd, ha⟩ := hal2
      rw [← hd, ← ha] at hinv2
      exact ⟨_, hinv2⟩
  | release a a1 held fuel d b _ hd hrel ih =>
    obtain ⟨fl, hinv⟩ := ih
    obtain ⟨a2, hrel2, _, _, hinv2⟩ :=
      Inv_release a fl held hinv d (max fuel (fl.length + 1)) hd (by omega)
    have := release_fuel_mono fuel (max fuel (fl.length + 1)) a d _ (le_max_left _ _) hrel
    rw [this] at hrel2
    simp only [Res.ok.injEq, Prod.mk.injEq] at hrel2
    obtain ⟨hb, ha⟩ := hrel2
    subst hb
    subst ha
    exact ⟨_, by simpa using hinv2⟩

theorem WF_length (T : Nat) : ∀ l : List (Nat × Nat), WF T l → l.length + first_index T l ≤ T
  | [], _ => by simp [first_index]
  | p :: rest, h => by
    have ih := WF_length T rest h.2.2
    have := h.2.1
    simp only [List.length_cons, first_index]
    omega

theorem free_list_from_eq (a : VariableAllocator) : ∀ (l : List (Nat × Nat)) (fuel : Nat),
    WF a.node_count_ l → Repr a.nodes_ a.node_count_ l → l.length ≤ fuel →
    a.free_list_from fuel (first_index a.node_count_ l) = l
  | [], fuel, _, _, _ => by
    cases fuel <;> simp [VariableAllocator.free_list_from, first_index]
  | p :: rest, fuel, hwf, hrep, hf => by
    obtain ⟨k, rfl⟩ : ∃ k, fuel = k + 1 := ⟨fuel - 1, by simp at hf; omega⟩
    have hb := (WF_bound _ _ hwf p (List.mem_cons_self _ _)).2
    have ih := free_list_from_eq a rest k hwf.2.2 hrep.2.2.2 (by simpa using hf)
    simp only [VariableAllocator.free_list_from, first_index]
    rw [if_neg (by omega), hrep.1, ih, hrep.2.1]

theorem Inv.free_list_eq {a : VariableAllocator} {fl : List (Nat × Nat)} {held : List Nat}
    (h : Inv a fl held) : a.free_list = fl := by
  obtain ⟨runs, hfl, _⟩ := h.head
  have hlen := WF_length _ _ h.wf
  have := free_list_from_eq a fl a.node_count_ h.wf h.repr (by omega)
  rw [hfl] at this ⊢
  exact this

theorem Inv.length_le {a : VariableAllocator} {fl : List (Nat × Nat)} {held : List Nat}
    (h : Inv a fl held) : fl.length ≤ a.node_count_ := by
  have hlen := WF_length _ _ h.wf
  omega

theorem is_free_chunk_iff (a : VariableAllocator) (x : Nat) :
    a.is_free_chunk x = true ↔ covers a.free_list x := by
  simp [VariableAllocator.is_free_chunk, covers]

end imque

namespace imque

/-! ## Room for an allocation -/

theorem WF_first_le_of_mem (T : Nat) (l : List (Nat × Nat)) (h : WF T l) :
    ∀ r ∈ l, first_index T l ≤ r.1 := by
  cases l with
  | nil => intro r hr; simp at hr
  | cons p rest =>
    intro r hr
    rcases List.mem_cons.1 hr with h1 | h1
    · rw [h1]; exact le_refl _
    · exact le_of_lt (WF_lt_of_mem T rest p h r h1)

/-- A walk for `IsEnoughChunk n` that finds nothing leaves runs of at most `n` chunks
with a gap between any two. -/
theorem awalk_none (T n : Nat) : ∀ (rest : List (Nat × Nat)) (p : Nat × Nat),
    WF T (p :: rest) → p.2 ≤ n →
    (awalk T (fun _ c _ => decide (n < c)) p rest).2 = none →
    (aresult (awalk T (fun _ c _ => decide (n < c)) p rest)).Pairwise
        (fun r r1 => r.1 + r.2 < r1.1) ∧
      ∀ r ∈ aresult (awalk T (fun _ c _ => decide (n < c)) p rest), r.2 ≤ n
  | [], p, _, hp, _ => by
    simp only [awalk, aresult, List.pairwise_cons, List.not_mem_nil, false_implies, implies_true,
      List.Pairwise.nil, and_self, List.mem_singleton, forall_eq, true_and]
    exact hp
  | q :: rest, p, hwf, hp, hnone => by
    have hwfm : p.1 + p.2 = q.1 → WF T ((p.1, p.2 + q.2) :: rest) := fun hj => by
      have h1 : q.1 + q.2 ≤ first_index T rest := hwf.2.2.1
      have h2 : q.1 < first_index T rest := hwf.2.2.2.1
      have h3 : p.1 < q.1 := hwf.2.1
      exact ⟨show p.1 + (p.2 + q.2) ≤ first_index T rest by omega,
        show p.1 < first_index T rest by omega, hwf.2.2.2.2⟩
    unfold awalk at hnone ⊢
    by_cases h1 : p.1 + p.2 = q.1
    · rw [if_pos h1] at hnone ⊢
      by_cases h2 : decide (n < p.2 + q.2) = true
      · rw [if_pos h2] at hnone; simp at hnone
      · rw [if_neg h2] at hnone ⊢
        exact awalk_none T n rest _ (hwfm h1) (by simpa using h2) hnone
    · rw [if_neg h1] at hnone ⊢
      by_cases h3 : decide (n < q.2) = true
      · rw [if_pos h3] at hnone; simp at hnone
      · rw [if_neg h3] at hnone ⊢
        obtain ⟨ih1, ih2⟩ := awalk_none T n rest q hwf.2.2 (by simpa using h3) hnone
        rw [aresult_cons]
        refine ⟨List.pairwise_cons.2 ⟨fun r hr => ?_, ih1⟩, fun r hr => ?_⟩
        · have hw := awalk_WF T (fun _ c _ => decide (n < c)) rest q hwf.2.2
          have := WF_first_le_of_mem T _ hw r hr
          rw [first_index_aresult] at this
          have := hwf.1
          simp only [first_index] at this
          omega
        · rcases List.mem_cons.1 hr with h4 | h4
          · rw [h4]; exact hp
          · exact ih2 r h4

/-- In a list of runs with gaps, consecutive covered chunks lie in one run. -/
theorem covers_interval (l : List (Nat × Nat))
    (hl : l.Pairwise (fun r r1 => r.1 + r.2 < r1.1)) (lo : Nat) :
    ∀ n : Nat, (∀ x, lo ≤ x → x ≤ lo + n → covers l x) →
      ∃ r ∈ l, r.1 ≤ lo ∧ lo + n < r.1 + r.2
  | 0, h => by
    obtain ⟨r, hr, h1, h2⟩ := h lo (le_refl _) (by omega)
    exact ⟨r, hr, h1, by omega⟩
  | n + 1, h => by
    obtain ⟨r, hr, h1, h2⟩ := covers_interval l hl lo n (fun x hx1 hx2 => h x hx1 (by omega))
    obtain ⟨r1, hr1, h3, h4⟩ := h (lo + (n + 1)) (by omega) (le_refl _)
    have hsym : Symmetric (fun r r1 : Nat × Nat => r.1 + r.2 < r1.1 ∨ r1.1 + r1.2 < r.1) :=
      fun _ _ hxy => hxy.symm
    have hl2 := hl.imp (S := fun r r1 : Nat × Nat => r.1 + r.2 < r1.1 ∨ r1.1 + r1.2 < r.1)
      (fun hab => Or.inl hab)
    by_cases heq : r = r1
    · subst heq
      exact ⟨r, hr, h1, h4⟩
    · have := hl2.forall hsym hr hr1 heq
      omega

/-- Whether the walk of `allocate` finds a run, in terms of the chunks of the free
list: it does exactly when `n + 1` consecutive chunks are free. -/
theorem aalloc_ne_zero_iff (T n : Nat) (runs : List (Nat × Nat)) (hwf : WF T ((0, 0) :: runs)) :
    (aalloc T n ((0, 0) :: runs)).1 ≠ 0 ↔
      ∃ lo, ∀ x, lo ≤ x → x ≤ lo + n → covers ((0, 0) :: runs) x := by
  have hcov := fun x => awalk_covers T (fun _ c _ => decide (n < c)) x runs (0, 0)
  have hwfW := awalk_WF T (fun _ c _ => decide (n < c)) runs (0, 0) hwf
  have hP := awalk_found_P T (fun _ c _ => decide (n < c)) runs (0, 0)
  rcases hw : awalk T (fun _ c _ => decide (n < c)) (0, 0) runs with ⟨pre, _ | ⟨m, post⟩⟩
  · have hal : aalloc T n ((0, 0) :: runs) = (0, pre) := by simp only [aalloc, hw]
    rw [hal]
    simp only [ne_eq, not_true_eq_false, false_iff, not_exists]
    intro lo hlo
    obtain ⟨hpw, hle⟩ := awalk_none T n runs (0, 0) hwf (Nat.zero_le _) (by rw [hw])
    obtain ⟨r, hr, _, h2⟩ := covers_interval _ hpw lo n (fun x hx1 hx2 => (hcov x).2 (hlo x hx1 hx2))
    have := hle r hr
    have hlo0 := hlo lo (le_refl _) (by omega)
    omega
  · have hal : aalloc T n ((0, 0) :: runs) = (m.1 + (m.2 - n), pre ++ (m.1, m.2 - n) :: post) := by
      simp only [aalloc, hw]
    rw [hal]
    have hPm := hP m post (by rw [hw])
    simp only [decide_eq_true_eq] at hPm
    rw [hw] at hcov
    refine ⟨fun _ => ⟨m.1, fun x hx1 hx2 => (hcov x).1 ?_⟩, fun _ => by simp only; omega⟩
    rw [aresult_found, covers_append, covers_cons]
    exact Or.inr (Or.inl ⟨hx1, by omega⟩)

end imque

namespace imque

/-- C7. Chunk conservation: in every state reached from `init` by calls of `allocate`
and of `release` on held descriptors, the counts of the nodes reachable from node 0
plus the counts of the held descriptors add up to `node_count - 1`. -/
theorem chunk_conservation (a : VariableAllocator) (held : List Nat) (h : Reachable a held) :
    count_sum a.free_list + a.held_count held = a.node_count_ - 1 := by
  obtain ⟨fl, hinv⟩ := h.inv
  rw [hinv.free_list_eq]
  exact hinv.total

theorem zero_allocator_valid : (zero_allocator 10).is_valid = true := by decide

theorem reach_one : Reachable (after_allocate (zero_allocator 10).init 11 32) [9] :=
  Reachable.allocate (zero_allocator 10).init _ [] 11 32 9
    (Reachable.init _ zero_allocator_valid) (by decide) rfl

theorem chunk_conservation_witness :
    count_sum (after_allocate (zero_allocator 10).init 11 32).free_list
      + (after_allocate (zero_allocator 10).init 11 32).held_count [9] = 10 - 1 :=
  chunk_conservation _ _ reach_one

end imque

namespace imque

/-- C4. Allocation succeeds exactly when there is room: in a reachable state
`allocate(0)` returns 0 and leaves the state unchanged, and `allocate(size)` for
`size > 0` returns, with a nonzero descriptor if and only if there are
`ceil(size/32) + 1` consecutive free chunks (a block of physically contiguous free
chunks with strictly more than `ceil(size/32)` chunks, adjacent free runs counted
together). -/
theorem allocate_succeeds_iff_room (a : VariableAllocator) (held : List Nat)
    (h : Reachable a held) (size fuel : Nat) (hs : size < 2 ^ 32) (hf : a.node_count_ < fuel) :
    (size = 0 → a.allocate fuel size = .ok (0, a)) ∧
    (0 < size → ∃ d a1, a.allocate fuel size = .ok (d, a1) ∧
      (d ≠ 0 ↔ ∃ lo, ∀ x, lo ≤ x → x ≤ lo + (size + 31) / 32 → a.is_free_chunk x = true)) := by
  obtain ⟨fl, hinv⟩ := h.inv
  refine ⟨fun h0 => by rw [h0]; exact allocate_zero a fuel (by omega), fun hs0 => ?_⟩
  obtain ⟨a1, hal, _, _, _, _⟩ :=
    Inv_allocate a fl held hinv size fuel hs0 hs (lt_of_le_of_lt hinv.length_le hf)
  refine ⟨_, a1, hal, ?_⟩
  obtain ⟨runs, hfl, _⟩ := hinv.head
  have hwf := hinv.wf
  rw [hfl] at hwf ⊢
  rw [aalloc_ne_zero_iff _ _ runs hwf]
  simp only [is_free_chunk_iff, hinv.free_list_eq, hfl]

theorem allocate_succeeds_iff_room_witness :
    ((32 : Nat) = 0 → (after_allocate (zero_allocator 10).init 11 32).allocate 11 32
        = .ok (0, after_allocate (zero_allocator 10).init 11 32)) ∧
    (0 < 32 → ∃ d a1, (after_allocate (zero_allocator 10).init 11 32).allocate 11 32 = .ok (d, a1) ∧
      (d ≠ 0 ↔ ∃ lo, ∀ x, lo ≤ x → x ≤ lo + (32 + 31) / 32 →
        (after_allocate (zero_allocator 10).init 11 32).is_free_chunk x = true)) :=
  allocate_succeeds_iff_room _ [9] reach_one 32 11 (by decide) (by decide)

end imque

namespace imque

theorem aalloc_single (T n c : Nat) :
    aalloc T n [(0, 0), (1, c)]
      = if n < c then (1 + (c - n), [(0, 0), (1, c - n)]) else (0, [(0, 0), (1, c)]) := by
  by_cases h : n < c <;> simp [aalloc, awalk, h]

/-- What `allocate` does once its walk has found `cand`, in a state satisfying the
invariant. -/
theorem allocate_found (a : VariableAllocator) (fl : List (Nat × Nat)) (held : List Nat)
    (hinv : Inv a fl held) (size fuel : Nat) (hs0 : 0 < size) (hs : size < 2 ^ 32)
    (cand : NodeSnapshot) (a0 : VariableAllocator)
    (hfc : find_candidate (IsEnoughChunk ((size + 31) / 32)) fuel a (snapshot_at a 0) RETRY_LIMIT
      = .ok (some cand, a0)) :
    ∃ a1 : VariableAllocator,
      a.allocate (fuel + 1) size = .ok (cand.place + (cand.val.count - (size + 31) / 32), a1) ∧
      (size + 31) / 32 < cand.val.count ∧
      (a1.nodes_ cand.place).count = cand.val.count - (size + 31) / 32 ∧
      (a1.nodes_ cand.place).next = cand.val.next ∧
      (a1.nodes_ (cand.place + (cand.val.count - (size + 31) / 32))).count = (size + 31) / 32 ∧
      (a1.nodes_ (cand.place + (cand.val.count - (size + 31) / 32))).status = Node.AVAILABLE := by
  obtain ⟨runs, hfl, hfi⟩ := hinv.head
  subst hfl
  have hb := hinv.bounds
  have hneed : ((size + 32 - 1) / 32) % 2 ^ 32 = (size + 31) / 32 := by omega
  -- the walk, with enough fuel, is the walk on the list
  obtain ⟨a0', hsim, h0N, _, h0rep, _⟩ :=
    find_candidate_sim (IsEnoughChunk ((size + 31) / 32)) (fun _ c _ => decide ((size + 31) / 32 < c))
      (fun s hs => IsEnoughChunk_eq _ s hs) a.node_count_ hb.2 runs (0, 0) a
      (max fuel (runs.length + 1)) RETRY_LIMIT rfl hinv.wf hinv.repr (by omega)
      (by simp [RETRY_LIMIT])
  have hmono := find_candidate_fuel_mono _ fuel (max fuel (runs.length + 1)) a _ _ _
    (le_max_left _ _) hfc
  rw [hmono] at hsim
  simp only [Res.ok.injEq, Prod.mk.injEq] at hsim
  obtain ⟨hcand, ha0⟩ := hsim
  subst ha0
  have hwfW := awalk_WF a.node_count_ (fun _ c _ => decide ((size + 31) / 32 < c)) runs (0, 0)
    hinv.wf
  have hP := awalk_found_P a.node_count_ (fun _ c _ => decide ((size + 31) / 32 < c)) runs (0, 0)
  rcases hw : awalk a.node_count_ (fun _ c _ => decide ((size + 31) / 32 < c)) (0, 0) runs
    with ⟨pre, _ | ⟨m, post⟩⟩
  · rw [hw] at hcand; simp at hcand
  rw [hw] at hcand h0rep hwfW
  simp only [Option.map_some', Option.some.injEq] at hcand
  subst hcand
  have hPm := hP m post (by rw [hw])
  simp only [decide_eq_true_eq] at hPm
  rw [aresult_found] at h0rep hwfW
  have hrepm := ((Repr_append _ _ _ _).1 h0rep).2
  have hwfm := ((WF_append _ _ _).1 hwfW).2
  have hmN := WF_bound _ _ hwfm m (List.mem_cons_self _ _)
  have hmcnt : (a0.nodes_ m.1).count = m.2 := hrepm.2.1
  -- the call with enough fuel
  obtain ⟨a1, hal, _, _, h1rep, h1d, _⟩ :=
    allocate_sim a.node_count_ hb.2 a (0, 0) runs size (max fuel (runs.length + 1) + 1) rfl rfl
      hinv.wf hinv.repr hs0 hs (by simp only [List.length_cons]; omega)
  have hal2 : aalloc a.node_count_ ((size + 31) / 32) ((0, 0) :: runs)
      = (m.1 + (m.2 - (size + 31) / 32), pre ++ (m.1, m.2 - (size + 31) / 32) :: post) := by
    simp only [aalloc, hw]
  rw [hal2] at hal h1rep h1d
  dsimp only at hal h1rep h1d
  have hrep1 := ((Repr_append _ _ _ _).1 h1rep).2
  -- the call at hand returns, so it returns the same
  have hnc : ((a0.nodes_ m.1).count + 2 ^ 32 - (size + 31) / 32) % 2 ^ 32
      = m.2 - (size + 31) / 32 := by rw [hmcnt]; omega
  have hcas := cas_ok a0 (snapshot_at a0 m.1)
    ((a0.nodes_ m.1).change_count (m.2 - (size + 31) / 32)) rfl
  have hret : ∃ x, a.allocate (fuel + 1) size = .ok x := by
    simp only [VariableAllocator.allocate, Nat.pos_iff_ne_zero.1 hs0, if_false, hneed, hfc]
    simp only [snapshot_at] at hcas ⊢
    rw [hnc, hcas]
    exact ⟨_, rfl⟩
  obtain ⟨x, hx⟩ := hret
  have hx2 := allocate_fuel_mono (fuel + 1) (max fuel (runs.length + 1) + 1) a size x
    (by omega) hx
  rw [hal] at hx2
  simp only [Res.ok.injEq] at hx2
  subst hx2
  refine ⟨a1, ?_, ?_, ?_, ?_, ?_, ?_⟩
  · simp only [snapshot_at]; rw [hmcnt]; exact hx
  · simp only [snapshot_at]; rw [hmcnt]; exact hPm
  · simp only [snapshot_at]; rw [hmcnt]; exact hrep1.2.1
  · simp only [snapshot_at]; rw [hrepm.1]; exact hrep1.1
  · simp only [snapshot_at]; rw [hmcnt]
    exact (h1d (by omega)).1
  · simp only [snapshot_at]; rw [hmcnt]
    exact (h1d (by omega)).2

/-- C5 (as amended: `size > 0`). Tail split: in a reachable state, when the walk of
`allocate(size)` finds the victim `cand` (index `cand.place`, count `c`, successor
`cand.val.next`), the call returns `cand.place + (c - n)` with `n = ceil(size/32)` and
`c > n`, the victim then has count `c - n` and the same `next`, and the node at the
descriptor has count `n` and status AVAILABLE. On a freshly initialised allocator the
first `allocate(size)` returns `node_count - n` when `n <= node_count - 2` and 0
otherwise. -/
theorem tail_split (a : VariableAllocator) (held : List Nat) (h : Reachable a held)
    (size fuel : Nat) (hs0 : 0 < size) (hs : size < 2 ^ 32) :
    (∀ (cand : NodeSnapshot) (a0 : VariableAllocator),
      find_candidate (IsEnoughChunk ((size + 31) / 32)) fuel a (snapshot_at a 0) RETRY_LIMIT
        = .ok (some cand, a0) →
      ∃ a1 : VariableAllocator,
        a.allocate (fuel + 1) size = .ok (cand.place + (cand.val.count - (size + 31) / 32), a1) ∧
        (size + 31) / 32 < cand.val.count ∧
        (a1.nodes_ cand.place).count = cand.val.count - (size + 31) / 32 ∧
        (a1.nodes_ cand.place).next = cand.val.next ∧
        (a1.nodes_ (cand.place + (cand.val.count - (size + 31) / 32))).count = (size + 31) / 32 ∧
        (a1.nodes_ (cand.place + (cand.val.count - (size + 31) / 32))).status = Node.AVAILABLE) ∧
    (∀ b : VariableAllocator, b.is_valid = true → b.node_count_ < fuel →
      ∃ b1 : VariableAllocator,
        b.init.allocate fuel size
          = .ok (if (size + 31) / 32 ≤ b.node_count_ - 2 then b.node_count_ - (size + 31) / 32 else 0,
                 b1)) := by
  obtain ⟨fl, hinv⟩ := h.inv
  refine ⟨fun cand a0 hfc => allocate_found a fl held hinv size fuel hs0 hs cand a0 hfc, ?_⟩
  intro b hv hf
  have hb := is_valid_bounds b hv
  obtain ⟨b1, hal, _⟩ := Inv_allocate b.init _ [] (Inv_init b hv) size fuel hs0 hs
    (by simp only [List.length_cons, List.length_nil]; omega)
  refine ⟨b1, ?_⟩
  rw [hal, init_node_count, aalloc_single]
  by_cases hn : (size + 31) / 32 < b.node_count_ - 1
  · rw [if_pos hn, if_pos (by omega)]
    simp only
    congr 2
    omega
  · rw [if_neg hn, if_neg (by omega)]

theorem tail_split_witness :
    ((find_candidate (IsEnoughChunk ((40 + 31) / 32)) 11
        (after_allocate (zero_allocator 10).init 11 32)
        (snapshot_at (after_allocate (zero_allocator 10).init 11 32) 0) RETRY_LIMIT).get
          (none, zero_allocator 10)).1.isSome = true ∧
    (∀ (cand : NodeSnapshot) (a0 : VariableAllocator),
      find_candidate (IsEnoughChunk ((40 + 31) / 32)) 11
          (after_allocate (zero_allocator 10).init 11 32)
          (snapshot_at (after_allocate (zero_allocator 10).init 11 32) 0) RETRY_LIMIT
        = .ok (some cand, a0) →
      ∃ a1 : VariableAllocator,
        (after_allocate (zero_allocator 10).init 11 32).allocate (11 + 1) 40
          = .ok (cand.place + (cand.val.count - (40 + 31) / 32), a1) ∧
        (40 + 31) / 32 < cand.val.count ∧
        (a1.nodes_ cand.place).count = cand.val.count - (40 + 31) / 32 ∧
        (a1.nodes_ cand.place).next = cand.val.next ∧
        (a1.nodes_ (cand.place + (cand.val.count - (40 + 31) / 32))).count = (40 + 31) / 32 ∧
        (a1.nodes_ (cand.place + (cand.val.count - (40 + 31) / 32))).status = Node.AVAILABLE) ∧
    (∀ b : VariableAllocator, b.is_valid = true → b.node_count_ < 11 →
      ∃ b1 : VariableAllocator,
        b.init.allocate 11 40
          = .ok (if (40 + 31) / 32 ≤ b.node_count_ - 2 then b.node_count_ - (40 + 31) / 32 else 0,
                 b1)) :=
  ⟨by decide, tail_split _ [9] reach_one 40 11 (by decide) (by decide)⟩

/-- C5, the claim as stated fails for `size = 0`: there `n = 0 <= node_count - 2`, and the
first `allocate` on a fresh allocator of 10 nodes returns 0, not `10 - 0`. -/
theorem tail_split_size_zero :
    (0 + 31) / 32 ≤ (zero_allocator 10).init.node_count_ - 2 ∧
    (((zero_allocator 10).init.allocate 11 0).get (77, zero_allocator 10)).1 = 0 ∧
    (0 : Nat) ≠ (zero_allocator 10).init.node_count_ - (0 + 31) / 32 := by
  decide

end imque

namespace imque

theorem arelease_covers (T d k : Nat) (p : Nat × Nat) (rest : List (Nat × Nat))
    (hfound : (awalk T (fun _ _ nx => decide (d < nx)) p rest).2 ≠ none) (x : Nat) :
    covers (arelease T d k (p :: rest)) x ↔ covers (p :: rest) x ∨ (d ≤ x ∧ x < d + k) := by
  have hcov := awalk_covers T (fun _ _ nx => decide (d < nx)) x rest p
  rcases hw : awalk T (fun _ _ nx => decide (d < nx)) p rest with ⟨pre, _ | ⟨m, post⟩⟩
  · rw [hw] at hfound; exact absurd rfl hfound
  rw [hw, aresult_found] at hcov
  rw [← hcov]
  simp only [arelease, hw]
  split_ifs with hnb
  · simp only [covers_append, covers_cons]
    constructor
    · rintro (h | h | h)
      · exact Or.inl (Or.inl h)
      · by_cases hxd : x < d
        · exact Or.inl (Or.inr (Or.inl ⟨h.1, by omega⟩))
        · exact Or.inr ⟨by omega, by omega⟩
      · exact Or.inl (Or.inr (Or.inr h))
    · rintro ((h | h | h) | h)
      · exact Or.inl h
      · exact Or.inr (Or.inl ⟨h.1, by omega⟩)
      · exact Or.inr (Or.inr h)
      · exact Or.inr (Or.inl ⟨by omega, by omega⟩)
  · simp only [covers_append, covers_cons]
    tauto

/-- C6. Release postcondition: in a reachable state, for a held descriptor `d` whose
node has count `k`, the walk for `IsPredecessor(d)` finds a free node `pred` and
`release(d)` returns true; when `d = index(pred) + pred.count` the count of `pred`
becomes `pred.count + k` and its `next` is unchanged, otherwise node `d` gets
`next = pred.next` and `pred` gets `next = d` with its count unchanged. Afterwards
the free chunks are those free before together with `d .. d+k-1`, and the runs of
the other held descriptors are unchanged. -/
theorem release_postcondition (a : VariableAllocator) (held : List Nat) (h : Reachable a held)
    (d fuel : Nat) (hd : d ∈ held) (hf : a.node_count_ < fuel) :
    ∃ (pred : NodeSnapshot) (a0 a1 : VariableAllocator),
      find_candidate (IsPredecessor d) fuel a (snapshot_at a 0) RETRY_LIMIT = .ok (some pred, a0) ∧
      pred.val.is_avaiable = true ∧
      a.release (fuel + 1) d = .ok (true, a1) ∧
      (if d = pred.place + pred.val.count then
        (a1.nodes_ pred.place).count = pred.val.count + (a.nodes_ d).count ∧
          (a1.nodes_ pred.place).next = pred.val.next
       else
        (a1.nodes_ d).next = pred.val.next ∧ (a1.nodes_ pred.place).next = d ∧
          (a1.nodes_ pred.place).count = pred.val.count) ∧
      (∀ x, a1.is_free_chunk x = true ↔
        (a.is_free_chunk x = true ∨ (d ≤ x ∧ x < d + (a.nodes_ d).count))) ∧
      (∀ e ∈ held, e ≠ d → (a1.nodes_ e).count = (a.nodes_ e).count) ∧
      Reachable a1 (held.erase d) := by
  obtain ⟨fl, hinv⟩ := h.inv
  obtain ⟨runs, hfl, hfi⟩ := hinv.head
  subst hfl
  have hb := hinv.bounds
  have hlen := hinv.length_le
  simp only [List.length_cons] at hlen
  have hok := hinv.held_ok d hd
  have hruns : runs ≠ [] := by
    intro h0
    rw [h0] at hfi
    simp only [first_index] at hfi
    omega
  obtain ⟨a0, hsim, h0N, _, h0rep, _⟩ :=
    find_candidate_sim (IsPredecessor d) (fun _ _ nx => decide (d < nx))
      (fun s _ => IsPredecessor_eq d s) a.node_count_ hb.2 runs (0, 0) a fuel RETRY_LIMIT rfl
      hinv.wf hinv.repr (by omega) (by simp [RETRY_LIMIT])
  obtain ⟨a1, hrel, h1N, h1frame, hinv1⟩ :=
    Inv_release a _ held hinv d (fuel + 1) hd (by simp only [List.length_cons]; omega)
  obtain ⟨m, post, hfound⟩ := awalk_pred_found a.node_count_ d (by omega) runs (0, 0) hruns
  rcases hw : awalk a.node_count_ (fun _ _ nx => decide (d < nx)) (0, 0) runs
    with ⟨pre, _ | ⟨m1, post1⟩⟩
  · rw [hw] at hfound; simp at hfound
  have hfl1 := hinv1.free_list_eq
  have h1rep := hinv1.repr
  rw [h1N] at h1rep
  rw [hw] at hsim h0rep
  rw [aresult_found] at h0rep
  have hrepm := ((Repr_append _ _ _ _).1 h0rep).2
  refine ⟨snapshot_at a0 m1.1, a0, a1, hsim, ?_, hrel, ?_, ?_, ?_, ?_⟩
  · simp [snapshot_at, Node.is_avaiable, hrepm.2.2.1]
  · simp only [snapshot_at]
    rw [hrepm.2.1, hrepm.1]
    simp only [arelease, hw] at h1rep
    split_ifs at h1rep ⊢ with hnb
    · have := ((Repr_append _ _ _ _).1 h1rep).2
      exact ⟨this.2.1, this.1⟩
    · have := ((Repr_append _ _ _ _).1 h1rep).2
      exact ⟨this.2.2.2.1, this.1, this.2.1⟩
  · intro x
    rw [is_free_chunk_iff, is_free_chunk_iff, hfl1, hinv.free_list_eq]
    exact arelease_covers _ _ _ _ _ (by rw [hw]; simp) x
  · intro e he hne
    rw [h1frame e he hne]
  · have := Reachable.release a a1 held (fuel + 1) d true h hd hrel
    simpa using this

theorem reach_one_free_chunk :
    (after_release (after_allocate (zero_allocator 10).init 11 32) 12 9).is_free_chunk 9 = true := by
  decide

theorem release_postcondition_witness :
    ∃ (pred : NodeSnapshot) (a0 a1 : VariableAllocator),
      find_candidate (IsPredecessor 9) 11 (after_allocate (zero_allocator 10).init 11 32)
        (snapshot_at (after_allocate (zero_allocator 10).init 11 32) 0) RETRY_LIMIT
          = .ok (some pred, a0) ∧
      pred.val.is_avaiable = true ∧
      (after_allocate (zero_allocator 10).init 11 32).release (11 + 1) 9 = .ok (true, a1) ∧
      (if 9 = pred.place + pred.val.count then
        (a1.nodes_ pred.place).count
            = pred.val.count + ((after_allocate (zero_allocator 10).init 11 32).nodes_ 9).count ∧
          (a1.nodes_ pred.place).next = pred.val.next
       else
        (a1.nodes_ 9).next = pred.val.next ∧ (a1.nodes_ pred.place).next = 9 ∧
          (a1.nodes_ pred.place).count = pred.val.count) ∧
      (∀ x, a1.is_free_chunk x = true ↔
        ((after_allocate (zero_allocator 10).init 11 32).is_free_chunk x = true ∨
          (9 ≤ x ∧ x < 9 + ((after_allocate (zero_allocator 10).init 11 32).nodes_ 9).count))) ∧
      (∀ e ∈ [9], e ≠ 9 →
        (a1.nodes_ e).count = ((after_allocate (zero_allocator 10).init 11 32).nodes_ e).count) ∧
      Reachable a1 ([9].erase 9) :=
  release_postcondition _ [9] reach_one 9 11 (by decide) (by decide)

end imque

namespace imque

/-! ## Full recovery -/

theorem WF_sum_le (T : Nat) : ∀ l : List (Nat × Nat), WF T l → first_index T l + count_sum l ≤ T
  | [], _ => by simp [first_index, count_sum]
  | p :: rest, h => by
    have ih := WF_sum_le T rest h.2.2
    have := h.1
    simp only [first_index, count_sum]
    omega

/-- On runs that touch one another a walk that accepts none joins them all. -/
theorem awalk_all_free (T n : Nat) : ∀ (rest : List (Nat × Nat)) (p : Nat × Nat),
    WF T (p :: rest) → p.1 + count_sum (p :: rest) = T → count_sum (p :: rest) ≤ n →
    awalk T (fun _ c _ => decide (n < c)) p rest = ([(p.1, count_sum (p :: rest))], none)
  | [], p, _, _, _ => by simp [awalk, count_sum]
  | q :: rest, p, hwf, hsum, hn => by
    have h1 := WF_sum_le T (q :: rest) hwf.2.2
    have h2 : p.1 + p.2 ≤ q.1 := hwf.1
    simp only [first_index, count_sum] at h1 hsum hn
    have hj : p.1 + p.2 = q.1 := by omega
    have hwfm : WF T ((p.1, p.2 + q.2) :: rest) := by
      have h3 : q.1 + q.2 ≤ first_index T rest := hwf.2.2.1
      have h4 : q.1 < first_index T rest := hwf.2.2.2.1
      have h5 : p.1 < q.1 := hwf.2.1
      exact ⟨show p.1 + (p.2 + q.2) ≤ first_index T rest by omega,
        show p.1 < first_index T rest by omega, hwf.2.2.2.2⟩
    have ih := awalk_all_free T n rest (p.1, p.2 + q.2) hwfm
      (by simp only [count_sum]; omega) (by simp only [count_sum]; omega)
    unfold awalk
    rw [if_pos hj, if_neg (by simp only [decide_eq_true_eq]; omega), ih]
    simp only [count_sum, Prod.mk.injEq, List.cons.injEq, and_true, true_and]
    omega

theorem aalloc_all_free (T n : Nat) (runs : List (Nat × Nat)) (hwf : WF T ((0, 0) :: runs))
    (hfi : first_index T runs = 1) (hsum : count_sum runs = T - 1) (hT : 2 < T)
    (hn : T - 1 ≤ n) :
    aalloc T n ((0, 0) :: runs) = (0, [(0, 0), (1, T - 1)]) := by
  cases runs with
  | nil => simp only [first_index] at hfi; omega
  | cons r rest =>
    simp only [first_index] at hfi
    have hw := awalk_all_free T n rest r hwf.2.2 (by rw [hfi, hsum]; omega) (by rw [hsum]; exact hn)
    have hr2 : r.2 ≤ n := by
      simp only [count_sum] at hsum
      omega
    simp only [aalloc, awalk]
    rw [if_neg (by rw [hfi]; simp), if_neg (by simp only [decide_eq_true_eq]; omega), hw, hfi, hsum]

/-- C8 (as amended). Full recovery: once every held descriptor has been released,
node 0 points to node 1 and the counts on the free list add up to `node_count - 1`;
after a walk over the whole list (that of an `allocate` asking for at least
`node_count - 1` chunks, which returns 0) the free list is exactly one run: node 1
with count `node_count - 1` and `next = node_count`. -/
theorem full_recovery_after_walk (a : VariableAllocator) (h : Reachable a [])
    (size fuel : Nat) (hs : size < 2 ^ 32) (hbig : a.node_count_ - 1 ≤ (size + 31) / 32)
    (hf : a.node_count_ < fuel) :
    (a.nodes_ 0).next = 1 ∧ count_sum a.free_list = a.node_count_ - 1 ∧
    ∃ a1 : VariableAllocator,
      a.allocate fuel size = .ok (0, a1) ∧
      a1.free_list = [(0, 0), (1, a.node_count_ - 1)] ∧
      (a1.nodes_ 0).next = 1 ∧ (a1.nodes_ 1).count = a.node_count_ - 1 ∧
      (a1.nodes_ 1).next = a.node_count_ := by
  obtain ⟨fl, hinv⟩ := h.inv
  obtain ⟨runs, hfl, hfi⟩ := hinv.head
  subst hfl
  have hb := hinv.bounds
  have htot := hinv.total
  simp only [List.map_nil, List.sum_nil, Nat.add_zero, count_sum, Nat.zero_add] at htot
  have hrep := hinv.repr
  refine ⟨by rw [hrep.1]; exact hfi, by rw [hinv.free_list_eq]; simpa [count_sum] using htot, ?_⟩
  obtain ⟨a1, hal, h1N, _, _, hinv1⟩ :=
    Inv_allocate a _ [] hinv size fuel (by omega) hs (lt_of_le_of_lt hinv.length_le hf)
  rw [aalloc_all_free _ _ runs hinv.wf hfi htot hb.1 hbig] at hal hinv1
  simp only [if_true] at hinv1
  have hrep1 := hinv1.repr
  rw [h1N] at hrep1
  exact ⟨a1, hal, hinv1.free_list_eq, hrep1.1, hrep1.2.2.2.2.1, hrep1.2.2.2.1⟩

/-- A state with nothing held whose free list is still in two runs: allocate A and B
(one chunk each) on 10 nodes, release A, release B. -/
theorem reach_two_runs :
    Reachable (after_release (after_release (after_allocate (after_allocate
      (zero_allocator 10).init 11 32) 11 32) 11 9) 11 8) [] :=
  Reachable.release _ _ [8] 11 8 true
    (Reachable.release _ _ [8, 9] 11 9 true
      (Reachable.allocate _ _ [9] 11 32 8 reach_one (by decide) rfl)
      (by decide) rfl)
    (by decide) rfl

theorem full_recovery_after_walk_witness :
    ((after_release (after_release (after_allocate (after_allocate
      (zero_allocator 10).init 11 32) 11 32) 11 9) 11 8).nodes_ 0).next = 1 ∧
    count_sum (after_release (after_release (after_allocate (after_allocate
      (zero_allocator 10).init 11 32) 11 32) 11 9) 11 8).free_list = 10 - 1 ∧
    ∃ a1 : VariableAllocator,
      (after_release (after_release (after_allocate (after_allocate
        (zero_allocator 10).init 11 32) 11 32) 11 9) 11 8).allocate 11 288 = .ok (0, a1) ∧
      a1.free_list = [(0, 0), (1, 10 - 1)] ∧
      (a1.nodes_ 0).next = 1 ∧ (a1.nodes_ 1).count = 10 - 1 ∧ (a1.nodes_ 1).next = 10 :=
  full_recovery_after_walk _ reach_two_runs 288 11 (by decide) (by decide) (by decide)

/-- C8, the claim as stated fails: after allocate A, allocate B, release A, release B on
10 nodes nothing is held, yet node 1 has count 8 and `next = 9`, not 9 and 10: the
released run at node 9 is a second node of the free list. -/
theorem full_recovery_not_immediate :
    ∃ a : VariableAllocator, Reachable a [] ∧
      ¬ ((a.nodes_ 0).next = 1 ∧ (a.nodes_ 1).count = a.node_count_ - 1 ∧
          (a.nodes_ 1).next = a.node_count_) :=
  ⟨_, reach_two_runs, by decide⟩

end imque

namespace imque

/-! ## The coalesce scenario -/

theorem arelease_after_last (T d k c : Nat) (h1 : 1 + c < d) (h2 : d < T) :
    arelease T d k [(0, 0), (1, c)] = [(0, 0), (1, c), (d, k)] := by
  have h3 : ¬ d = 1 + c := by omega
  simp [arelease, awalk, first_index, h2, h3]

theorem arelease_onto_last (T d k c b kb : Nat) (h1 : 1 + c < b) (h2 : d = b + kb) (h3 : d < T) :
    arelease T d k [(0, 0), (1, c), (b, kb)] = [(0, 0), (1, c), (b, kb + k)] := by
  have h4 : ¬ d < b := by omega
  have h5 : ¬ 1 + c = b := by omega
  subst h2
  simp [arelease, awalk, first_index, h3, h4, h5]

theorem arelease_onto_first (T d k c b kb : Nat) (h1 : d = 1 + c) (h2 : d < b) :
    arelease T d k [(0, 0), (1, c), (b, kb)] = [(0, 0), (1, c + k), (b, kb)] := by
  subst h1
  simp [arelease, awalk, first_index, h2]

theorem aalloc_joined (T n c b kb : Nat) (h1 : 1 + c = b) (h2 : c ≤ n) (h3 : n < c + kb) :
    aalloc T n [(0, 0), (1, c), (b, kb)] = (1 + (c + kb - n), [(0, 0), (1, c + kb - n)]) := by
  have h4 : ¬ n < c := by omega
  simp [aalloc, awalk, first_index, h1, h3, h4]

/-! Each step of the scenario, on a free list of at most two runs. -/

theorem Inv_allocate_single (a : VariableAllocator) (held : List Nat) (c c1 n size fuel : Nat)
    (hinv : Inv a [(0, 0), (1, c)] held) (hsz : (size + 31) / 32 = n) (hn : 1 ≤ n)
    (hc : c = c1 + n) (hc1 : 1 ≤ c1) (hf : a.node_count_ < fuel) :
    ∃ a1 : VariableAllocator,
      a.allocate fuel size = .ok (1 + c1, a1) ∧ a1.node_count_ = a.node_count_ ∧
      (∀ e ∈ held, a1.nodes_ e = a.nodes_ e) ∧ (a1.nodes_ (1 + c1)).count = n ∧
      Inv a1 [(0, 0), (1, c1)] ((1 + c1) :: held) := by
  have hb := hinv.bounds
  have hcN : 1 + c ≤ a.node_count_ := hinv.wf.2.2.1
  have hs : 0 < size ∧ size < 2 ^ 32 := by omega
  obtain ⟨a1, hal, h1N, h1f, h1c, hi1⟩ := Inv_allocate a _ held hinv size fuel hs.1 hs.2
    (by simp only [List.length_cons, List.length_nil]; omega)
  have he : aalloc a.node_count_ ((size + 31) / 32) [(0, 0), (1, c)]
      = (1 + c1, [(0, 0), (1, c1)]) := by
    rw [hsz, aalloc_single, if_pos (by omega)]
    have : c - n = c1 := by omega
    rw [this]
  rw [he] at hal h1c hi1
  have h0 : ¬ (1 + c1 = 0) := by omega
  exact ⟨a1, hal, h1N, h1f, by rw [← hsz]; exact h1c h0, by simpa [h0] using hi1⟩

theorem Inv_allocate_joined (a : VariableAllocator) (c b kb n size fuel : Nat)
    (hinv : Inv a [(0, 0), (1, c), (b, kb)] []) (hsz : (size + 31) / 32 = n)
    (h1 : 1 + c = b) (h2 : c + kb = n + 1) (hn : 1 ≤ n) (hkb : 1 ≤ kb)
    (hf : a.node_count_ < fuel) :
    ∃ a1 : VariableAllocator,
      a.allocate fuel size = .ok (2, a1) ∧ a1.free_list = [(0, 0), (1, 1)] := by
  have hb := hinv.bounds
  have hcN : b + kb ≤ a.node_count_ := (WF_bound _ _ hinv.wf (b, kb) (by simp)).1
  have hs : 0 < size ∧ size < 2 ^ 32 := by omega
  obtain ⟨a1, hal, _, _, _, hi1⟩ := Inv_allocate a _ [] hinv size fuel hs.1 hs.2
    (by simp only [List.length_cons, List.length_nil]; omega)
  have he : aalloc a.node_count_ ((size + 31) / 32) [(0, 0), (1, c), (b, kb)]
      = (2, [(0, 0), (1, 1)]) := by
    rw [hsz, aalloc_joined _ _ _ _ _ h1 (by omega) (by omega)]
    have e1 : c + kb - n = 1 := by omega
    rw [e1]
  rw [he] at hal hi1
  exact ⟨a1, hal, hi1.free_list_eq⟩

theorem Inv_release_after_last (a : VariableAllocator) (held : List Nat) (c d k fuel : Nat)
    (hinv : Inv a [(0, 0), (1, c)] held) (hd : d ∈ held) (hk : (a.nodes_ d).count = k)
    (h1 : 1 + c < d) (hf : a.node_count_ < fuel) :
    ∃ a1 : VariableAllocator,
      a.release fuel d = .ok (true, a1) ∧ a1.node_count_ = a.node_count_ ∧
      (∀ e ∈ held, e ≠ d → a1.nodes_ e = a.nodes_ e) ∧
      Inv a1 [(0, 0), (1, c), (d, k)] (held.erase d) := by
  have hb := hinv.bounds
  have hok := hinv.held_ok d hd
  have hdN : d < a.node_count_ := by
    have h3 := hok.2.2.2
    have h4 := hok.2.1
    omega
  obtain ⟨a1, hrel, h1N, h1f, hi1⟩ := Inv_release a _ held hinv d fuel hd
    (by simp only [List.length_cons, List.length_nil]; omega)
  rw [hk, arelease_after_last _ _ _ _ h1 hdN] at hi1
  exact ⟨a1, hrel, h1N, h1f, hi1⟩

theorem Inv_release_onto_last (a : VariableAllocator) (held : List Nat) (c b kb d k fuel : Nat)
    (hinv : Inv a [(0, 0), (1, c), (b, kb)] held) (hd : d ∈ held) (hk : (a.nodes_ d).count = k)
    (h1 : 1 + c < b) (h2 : d = b + kb) (hf : a.node_count_ < fuel) :
    ∃ a1 : VariableAllocator,
      a.release fuel d = .ok (true, a1) ∧ a1.node_count_ = a.node_count_ ∧
      (∀ e ∈ held, e ≠ d → a1.nodes_ e = a.nodes_ e) ∧
      Inv a1 [(0, 0), (1, c), (b, kb + k)] (held.erase d) := by
  have hb := hinv.bounds
  have hok := hinv.held_ok d hd
  have hdN : d < a.node_count_ := by
    have h3 := hok.2.2.2
    have h4 := hok.2.1
    omega
  obtain ⟨a1, hrel, h1N, h1f, hi1⟩ := Inv_release a _ held hinv d fuel hd
    (by simp only [List.length_cons, List.length_nil]; omega)
  rw [hk, arelease_onto_last _ _ _ _ _ _ h1 h2 hdN] at hi1
  exact ⟨a1, hrel, h1N, h1f, hi1⟩

theorem Inv_release_onto_first (a : VariableAllocator) (held : List Nat) (c b kb d k fuel : Nat)
    (hinv : Inv a [(0, 0), (1, c), (b, kb)] held) (hd : d ∈ held) (hk : (a.nodes_ d).count = k)
    (h1 : d = 1 + c) (h2 : d < b) (hf : a.node_count_ < fuel) :
    ∃ a1 : VariableAllocator,
      a.release fuel d = .ok (true, a1) ∧ a1.node_count_ = a.node_count_ ∧
      (∀ e ∈ held, e ≠ d → a1.nodes_ e = a.nodes_ e) ∧
      Inv a1 [(0, 0), (1, c + k), (b, kb)] (held.erase d) := by
  have hb := hinv.bounds
  obtain ⟨a1, hrel, h1N, h1f, hi1⟩ := Inv_release a _ held hinv d fuel hd
    (by simp only [List.length_cons, List.length_nil]; omega)
  rw [hk, arelease_onto_first _ _ _ _ _ _ h1 h2] at hi1
  exact ⟨a1, hrel, h1N, h1f, hi1⟩

end imque

namespace imque

/-- C9. Coalesce scenario: on a freshly initialised allocator of `N` nodes, for
`n >= 1` with `3n <= N - 2`, allocating three runs A, B, C of `n` chunks each and
releasing B, then A, then C, all calls succeed, and a following `allocate` of
`(N - 2) * 32` bytes returns a nonzero descriptor (2): its walk joins the free runs
into the single run of `N - 1` chunks at node 1 and splits it, leaving one chunk. -/
theorem coalesce_scenario (b : VariableAllocator) (hv : b.is_valid = true)
    (n sA sB sC fuel : Nat) (hn : 1 ≤ n) (h3 : 3 * n ≤ b.node_count_ - 2)
    (hA : (sA + 31) / 32 = n) (hB : (sB + 31) / 32 = n) (hC : (sC + 31) / 32 = n)
    (hf : b.node_count_ < fuel) :
    ∃ (a1 a2 a3 a4 a5 a6 a7 : VariableAllocator) (dA dB dC d : Nat),
      b.init.allocate fuel sA = .ok (dA, a1) ∧ a1.allocate fuel sB = .ok (dB, a2) ∧
      a2.allocate fuel sC = .ok (dC, a3) ∧ dA ≠ 0 ∧ dB ≠ 0 ∧ dC ≠ 0 ∧
      a3.release fuel dB = .ok (true, a4) ∧ a4.release fuel dA = .ok (true, a5) ∧
      a5.release fuel dC = .ok (true, a6) ∧
      a6.allocate fuel ((b.node_count_ - 2) * 32) = .ok (d, a7) ∧ d ≠ 0 ∧ d = 2 ∧
      a7.free_list = [(0, 0), (1, 1)] := by
  have hb := is_valid_bounds b hv
  obtain ⟨c, hc, hc1⟩ : ∃ c, b.node_count_ = c + 3 * n + 1 ∧ 1 ≤ c :=
    ⟨b.node_count_ - 1 - 3 * n, by omega, by omega⟩
  have hN0 := init_node_count b
  have e1 : b.node_count_ - 1 = (c + 2 * n) + n := by omega
  have e2 : c + 2 * n = (c + n) + n := by omega
  have e3 : 1 ≤ c + 2 * n := by omega
  have e4 : 1 ≤ c + n := by omega
  have e5 : 1 + c < 1 + (c + n) := by omega
  have e6 : 1 + (c + 2 * n) = 1 + (c + n) + n := by omega
  have e7 : c + n + (n + n) = (b.node_count_ - 2) + 1 := by omega
  have e8 : ((b.node_count_ - 2) * 32 + 31) / 32 = b.node_count_ - 2 := by omega
  have e9 : 1 ≤ b.node_count_ - 2 := by omega
  have e10 : 1 ≤ n + n := by omega
  have n1 : 1 + c ≠ 1 + (c + n) := by omega
  have n2 : 1 + c ≠ 1 + (c + 2 * n) := by omega
  have n3 : 1 + (c + n) ≠ 1 + (c + 2 * n) := by omega
  have z1 : 1 + (c + 2 * n) ≠ 0 := by omega
  have z2 : 1 + (c + n) ≠ 0 := by omega
  have z3 : 1 + c ≠ 0 := by omega
  have hi0 := Inv_init b hv
  clear hb hc h3 hv
  -- allocate A, B, C
  obtain ⟨a1, hal1, h1N, -, h1c, hi1⟩ := Inv_allocate_single b.init [] _ (c + 2 * n) n sA fuel hi0
    hA hn e1 e3 (by rw [hN0]; exact hf)
  rw [hN0] at h1N
  obtain ⟨a2, hal2, h2N, h2f, h2c, hi2⟩ := Inv_allocate_single a1 _ _ (c + n) n sB fuel hi1
    hB hn e2 e4 (by rw [h1N]; exact hf)
  rw [h1N] at h2N
  obtain ⟨a3, hal3, h3N, h3f, h3c, hi3⟩ := Inv_allocate_single a2 _ _ c n sC fuel hi2
    hC hn rfl hc1 (by rw [h2N]; exact hf)
  rw [h2N] at h3N
  have cA2 : (a2.nodes_ (1 + (c + 2 * n))).count = n := by
    rw [h2f _ (List.mem_singleton.2 rfl)]; exact h1c
  have cA3 : (a3.nodes_ (1 + (c + 2 * n))).count = n := by
    rw [h3f _ (List.mem_cons_of_mem _ (List.mem_singleton.2 rfl))]; exact cA2
  have cB3 : (a3.nodes_ (1 + (c + n))).count = n := by
    rw [h3f _ (List.mem_cons_self _ _)]; exact h2c
  -- release B
  obtain ⟨a4, hrel4, h4N, h4f, hi4⟩ := Inv_release_after_last a3 _ c (1 + (c + n)) n fuel hi3
    (List.mem_cons_of_mem _ (List.mem_cons_self _ _)) cB3 e5 (by rw [h3N]; exact hf)
  rw [h3N] at h4N
  have he4 : [1 + c, 1 + (c + n), 1 + (c + 2 * n)].erase (1 + (c + n))
      = [1 + c, 1 + (c + 2 * n)] := by
    rw [List.erase_cons_tail (by simpa using n1), List.erase_cons_head]
  rw [he4] at hi4
  have cA4 : (a4.nodes_ (1 + (c + 2 * n))).count = n := by
    rw [h4f _ (List.mem_cons_of_mem _ (List.mem_cons_of_mem _ (List.mem_singleton.2 rfl)))
      (Ne.symm n3)]
    exact cA3
  have cC4 : (a4.nodes_ (1 + c)).count = n := by
    rw [h4f _ (List.mem_cons_self _ _) n1]; exact h3c
  -- release A
  obtain ⟨a5, hrel5, h5N, h5f, hi5⟩ := Inv_release_onto_last a4 _ c (1 + (c + n)) n
    (1 + (c + 2 * n)) n fuel hi4 (List.mem_cons_of_mem _ (List.mem_singleton.2 rfl)) cA4 e5 e6
    (by rw [h4N]; exact hf)
  rw [h4N] at h5N
  have he5 : [1 + c, 1 + (c + 2 * n)].erase (1 + (c + 2 * n)) = [1 + c] := by
    rw [List.erase_cons_tail (by simpa using n2), List.erase_cons_head]
  rw [he5] at hi5
  have cC5 : (a5.nodes_ (1 + c)).count = n := by
    rw [h5f _ (List.mem_cons_self _ _) n2]; exact cC4
  -- release C
  obtain ⟨a6, hrel6, h6N, -, hi6⟩ := Inv_release_onto_first a5 _ c (1 + (c + n)) (n + n)
    (1 + c) n fuel hi5 (List.mem_singleton.2 rfl) cC5 rfl e5 (by rw [h5N]; exact hf)
  rw [h5N] at h6N
  rw [List.erase_cons_head] at hi6
  -- allocate all but one chunk
  obtain ⟨a7, hal7, hfl7⟩ := Inv_allocate_joined a6 (c + n) (1 + (c + n)) (n + n)
    (b.node_count_ - 2) ((b.node_count_ - 2) * 32) fuel hi6 e8 rfl e7 e9 e10
    (by rw [h6N]; exact hf)
  exact ⟨a1, a2, a3, a4, a5, a6, a7, _, _, _, 2, hal1, hal2, hal3, z1, z2, z3,
    hrel4, hrel5, hrel6, hal7, by decide, rfl, hfl7⟩

theorem coalesce_scenario_witness :
    ∃ (a1 a2 a3 a4 a5 a6 a7 : VariableAllocator) (dA dB dC d : Nat),
      (zero_allocator 10).init.allocate 11 50 = .ok (dA, a1) ∧ a1.allocate 11 64 = .ok (dB, a2) ∧
      a2.allocate 11 33 = .ok (dC, a3) ∧ dA ≠ 0 ∧ dB ≠ 0 ∧ dC ≠ 0 ∧
      a3.release 11 dB = .ok (true, a4) ∧ a4.release 11 dA = .ok (true, a5) ∧
      a5.release 11 dC = .ok (true, a6) ∧
      a6.allocate 11 (((zero_allocator 10).node_count_ - 2) * 32) = .ok (d, a7) ∧ d ≠ 0 ∧ d = 2 ∧
      a7.free_list = [(0, 0), (1, 1)] :=
  coalesce_scenario (zero_allocator 10) zero_allocator_valid 2 50 64 33 11 (by decide) (by decide)
    (by decide) (by decide) (by decide) (by decide)

end imque

namespace imque

/-! ## Bytes of a message -/

theorem payload_byte (mem : Nat → Nat) (a v : Nat) (data : Nat → Nat) (size i : Nat) (hi : i < 8) :
    memcpy_to (write_size_t mem a v) (a + sizeof_size_t) data size (a + i)
      = (v / 256 ^ i) % 256 := by
  simp only [memcpy_to, write_size_t, sizeof_size_t]
  rw [if_neg (by omega), if_pos (by omega)]
  congr 3
  omega

theorem size_t_bytes (v : Nat) (hv : v < 18446744073709551616) :
    v % 256 + 256 * (v / 256 % 256 + 256 * (v / 65536 % 256 + 256 * (v / 16777216 % 256
      + 256 * (v / 4294967296 % 256 + 256 * (v / 1099511627776 % 256
      + 256 * (v / 281474976710656 % 256 + 256 * (v / 72057594037927936 % 256))))))) = v := by
  omega

theorem read_size_t_written (mem : Nat → Nat) (a v : Nat) (data : Nat → Nat) (size : Nat)
    (hv : v < 18446744073709551616) :
    read_size_t (memcpy_to (write_size_t mem a v) (a + sizeof_size_t) data size) a = v := by
  have h0 := payload_byte mem a v data size 0 (by omega)
  have h1 := payload_byte mem a v data size 1 (by omega)
  have h2 := payload_byte mem a v data size 2 (by omega)
  have h3 := payload_byte mem a v data size 3 (by omega)
  have h4 := payload_byte mem a v data size 4 (by omega)
  have h5 := payload_byte mem a v data size 5 (by omega)
  have h6 := payload_byte mem a v data size 6 (by omega)
  have h7 := payload_byte mem a v data size 7 (by omega)
  norm_num at h0 h1 h2 h3 h4 h5 h6 h7
  unfold read_size_t
  rw [h0, h1, h2, h3, h4, h5, h6, h7]
  exact size_t_bytes v hv

theorem read_bytes_written (mem : Nat → Nat) (a : Nat) (data : Nat → Nat) (size : Nat) :
    read_bytes (memcpy_to mem a data size) a size = message data size := by
  unfold read_bytes message
  apply List.map_congr_left
  intro i hi
  have := List.mem_range.1 hi
  simp only [memcpy_to]
  rw [if_pos (by omega)]
  congr 1
  omega

theorem read_size_t_congr (mem mem1 : Nat → Nat) (a : Nat)
    (h : ∀ x, a ≤ x → x < a + 8 → mem1 x = mem x) :
    read_size_t mem1 a = read_size_t mem a := by
  unfold read_size_t
  rw [h a (by omega) (by omega), h (a + 1) (by omega) (by omega), h (a + 2) (by omega) (by omega),
    h (a + 3) (by omega) (by omega), h (a + 4) (by omega) (by omega),
    h (a + 5) (by omega) (by omega), h (a + 6) (by omega) (by omega),
    h (a + 7) (by omega) (by omega)]

theorem read_bytes_congr (mem mem1 : Nat → Nat) (a size : Nat)
    (h : ∀ x, a ≤ x → x < a + size → mem1 x = mem x) :
    read_bytes mem1 a size = read_bytes mem a size := by
  unfold read_bytes
  apply List.map_congr_left
  intro i hi
  have := List.mem_range.1 hi
  exact h (a + i) (by omega) (by omega)

theorem payload_frame (mem : Nat → Nat) (a v : Nat) (data : Nat → Nat) (size x : Nat)
    (hx : x < a ∨ a + sizeof_size_t + size ≤ x) :
    memcpy_to (write_size_t mem a v) (a + sizeof_size_t) data size x = mem x := by
  simp only [memcpy_to, write_size_t, sizeof_size_t] at hx ⊢
  rw [if_neg (by omega), if_neg (by omega)]

theorem message_length (data : Nat → Nat) (size : Nat) : (message data size).length = size := by
  simp [message]

/-! ## Positions in the ring -/

theorem mod_two (a E : Nat) (h : a < 2 * E) : a % E = if a < E then a else a - E := by
  split_ifs with h1
  · exact Nat.mod_eq_of_lt h1
  · rw [Nat.mod_eq_sub_mod (by omega), Nat.mod_eq_of_lt (by omega)]

theorem ring_inj (r E i j : Nat) (hr : r < E) (hi : i < E) (hj : j < E)
    (h : (r + i) % E = (r + j) % E) : i = j := by
  rw [mod_two _ E (by omega), mod_two _ E (by omega)] at h
  split_ifs at h <;> omega

theorem ring_succ (r E i : Nat) :
    ((r + 1) % E + i) % E = (r + (i + 1)) % E := by
  rw [Nat.add_mod, Nat.mod_mod, ← Nat.add_mod]
  congr 1
  omega

end imque

namespace imque

open QueueImpl

/-! ## The two cursor loops when they do not loop -/

theorem enq_impl_free (fuel : Nat) (q : QueueImpl) (v : Nat)
    (hfull : q.read_pos ≠ q.next_write_pos) (hfree : (q.entries q.write_pos).state = Entry.FREE) :
    enq_impl (fuel + 1) q v
      = .ok (true, { q with entries := Function.update q.entries q.write_pos ⟨Entry.USED, v % 2 ^ 31⟩
                            write_pos := q.next_write_pos }) := by
  unfold next_write_pos at hfull
  simp only [enq_impl, cas_entry, cas_write_pos, next_write_pos]
  rw [if_neg hfull, if_neg (not_not.2 hfree)]
  simp

theorem deq_impl_used (fuel : Nat) (q : QueueImpl)
    (hne : q.read_pos ≠ q.write_pos) (hused : (q.entries q.read_pos).state ≠ Entry.FREE) :
    deq_impl (fuel + 1) q
      = .ok ((q.entries q.read_pos).value,
          { q with entries := Function.update q.entries q.read_pos ⟨Entry.FREE, 0⟩
                   read_pos := ((q.read_pos + 1) % 2 ^ 32) % q.entry_count }) := by
  simp only [deq_impl, cas_entry, cas_read_pos]
  rw [if_neg hne, if_neg hused]
  simp

/-! ## The invariant of the queue -/

theorem QInv_init (q : QueueImpl) (hv : q.alc_.is_valid = true) (h1 : 1 ≤ q.entry_count)
    (h2 : q.entry_count < 2 ^ 32) :
    QInv q.init [(0, 0), (1, q.alc_.node_count_ - 1)] [] [] := by
  refine ⟨h1, h2, h1, ?_, h1, ?_, ?_, Inv_init q.alc_ hv, ?_, List.nodup_nil, ?_⟩
  · show 0 = (0 + 0) % q.entry_count
    simp
  · intro i p hp
    simp at hp
  · intro i _ hi
    show (if (0 + i) % q.entry_count < q.entry_count then (⟨0, 0⟩ : Entry) else _).state = 0
    rw [if_pos (Nat.mod_lt _ h1)]
  · intro d
    simp
  · intro p hp
    simp at hp

theorem QInv.isEmpty_iff {q : QueueImpl} {fl : List (Nat × Nat)} {held : List Nat}
    {pending : List (Nat × List Nat)} (h : QInv q fl held pending) :
    q.isEmpty = true ↔ pending = [] := by
  have h1 := h.rd
  have h2 := h.len
  simp only [isEmpty, beq_iff_eq]
  rw [h.wr]
  constructor
  · intro he
    have := ring_inj q.read_pos q.entry_count 0 pending.length h1 (by omega) h2
      (by rw [Nat.add_zero, Nat.mod_eq_of_lt h1]; exact he)
    exact List.length_eq_zero.1 this.symm
  · intro he
    rw [he]
    simp [Nat.mod_eq_of_lt h1]

theorem QInv.next_write {q : QueueImpl} {fl : List (Nat × Nat)} {held : List Nat}
    {pending : List (Nat × List Nat)} (h : QInv q fl held pending) :
    q.next_write_pos = (q.read_pos + (pending.length + 1)) % q.entry_count := by
  have h1 := h.ec_lt
  have h2 : q.write_pos < q.entry_count := by rw [h.wr]; exact Nat.mod_lt _ h.ec_pos
  have e : (q.write_pos + 1) % 2 ^ 32 = q.write_pos + 1 := Nat.mod_eq_of_lt (by omega)
  unfold next_write_pos
  rw [e, h.wr, Nat.add_mod ((q.read_pos + pending.length) % q.entry_count) 1, Nat.mod_mod,
    ← Nat.add_mod, Nat.add_assoc]

theorem QInv.isFull_iff {q : QueueImpl} {fl : List (Nat × Nat)} {held : List Nat}
    {pending : List (Nat × List Nat)} (h : QInv q fl held pending) :
    q.isFull = true ↔ pending.length + 1 = q.entry_count := by
  have h1 := h.rd
  have h2 := h.len
  simp only [isFull, beq_iff_eq]
  rw [h.next_write]
  constructor
  · intro he
    by_contra hne
    have := ring_inj q.read_pos q.entry_count 0 (pending.length + 1) h1 (by omega) (by omega)
      (by rw [Nat.add_zero, Nat.mod_eq_of_lt h1]; exact he)
    omega
  · intro he
    rw [he, Nat.add_mod_right, Nat.mod_eq_of_lt h1]

theorem QInv_add_overflow {q : QueueImpl} {fl : List (Nat × Nat)} {held : List Nat}
    {pending : List (Nat × List Nat)} (h : QInv q fl held pending) :
    QInv q.add_overflow fl held pending :=
  ⟨h.ec_pos, h.ec_lt, h.rd, h.wr, h.len, h.used, h.free, h.alloc, h.held_iff, h.nodup, h.payload⟩

end imque

namespace imque

open QueueImpl

/-- What `enq` does in a state satisfying the invariant, for a message whose length
fits the `uint32_t` argument of `allocate`. -/
theorem QInv_enq (q : QueueImpl) (fl : List (Nat × Nat)) (held : List Nat)
    (pending : List (Nat × List Nat)) (h : QInv q fl held pending)
    (data : Nat → Nat) (size fuel : Nat) (hsz : 8 + size < 2 ^ 32)
    (hf : q.alc_.node_count_ < fuel) :
    (q.isFull = true → q.enq fuel data size = .ok (false, q.add_overflow)) ∧
    (q.isFull = false → (aalloc q.alc_.node_count_ ((8 + size + 31) / 32) fl).1 = 0 →
      ∃ q1 : QueueImpl, q.enq fuel data size = .ok (false, q1) ∧
        q1.read_pos = q.read_pos ∧ q1.write_pos = q.write_pos ∧ q1.entries = q.entries ∧
        q1.overflowed_count = (q.overflowed_count + 1) % 2 ^ 32 ∧
        q1.entry_count = q.entry_count ∧ q1.alc_.node_count_ = q.alc_.node_count_ ∧
        QInv q1 (aalloc q.alc_.node_count_ ((8 + size + 31) / 32) fl).2 held pending) ∧
    (q.isFull = false → (aalloc q.alc_.node_count_ ((8 + size + 31) / 32) fl).1 ≠ 0 →
      ∃ q1 : QueueImpl, q.enq fuel data size = .ok (true, q1) ∧
        q1.overflowed_count = q.overflowed_count ∧
        q1.entry_count = q.entry_count ∧ q1.alc_.node_count_ = q.alc_.node_count_ ∧
        QInv q1 (aalloc q.alc_.node_count_ ((8 + size + 31) / 32) fl).2
          ((aalloc q.alc_.node_count_ ((8 + size + 31) / 32) fl).1 :: held)
          (pending ++ [((aalloc q.alc_.node_count_ ((8 + size + 31) / 32) fl).1,
            message data size)])) := by
  have hinv := h.alloc
  have hb := hinv.bounds
  have hmod : (sizeof_size_t + size) % 2 ^ 32 = 8 + size := by
    simp only [sizeof_size_t]; omega
  obtain ⟨alc1, hal, h1N, h1f, h1c, hi1⟩ :=
    Inv_allocate q.alc_ fl held hinv (8 + size) fuel (by omega) hsz
      (lt_of_le_of_lt hinv.length_le hf)
  have hpc : ∀ p ∈ pending, (alc1.nodes_ p.1).count = (q.alc_.nodes_ p.1).count := fun p hp => by
    rw [h1f p.1 ((h.held_iff p.1).2 (List.mem_map.2 ⟨p, hp, rfl⟩))]
  refine ⟨fun hfull => ?_, fun hfull hd => ?_, fun hfull hd => ?_⟩
  · simp only [enq, hfull, if_true]
  · rw [hd] at hal
    refine ⟨{ q with alc_ := alc1 }.add_overflow, ?_, rfl, rfl, rfl, rfl, rfl, h1N, ?_⟩
    · simp only [enq, hfull, hmod, hal, if_true, Bool.false_eq_true, if_false]
    · rw [if_pos hd] at hi1
      exact ⟨h.ec_pos, h.ec_lt, h.rd, h.wr, h.len, h.used, h.free, hi1, h.held_iff, h.nodup,
        fun p hp => ⟨(h.payload p hp).1, (h.payload p hp).2.1, by
          show sizeof_size_t + p.2.length ≤ sizeof_Chunk * (alc1.nodes_ p.1).count
          rw [hpc p hp]; exact (h.payload p hp).2.2⟩⟩
  · rw [if_neg hd] at hi1
    have h1c := h1c hd
    generalize hdd : (aalloc q.alc_.node_count_ ((8 + size + 31) / 32) fl).1 = d at *
    generalize (aalloc q.alc_.node_count_ ((8 + size + 31) / 32) fl).2 = fl1 at *
    obtain ⟨k, rfl⟩ : ∃ k, fuel = k + 1 := ⟨fuel - 1, by omega⟩
    have hdok := hi1.held_ok d (List.mem_cons_self _ _)
    rw [h1c, h1N] at hdok
    have hdnot : d ∉ held := (List.nodup_cons.1 hi1.held_nodup).1
    have hnf : q.read_pos ≠ q.next_write_pos := by
      simpa [isFull] using hfull
    have hlen1 : pending.length + 1 < q.entry_count := by
      have h1 := h.len
      have h2 : ¬ (pending.length + 1 = q.entry_count) := fun he => by
        have := h.isFull_iff.2 he
        rw [this] at hfull
        exact Bool.noConfusion hfull
      omega
    have hwfree : (q.entries q.write_pos).state = Entry.FREE := by
      rw [h.wr]
      exact h.free pending.length (le_refl _) h.len
    let q1 : QueueImpl :=
      { q with
        alc_ := alc1
        chunks := memcpy_to (write_size_t q.chunks (sizeof_Chunk * d) size)
          (sizeof_Chunk * d + sizeof_size_t) data size }
    have himpl := enq_impl_free k q1 d hnf hwfree
    refine ⟨{ q1 with entries := Function.update q1.entries q1.write_pos ⟨Entry.USED, d % 2 ^ 31⟩
                      write_pos := q1.next_write_pos }, ?_, rfl, rfl, h1N, ?_⟩
    · simp only [enq, hfull, hmod, hal, hd, Bool.false_eq_true, if_false]
      rw [himpl]
    · have hidx : ∀ i, i < q.entry_count → i ≠ pending.length →
          (q.read_pos + i) % q.entry_count ≠ q.write_pos := by
        intro i hi hne heq
        rw [h.wr] at heq
        exact hne (ring_inj _ _ _ _ h.rd hi h.len heq)
      refine ⟨h.ec_pos, h.ec_lt, h.rd, ?_, ?_, ?_, ?_, hi1, ?_, ?_, ?_⟩
      · show q1.next_write_pos = _
        rw [List.length_append, List.length_singleton]
        exact h.next_write
      · rw [List.length_append, List.length_singleton]; exact hlen1
      · intro i p hp
        show Function.update q.entries q.write_pos ⟨Entry.USED, d % 2 ^ 31⟩
          ((q.read_pos + i) % q.entry_count) = _
        by_cases hi : i < pending.length
        · rw [List.getElem?_append_left hi] at hp
          rw [Function.update_noteq (hidx i (by omega) (by omega))]
          exact h.used i p hp
        · have hi2 : i = pending.length := by
            by_contra hne
            have : (pending ++ [(d, message data size)]).length ≤ i := by
              rw [List.length_append, List.length_singleton]; omega
            rw [List.getElem?_eq_none this] at hp
            exact Option.noConfusion hp
          subst hi2
          rw [List.getElem?_append_right (le_refl _), Nat.sub_self] at hp
          simp only [List.getElem?_cons_zero, Option.some.injEq] at hp
          subst hp
          rw [← h.wr, Function.update_same, Nat.mod_eq_of_lt (by omega)]
      · intro i hi1 hi2
        rw [List.length_append, List.length_singleton] at hi1
        show (Function.update q.entries q.write_pos ⟨Entry.USED, d % 2 ^ 31⟩
          ((q.read_pos + i) % q.entry_count)).state = _
        rw [Function.update_noteq (hidx i hi2 (by omega))]
        exact h.free i (by omega) hi2
      · intro e
        rw [List.map_append, List.mem_append, List.mem_cons, h.held_iff e]
        simp only [List.map_cons, List.map_nil, List.mem_singleton]
        tauto
      · rw [List.map_append]
        simp only [List.map_cons, List.map_nil]
        refine List.Nodup.append h.nodup (List.nodup_singleton _) ?_
        intro e he1 he2
        rw [List.mem_singleton] at he2
        subst he2
        exact hdnot ((h.held_iff e).2 he1)
      · intro p hp
        rcases List.mem_append.1 hp with hp1 | hp1
        · have hold := h.payload p hp1
          have hph : p.1 ∈ held := (h.held_iff p.1).2 (List.mem_map.2 ⟨p, hp1, rfl⟩)
          have hne : d ≠ p.1 := fun he => hdnot (he ▸ hph)
          have hdis := hi1.disj_held d (List.mem_cons_self _ _) p.1 (List.mem_cons_of_mem _ hph) hne
          rw [h1c, hpc p hp1] at hdis
          have hcb := hold.2.2
          simp only [sizeof_size_t, sizeof_Chunk] at hcb
          have hfr : ∀ x, 32 * p.1 ≤ x → x < 32 * p.1 + 8 + p.2.length →
              memcpy_to (write_size_t q.chunks (sizeof_Chunk * d) size)
                (sizeof_Chunk * d + sizeof_size_t) data size x = q.chunks x := by
            intro x hx1 hx2
            apply payload_frame
            simp only [sizeof_size_t, sizeof_Chunk]
            omega
          refine ⟨?_, ?_, ?_⟩
          · refine (read_size_t_congr _ _ _ (fun x hx1 hx2 => ?_)).trans hold.1
            simp only [sizeof_Chunk] at hx1 hx2
            exact hfr x hx1 (by omega)
          · refine (read_bytes_congr _ _ _ _ (fun x hx1 hx2 => ?_)).trans hold.2.1
            simp only [sizeof_Chunk, sizeof_size_t] at hx1 hx2
            exact hfr x (by omega) (by omega)
          · show sizeof_size_t + p.2.length ≤ sizeof_Chunk * (alc1.nodes_ p.1).count
            rw [hpc p hp1]; exact hold.2.2
        · rw [List.mem_singleton] at hp1
          subst hp1
          simp only [message_length]
          refine ⟨?_, ?_, ?_⟩
          · exact read_size_t_written q.chunks (sizeof_Chunk * d) size data size (by omega)
          · exact read_bytes_written _ _ data size
          · show sizeof_size_t + size ≤ sizeof_Chunk * (alc1.nodes_ d).count
            rw [h1c]
            simp only [sizeof_size_t, sizeof_Chunk]
            omega

end imque

namespace imque

open QueueImpl

/-- What `deq` does in a state satisfying the invariant. -/
theorem QInv_deq (q : QueueImpl) (fl : List (Nat × Nat)) (held : List Nat)
    (pending : List (Nat × List Nat)) (h : QInv q fl held pending)
    (buf : List Nat) (fuel : Nat) (hf : q.alc_.node_count_ < fuel) :
    (pending = [] → q.deq fuel buf = .ok (false, buf, q)) ∧
    (∀ d b rest, pending = (d, b) :: rest →
      ∃ q1 : QueueImpl, q.deq fuel buf = .ok (true, b, q1) ∧
        q1.overflowed_count = q.overflowed_count ∧ q1.entry_count = q.entry_count ∧
        q1.alc_.node_count_ = q.alc_.node_count_ ∧
        QInv q1 (arelease q.alc_.node_count_ d (q.alc_.nodes_ d).count fl) (held.erase d) rest) := by
  have hinv := h.alloc
  have hb := hinv.bounds
  refine ⟨fun he => ?_, fun d b rest he => ?_⟩
  · have := h.isEmpty_iff.2 he
    simp only [deq, this, if_true]
  · subst he
    have hemp : q.isEmpty = false := by
      cases hq : q.isEmpty
      · rfl
      · have := h.isEmpty_iff.1 hq
        exact List.noConfusion this
    obtain ⟨k, rfl⟩ : ∃ k, fuel = k + 1 := ⟨fuel - 1, by omega⟩
    have hrd := h.rd
    have hlen := h.len
    simp only [List.length_cons] at hlen
    have hdh : d ∈ held := (h.held_iff d).2 (by simp)
    have hdok := hinv.held_ok d hdh
    have hslot : q.entries q.read_pos = ⟨Entry.USED, d⟩ := by
      have := h.used 0 (d, b) (by simp)
      rwa [Nat.add_zero, Nat.mod_eq_of_lt hrd] at this
    have hne : q.read_pos ≠ q.write_pos := by
      simpa [isEmpty] using hemp
    have hus : (q.entries q.read_pos).state ≠ Entry.FREE := by
      rw [hslot]
      show Entry.USED ≠ Entry.FREE
      decide
    have himpl := deq_impl_used k q hne hus
    rw [hslot] at himpl
    obtain ⟨alc1, hrel, h1N, h1f, hi1⟩ := Inv_release q.alc_ fl held hinv d (k + 1) hdh
      (lt_of_le_of_lt hinv.length_le hf)
    have hpay := h.payload (d, b) (List.mem_cons_self _ _)
    have hr1 : ((q.read_pos + 1) % 2 ^ 32) % q.entry_count = (q.read_pos + 1) % q.entry_count := by
      have := h.ec_lt
      have e : (q.read_pos + 1) % 2 ^ 32 = q.read_pos + 1 := Nat.mod_eq_of_lt (by omega)
      rw [e]
    have hd0 : d ≠ 0 := by omega
    have hnd := List.nodup_cons.1 (by simpa using h.nodup : (d :: rest.map Prod.fst).Nodup)
    refine ⟨{ q with entries := Function.update q.entries q.read_pos ⟨Entry.FREE, 0⟩
                     read_pos := (q.read_pos + 1) % q.entry_count
                     alc_ := alc1 }, ?_, rfl, rfl, h1N, ?_⟩
    · simp only [deq, hemp, Bool.false_eq_true, if_false, himpl, hd0]
      simp only [hrel]
      rw [hpay.1, hpay.2.1, hr1]
    · have hidx : ∀ i, i + 1 < q.entry_count →
          (q.read_pos + (i + 1)) % q.entry_count ≠ q.read_pos := by
        intro i hi heq
        have h0 : (q.read_pos + 0) % q.entry_count = q.read_pos := by
          rw [Nat.add_zero, Nat.mod_eq_of_lt hrd]
        have := ring_inj q.read_pos q.entry_count (i + 1) 0 hrd hi (by omega) (by rw [h0]; exact heq)
        omega
      refine ⟨h.ec_pos, h.ec_lt, Nat.mod_lt _ h.ec_pos, ?_, ?_, ?_, ?_, hi1, ?_, hnd.2, ?_⟩
      · show q.write_pos = ((q.read_pos + 1) % q.entry_count + rest.length) % q.entry_count
        rw [ring_succ, h.wr]
        rfl
      · show rest.length < q.entry_count
        omega
      · intro i p hp
        show Function.update q.entries q.read_pos ⟨Entry.FREE, 0⟩
          (((q.read_pos + 1) % q.entry_count + i) % q.entry_count) = _
        have hi : i < rest.length := by
          by_contra hcon
          rw [List.getElem?_eq_none (by omega)] at hp
          exact Option.noConfusion hp
        rw [ring_succ, Function.update_noteq (hidx i (by omega))]
        exact h.used (i + 1) p (by simpa using hp)
      · intro i hi1 hi2
        have hi2 : i < q.entry_count := hi2
        show (Function.update q.entries q.read_pos ⟨Entry.FREE, 0⟩
          (((q.read_pos + 1) % q.entry_count + i) % q.entry_count)).state = _
        rw [ring_succ]
        by_cases hi3 : i + 1 < q.entry_count
        · rw [Function.update_noteq (hidx i hi3)]
          exact h.free (i + 1) (by simp only [List.length_cons]; omega) hi3
        · have : i + 1 = q.entry_count := by omega
          rw [this, Nat.add_mod_right, Nat.mod_eq_of_lt hrd, Function.update_same]
      · intro e
        rw [List.Nodup.mem_erase_iff hinv.held_nodup, h.held_iff e]
        simp only [List.map_cons, List.mem_cons]
        constructor
        · rintro ⟨h1, h2 | h2⟩
          · exact absurd h2 h1
          · exact h2
        · intro h2
          exact ⟨fun he => hnd.1 (he ▸ h2), Or.inr h2⟩
      · intro p hp
        have hold := h.payload p (List.mem_cons_of_mem _ hp)
        have hph : p.1 ∈ held := (h.held_iff p.1).2 (by
          simp only [List.map_cons, List.mem_cons]
          exact Or.inr (List.mem_map.2 ⟨p, hp, rfl⟩))
        have hne2 : p.1 ≠ d := fun he => hnd.1 (he ▸ List.mem_map.2 ⟨p, hp, rfl⟩)
        refine ⟨hold.1, hold.2.1, ?_⟩
        show sizeof_size_t + p.2.length ≤ sizeof_Chunk * (alc1.nodes_ p.1).count
        rw [h1f p.1 hph hne2]
        exact hold.2.2

end imque

namespace imque

open QueueImpl

theorem message_list_data (b : List Nat) : message (list_data b) b.length = b := by
  apply List.ext_getElem
  · simp [message]
  · intro i h1 h2
    simp [message, list_data, List.getD_eq_getElem?_getD, h2]

theorem QInv.not_full {q : QueueImpl} {fl : List (Nat × Nat)} {held : List Nat}
    {pending : List (Nat × List Nat)} (h : QInv q fl held pending)
    (hl : pending.length + 1 < q.entry_count) : q.isFull = false := by
  cases hq : q.isFull
  · rfl
  · have := h.isFull_iff.1 hq
    omega

/-- A call of `enq` on a free list of one run that is large enough, with room in the ring. -/
theorem QInv_enq_single (q : QueueImpl) (held : List Nat) (pending : List (Nat × List Nat))
    (c c1 n : Nat) (h : QInv q [(0, 0), (1, c)] held pending)
    (data : Nat → Nat) (size fuel : Nat) (hl : pending.length + 1 < q.entry_count)
    (hn : (8 + size + 31) / 32 = n) (hc : c = c1 + n) (hc1 : 1 ≤ c1)
    (hf : q.alc_.node_count_ < fuel) :
    ∃ q1 : QueueImpl, q.enq fuel data size = .ok (true, q1) ∧
      q1.overflowed_count = q.overflowed_count ∧ q1.entry_count = q.entry_count ∧
      q1.alc_.node_count_ = q.alc_.node_count_ ∧
      QInv q1 [(0, 0), (1, c1)] ((1 + c1) :: held) (pending ++ [(1 + c1, message data size)]) := by
  have hb := h.alloc.bounds
  have hcN : 1 + c ≤ q.alc_.node_count_ := h.alloc.wf.2.2.1
  have hsz : 8 + size < 2 ^ 32 := by omega
  have he : aalloc q.alc_.node_count_ ((8 + size + 31) / 32) [(0, 0), (1, c)]
      = (1 + c1, [(0, 0), (1, c1)]) := by
    rw [hn, aalloc_single, if_pos (by omega)]
    have : c - n = c1 := by omega
    rw [this]
  have := (QInv_enq q _ held pending h data size fuel hsz hf).2.2 (h.not_full hl)
  rw [he] at this
  exact this (by simp only; omega)

/-- C1. Round trip: on a freshly initialised valid queue with `entry_count >= 2` whose
allocator can hold the message (`ceil((sizeof(size_t)+len)/32) < node_count - 1`),
`enq(b, len)` returns true, the following `deq` returns true with a buffer equal to `b`,
and `isEmpty()` is true afterwards. -/
theorem enq_deq_round_trip (q : QueueImpl) (b buf : List Nat) (fuel : Nat)
    (hv : q.is_valid = true) (he : 2 ≤ q.entry_count) (he2 : q.entry_count < 2 ^ 32)
    (hfit : (sizeof_size_t + b.length + 31) / 32 < q.alc_.node_count_ - 1)
    (hf : q.alc_.node_count_ < fuel) :
    ∃ q1 q2 : QueueImpl,
      q.init.enq fuel (list_data b) b.length = .ok (true, q1) ∧
      q1.deq fuel buf = .ok (true, b, q2) ∧ q2.isEmpty = true := by
  have hi := QInv_init q hv (by omega) he2
  have hN : q.init.alc_.node_count_ = q.alc_.node_count_ := init_node_count q.alc_
  simp only [sizeof_size_t] at hfit
  obtain ⟨q1, henq, _, _, h1N, hq1⟩ := QInv_enq_single q.init [] [] (q.alc_.node_count_ - 1)
    (q.alc_.node_count_ - 1 - (8 + b.length + 31) / 32) ((8 + b.length + 31) / 32) hi
    (list_data b) b.length fuel (by show 0 + 1 < q.entry_count; omega) rfl (by omega) (by omega)
    (by rw [hN]; exact hf)
  rw [message_list_data] at hq1
  obtain ⟨q2, hdeq, _, _, _, hq2⟩ := (QInv_deq q1 _ _ _ hq1 buf fuel (by rw [h1N, hN]; exact hf)).2
    _ _ _ rfl
  exact ⟨q1, q2, henq, hdeq, hq2.isEmpty_iff.2 rfl⟩

theorem enq_deq_round_trip_witness :
    ∃ q1 q2 : QueueImpl,
      (zero_queue 4 10).init.enq 11 (list_data [104, 101, 108, 108, 111]) [104, 101, 108, 108, 111].length
        = .ok (true, q1) ∧
      q1.deq 11 [] = .ok (true, [104, 101, 108, 108, 111], q2) ∧ q2.isEmpty = true :=
  enq_deq_round_trip (zero_queue 4 10) [104, 101, 108, 108, 111] [] 11 (by decide) (by decide)
    (by decide) (by decide) (by decide)

end imque

namespace imque

open QueueImpl

/-! ## First in, first out -/

/-- Calls made one after another in a state satisfying the invariant all return, and
the messages in the ring followed by those enqueued are the buffers dequeued followed
by the messages left in the ring. -/
theorem run_fifo (fuel : Nat) : ∀ (ops : List Op) (q : QueueImpl) (fl : List (Nat × Nat))
    (held : List Nat) (pending : List (Nat × List Nat)),
    QInv q fl held pending → q.alc_.node_count_ < fuel →
    (∀ data size, Op.enq data size ∈ ops → sizeof_size_t + size < 2 ^ 32) →
    ∃ (s r : List (List Nat)) (q2 : QueueImpl) (fl2 : List (Nat × Nat)) (held2 : List Nat)
      (pending2 : List (Nat × List Nat)),
      run fuel ops q = .ok (s, r, q2) ∧ QInv q2 fl2 held2 pending2 ∧
      pending.map Prod.snd ++ s = r ++ pending2.map Prod.snd
  | [], q, fl, held, pending, h, _, _ =>
    ⟨[], [], q, fl, held, pending, rfl, h, by simp⟩
  | Op.enq data size :: ops, q, fl, held, pending, h, hf, hops => by
    have hsz : 8 + size < 2 ^ 32 := by
      have := hops data size (List.mem_cons_self _ _)
      simpa [sizeof_size_t] using this
    have hops2 : ∀ data size, Op.enq data size ∈ ops → sizeof_size_t + size < 2 ^ 32 :=
      fun d s hm => hops d s (List.mem_cons_of_mem _ hm)
    obtain ⟨c1, c2, c3⟩ := QInv_enq q fl held pending h data size fuel hsz hf
    by_cases hfull : q.isFull = true
    · have henq := c1 hfull
      obtain ⟨s, r, q2, fl2, held2, p2, hrun, hq2, heq⟩ :=
        run_fifo fuel ops q.add_overflow fl held pending (QInv_add_overflow h) hf hops2
      exact ⟨s, r, q2, fl2, held2, p2, by simp only [run, henq, hrun]; rfl, hq2, heq⟩
    · have hfull : q.isFull = false := by simpa using hfull
      by_cases hd : (aalloc q.alc_.node_count_ ((8 + size + 31) / 32) fl).1 = 0
      · obtain ⟨q1, henq, _, _, _, _, _, h1N, hq1⟩ := c2 hfull hd
        obtain ⟨s, r, q2, fl2, held2, p2, hrun, hq2, heq⟩ :=
          run_fifo fuel ops q1 _ held pending hq1 (by rw [h1N]; exact hf) hops2
        exact ⟨s, r, q2, fl2, held2, p2, by simp only [run, henq, hrun]; rfl, hq2, heq⟩
      · obtain ⟨q1, henq, _, _, h1N, hq1⟩ := c3 hfull hd
        obtain ⟨s, r, q2, fl2, held2, p2, hrun, hq2, heq⟩ :=
          run_fifo fuel ops q1 _ _ _ hq1 (by rw [h1N]; exact hf) hops2
        refine ⟨message data size :: s, r, q2, fl2, held2, p2, by simp only [run, henq, hrun]; rfl,
          hq2, ?_⟩
        rw [← heq]
        simp
  | Op.deq :: ops, q, fl, held, pending, h, hf, hops => by
    have hops2 : ∀ data size, Op.enq data size ∈ ops → sizeof_size_t + size < 2 ^ 32 :=
      fun d s hm => hops d s (List.mem_cons_of_mem _ hm)
    obtain ⟨c1, c2⟩ := QInv_deq q fl held pending h [] fuel hf
    cases pending with
    | nil =>
      have hdeq := c1 rfl
      obtain ⟨s, r, q2, fl2, held2, p2, hrun, hq2, heq⟩ :=
        run_fifo fuel ops q fl held [] h hf hops2
      exact ⟨s, r, q2, fl2, held2, p2, by simp only [run, hdeq, hrun]; rfl, hq2, heq⟩
    | cons p rest =>
      obtain ⟨q1, hdeq, _, _, h1N, hq1⟩ := c2 p.1 p.2 rest rfl
      obtain ⟨s, r, q2, fl2, held2, p2, hrun, hq2, heq⟩ :=
        run_fifo fuel ops q1 _ _ rest hq1 (by rw [h1N]; exact hf) hops2
      refine ⟨s, p.2 :: r, q2, fl2, held2, p2, by simp only [run, hdeq, hrun]; rfl, hq2, ?_⟩
      simp only [List.map_cons, List.cons_append, heq]

/-- FIFO without interleaving, for messages whose length fits the 32-bit argument of
`allocate`: from `init` on a valid queue every sequence of calls returns, and the
buffers of the successful `deq` calls are, in order, the first messages of the
successful `enq` calls. -/
theorem fifo_in_range (q : QueueImpl) (ops : List Op) (fuel : Nat)
    (hv : q.is_valid = true) (he : 1 ≤ q.entry_count) (he2 : q.entry_count < 2 ^ 32)
    (hops : ∀ data size, Op.enq data size ∈ ops → sizeof_size_t + size < 2 ^ 32)
    (hf : q.alc_.node_count_ < fuel) :
    ∃ (s r : List (List Nat)) (q2 : QueueImpl),
      run fuel ops q.init = .ok (s, r, q2) ∧ ∃ rest, s = r ++ rest := by
  obtain ⟨s, r, q2, _, _, p2, hrun, _, heq⟩ :=
    run_fifo fuel ops q.init _ _ _ (QInv_init q hv he he2)
      (by rw [show q.init.alc_.node_count_ = q.alc_.node_count_ from init_node_count q.alc_];
          exact hf) hops
  exact ⟨s, r, q2, hrun, p2.map Prod.snd, by simpa using heq⟩

theorem fifo_in_range_witness :
    ∃ (s r : List (List Nat)) (q2 : QueueImpl),
      run 11 [Op.enq (sample_data 1) 8, Op.enq (sample_data 2) 40, Op.deq, Op.deq, Op.deq]
        (zero_queue 4 10).init = .ok (s, r, q2) ∧ ∃ rest, s = r ++ rest :=
  fifo_in_range (zero_queue 4 10) _ 11 (by decide) (by decide) (by decide)
    (by
      intro data size hm
      simp only [List.mem_cons, Op.enq.injEq, List.mem_singleton, List.not_mem_nil, or_false,
        reduceCtorEq] at hm
      rcases hm with ⟨_, rfl⟩ | ⟨_, rfl⟩ <;> decide)
    (by decide)

/-- C2, the failing input: after `enq` of the one-byte message `[10]`, `enq` of a message
of 4294967289 zero bytes returns true (`allocate` is asked for
`(8 + 4294967289) mod 2^32 = 1` byte), and the next `deq` returns true with an empty
buffer instead of `[10]`. -/
theorem fifo_oversize_message :
    (zero_queue 4 10).init.enq 11 (sample_data 1) 1
      = .ok (true, after_enq (zero_queue 4 10).init 11 (sample_data 1) 1) ∧
    (after_enq (zero_queue 4 10).init 11 (sample_data 1) 1).enq 11 (fun _ => 0) 4294967289
      = .ok (true, after_enq (after_enq (zero_queue 4 10).init 11 (sample_data 1) 1) 11
          (fun _ => 0) 4294967289) ∧
    (((after_enq (after_enq (zero_queue 4 10).init 11 (sample_data 1) 1) 11
          (fun _ => 0) 4294967289).deq 11 []).get (false, [], zero_queue 4 10)).1 = true ∧
    (((after_enq (after_enq (zero_queue 4 10).init 11 (sample_data 1) 1) 11
          (fun _ => 0) 4294967289).deq 11 []).get (false, [], zero_queue 4 10)).2.1 = [] ∧
    message (sample_data 1) 1 = [10] :=
  ⟨rfl, rfl, by decide, by decide, by decide⟩

end imque

namespace imque

open QueueImpl

/-- C3 (as amended). Fill then drain: on a freshly initialised valid queue with
`entry_count = 4` and at least 5 allocator nodes, three consecutive `enq` calls of
8-byte messages `m0, m1, m2` return true, the fourth `enq` returns false and
`overflowedCount()` is then 1, three following `deq` calls return `m0, m1, m2` in that
order, and a fourth `deq` returns false. -/
theorem fill_then_drain (q : QueueImpl) (m0 m1 m2 m3 : Nat → Nat) (buf : List Nat) (fuel : Nat)
    (hv : q.is_valid = true) (he : q.entry_count = 4) (hN : 5 ≤ q.alc_.node_count_)
    (hf : q.alc_.node_count_ < fuel) :
    ∃ q1 q2 q3 q4 q5 q6 q7 : QueueImpl,
      q.init.enq fuel m0 8 = .ok (true, q1) ∧ q1.enq fuel m1 8 = .ok (true, q2) ∧
      q2.enq fuel m2 8 = .ok (true, q3) ∧
      q3.enq fuel m3 8 = .ok (false, q4) ∧ q4.overflowedCount = 1 ∧
      q4.deq fuel buf = .ok (true, message m0 8, q5) ∧
      q5.deq fuel buf = .ok (true, message m1 8, q6) ∧
      q6.deq fuel buf = .ok (true, message m2 8, q7) ∧
      q7.deq fuel buf = .ok (false, buf, q7) := by
  obtain ⟨c, hc, hc1⟩ : ∃ c, q.alc_.node_count_ = c + 4 ∧ 1 ≤ c :=
    ⟨q.alc_.node_count_ - 4, by omega, by omega⟩
  have e0 : q.alc_.node_count_ - 1 = (c + 2) + 1 := by omega
  have e1 : c + 2 = (c + 1) + 1 := by omega
  have e2 : c + 1 = c + 1 := rfl
  have p0 : 1 ≤ c + 2 := by omega
  have p1 : 1 ≤ c + 1 := by omega
  have hi := QInv_init q hv (by omega) (by omega)
  have hN0 : q.init.alc_.node_count_ = q.alc_.node_count_ := init_node_count q.alc_
  have hE0 : q.init.entry_count = 4 := he
  have ho0 : q.init.overflowed_count = 0 := rfl
  clear hc hN hv
  obtain ⟨q1, henq1, ho1, hE1, hN1, hq1⟩ := QInv_enq_single q.init [] [] _ (c + 2) 1 hi m0 8 fuel
    (by rw [hE0]; decide) rfl e0 p0 (by rw [hN0]; exact hf)
  rw [hE0] at hE1
  rw [hN0] at hN1
  obtain ⟨q2, henq2, ho2, hE2, hN2, hq2⟩ := QInv_enq_single q1 _ _ _ (c + 1) 1 hq1 m1 8 fuel
    (by rw [hE1]; simp) rfl e1 p1 (by rw [hN1]; exact hf)
  rw [hE1] at hE2
  rw [hN1] at hN2
  obtain ⟨q3, henq3, ho3, hE3, hN3, hq3⟩ := QInv_enq_single q2 _ _ _ c 1 hq2 m2 8 fuel
    (by rw [hE2]; simp) rfl e2 hc1 (by rw [hN2]; exact hf)
  rw [hE2] at hE3
  rw [hN2] at hN3
  have hfull : q3.isFull = true := hq3.isFull_iff.2 (by rw [hE3]; rfl)
  have henq4 := (QInv_enq q3 _ _ _ hq3 m3 8 fuel (by decide) (by rw [hN3]; exact hf)).1 hfull
  have hq4 := QInv_add_overflow hq3
  have ho4 : q3.add_overflow.overflowedCount = 1 := by
    show (q3.overflowed_count + 1) % 2 ^ 32 = 1
    rw [ho3, ho2, ho1, ho0]
    rfl
  obtain ⟨q5, hdeq5, _, _, hN5, hq5⟩ := (QInv_deq q3.add_overflow _ _ _ hq4 buf fuel
    (by show q3.alc_.node_count_ < fuel; rw [hN3]; exact hf)).2 _ _ _ rfl
  have hN5 : q5.alc_.node_count_ = q.alc_.node_count_ := by rw [hN5]; exact hN3
  obtain ⟨q6, hdeq6, _, _, hN6, hq6⟩ := (QInv_deq q5 _ _ _ hq5 buf fuel
    (by rw [hN5]; exact hf)).2 _ _ _ rfl
  rw [hN5] at hN6
  obtain ⟨q7, hdeq7, _, _, hN7, hq7⟩ := (QInv_deq q6 _ _ _ hq6 buf fuel
    (by rw [hN6]; exact hf)).2 _ _ _ rfl
  rw [hN6] at hN7
  have hdeq8 := (QInv_deq q7 _ _ _ hq7 buf fuel (by rw [hN7]; exact hf)).1 rfl
  exact ⟨q1, q2, q3, _, q5, q6, q7, henq1, henq2, henq3, henq4, ho4, hdeq5, hdeq6, hdeq7, hdeq8⟩

theorem fill_then_drain_witness :
    ∃ q1 q2 q3 q4 q5 q6 q7 : QueueImpl,
      (zero_queue 4 10).init.enq 11 (sample_data 0) 8 = .ok (true, q1) ∧
      q1.enq 11 (sample_data 1) 8 = .ok (true, q2) ∧
      q2.enq 11 (sample_data 2) 8 = .ok (true, q3) ∧
      q3.enq 11 (sample_data 3) 8 = .ok (false, q4) ∧ q4.overflowedCount = 1 ∧
      q4.deq 11 [] = .ok (true, message (sample_data 0) 8, q5) ∧
      q5.deq 11 [] = .ok (true, message (sample_data 1) 8, q6) ∧
      q6.deq 11 [] = .ok (true, message (sample_data 2) 8, q7) ∧
      q7.deq 11 [] = .ok (false, [], q7) :=
  fill_then_drain (zero_queue 4 10) (sample_data 0) (sample_data 1) (sample_data 2)
    (sample_data 3) [] 11 (by decide) (by decide) (by decide) (by decide)

/-- C3, the claim as stated fails: with `entry_count = 4` (and 10 allocator nodes) the
first three `enq` calls of 8-byte messages return true and the fourth returns false;
the ring holds `entry_count - 1` messages. -/
theorem fill_fourth_enq_fails :
    (zero_queue 4 10).init.enq 11 (sample_data 0) 8
      = .ok (true, after_enq (zero_queue 4 10).init 11 (sample_data 0) 8) ∧
    (after_enq (zero_queue 4 10).init 11 (sample_data 0) 8).enq 11 (sample_data 1) 8
      = .ok (true, after_enq (after_enq (zero_queue 4 10).init 11 (sample_data 0) 8) 11
          (sample_data 1) 8) ∧
    (after_enq (after_enq (zero_queue 4 10).init 11 (sample_data 0) 8) 11
          (sample_data 1) 8).enq 11 (sample_data 2) 8
      = .ok (true, after_enq (after_enq (after_enq (zero_queue 4 10).init 11 (sample_data 0) 8) 11
          (sample_data 1) 8) 11 (sample_data 2) 8) ∧
    (after_enq (after_enq (after_enq (zero_queue 4 10).init 11 (sample_data 0) 8) 11
          (sample_data 1) 8) 11 (sample_data 2) 8).enq 11 (sample_data 3) 8
      = .ok (false, after_enq (after_enq (after_enq (after_enq (zero_queue 4 10).init 11
          (sample_data 0) 8) 11 (sample_data 1) 8) 11 (sample_data 2) 8) 11 (sample_data 3) 8) :=
  ⟨rfl, rfl, rfl, rfl⟩

end imque

namespace imque

open QueueImpl

/-! ## The overflow counter -/

theorem enq_impl_true_overflow (fuel : Nat) : ∀ (q : QueueImpl) (v : Nat) (q1 : QueueImpl),
    enq_impl fuel q v = .ok (true, q1) → q1.overflowed_count = q.overflowed_count := by
  induction fuel with
  | zero => intro q v q1 h; simp [enq_impl] at h
  | succ fuel ih =>
    intro q v q1 h
    simp only [enq_impl] at h
    by_cases hfull : q.read_pos = ((q.write_pos + 1) % 2 ^ 32) % q.entry_count
    · rw [if_pos hfull] at h
      simp at h
    · rw [if_neg hfull] at h
      by_cases hused : (q.entries q.write_pos).state ≠ Entry.FREE
      · rw [if_pos hused] at h
        have := ih _ _ _ h
        rw [this]
        unfold cas_write_pos
        split_ifs <;> rfl
      · rw [if_neg hused] at h
        simp only [cas_entry, if_true] at h
        simp only [Res.ok.injEq, Prod.mk.injEq, true_and] at h
        rw [← h]
        unfold cas_write_pos
        split_ifs <;> rfl

theorem deq_impl_overflow (fuel : Nat) : ∀ (q : QueueImpl) (v : Nat) (q1 : QueueImpl),
    deq_impl fuel q = .ok (v, q1) → q1.overflowed_count = q.overflowed_count := by
  induction fuel with
  | zero => intro q v q1 h; simp [deq_impl] at h
  | succ fuel ih =>
    intro q v q1 h
    simp only [deq_impl] at h
    by_cases hemp : q.read_pos = q.write_pos
    · rw [if_pos hemp] at h
      simp only [Res.ok.injEq, Prod.mk.injEq] at h
      rw [← h.2]
    · rw [if_neg hemp] at h
      by_cases hfree : (q.entries q.read_pos).state = Entry.FREE
      · rw [if_pos hfree] at h
        have := ih _ _ _ h
        rw [this]
        unfold cas_read_pos
        split_ifs <;> rfl
      · rw [if_neg hfree] at h
        simp only [cas_entry, if_true] at h
        simp only [Res.ok.injEq, Prod.mk.injEq] at h
        rw [← h.2]
        unfold cas_read_pos
        split_ifs <;> rfl

/-- C10 (as amended). Overflow accounting, for every state and every call of `enq` or
`deq` made without interleaving: if `enq` returns true then `overflowedCount()` is
unchanged; if `enq` returns false because the ring was full on entry or the allocator
returned 0, then `overflowedCount()` is exactly one larger (mod 2^32) while `read_pos`,
`write_pos` and every slot are unchanged; when the slot at `write_pos` is FREE these are
the only ways for `enq` to return false; `deq` never changes `overflowedCount()`. -/
theorem overflow_accounting (q : QueueImpl) (fuel : Nat) (data : Nat → Nat) (size : Nat)
    (buf : List Nat) :
    (∀ q1, q.enq fuel data size = .ok (true, q1) → q1.overflowedCount = q.overflowedCount) ∧
    (∀ q1, q.enq fuel data size = .ok (false, q1) →
      (q.isFull = true ∨
        ∃ alc1, q.alc_.allocate fuel ((sizeof_size_t + size) % 2 ^ 32) = .ok (0, alc1)) →
      q1.overflowedCount = (q.overflowedCount + 1) % 2 ^ 32 ∧ q1.read_pos = q.read_pos ∧
        q1.write_pos = q.write_pos ∧ q1.entries = q.entries) ∧
    (∀ q1, (q.entries q.write_pos).state = Entry.FREE →
      q.enq fuel data size = .ok (false, q1) →
      (q.isFull = true ∨
        ∃ alc1, q.alc_.allocate fuel ((sizeof_size_t + size) % 2 ^ 32) = .ok (0, alc1))) ∧
    (∀ b buf1 q1, q.deq fuel buf = .ok (b, buf1, q1) →
      q1.overflowedCount = q.overflowedCount) := by
  refine ⟨?_, ?_, ?_, ?_⟩
  · intro q1 h
    unfold enq at h
    by_cases hfull : q.isFull = true
    · rw [if_pos hfull] at h
      simp at h
    · rw [if_neg hfull] at h
      rcases hal : q.alc_.allocate fuel ((sizeof_size_t + size) % 2 ^ 32) with ⟨id, alc1⟩ | _ | _
      · rw [hal] at h
        dsimp only at h
        by_cases hid : id = 0
        · rw [if_pos hid] at h
          simp at h
        · rw [if_neg hid] at h
          generalize hq : ({ q with
              alc_ := alc1
              chunks := memcpy_to (write_size_t q.chunks (sizeof_Chunk * id) size)
                (sizeof_Chunk * id + sizeof_size_t) data size } : QueueImpl) = qa at h
          have hqa : qa.overflowed_count = q.overflowed_count := by rw [← hq]
          rcases hei : enq_impl fuel qa id with ⟨b, q2⟩ | _ | _
          · rw [hei] at h
            cases b
            · dsimp only at h
              rcases hrel : q2.add_overflow.alc_.release fuel id with ⟨b2, alc2⟩ | _ | _
              · rw [hrel] at h
                simp at h
              · rw [hrel] at h
                simp at h
              · rw [hrel] at h
                simp at h
            · dsimp only at h
              simp only [Res.ok.injEq, Prod.mk.injEq, true_and] at h
              rw [← h]
              exact (enq_impl_true_overflow fuel qa id q2 hei).trans hqa
          · rw [hei] at h
            simp at h
          · rw [hei] at h
            simp at h
      · rw [hal] at h
        simp at h
      · rw [hal] at h
        simp at h
  · intro q1 h hc
    unfold enq at h
    by_cases hfull : q.isFull = true
    · rw [if_pos hfull] at h
      simp only [Res.ok.injEq, Prod.mk.injEq, true_and] at h
      rw [← h]
      exact ⟨rfl, rfl, rfl, rfl⟩
    · rw [if_neg hfull] at h
      rcases hc with hc | ⟨alc1, hal⟩
      · exact absurd hc hfull
      · rw [hal] at h
        dsimp only at h
        rw [if_pos rfl] at h
        simp only [Res.ok.injEq, Prod.mk.injEq, true_and] at h
        rw [← h]
        exact ⟨rfl, rfl, rfl, rfl⟩
  · intro q1 hfree h
    by_cases hfull : q.isFull = true
    · exact Or.inl hfull
    · right
      unfold enq at h
      rw [if_neg hfull] at h
      rcases hal : q.alc_.allocate fuel ((sizeof_size_t + size) % 2 ^ 32) with ⟨id, alc1⟩ | _ | _
      · rw [hal] at h
        dsimp only at h
        by_cases hid : id = 0
        · subst hid
          exact ⟨alc1, rfl⟩
        · exfalso
          rw [if_neg hid] at h
          cases fuel with
          | zero => simp [enq_impl] at h
          | succ fuel =>
            have hnf : q.read_pos ≠ q.next_write_pos := by
              intro e
              apply hfull
              unfold isFull
              rw [e]
              exact beq_self_eq_true _
            generalize hq : ({ q with
                alc_ := alc1
                chunks := memcpy_to (write_size_t q.chunks (sizeof_Chunk * id) size)
                  (sizeof_Chunk * id + sizeof_size_t) data size } : QueueImpl) = qa at h
            have hnf2 : qa.read_pos ≠ qa.next_write_pos := by rw [← hq]; exact hnf
            have hfree2 : (qa.entries qa.write_pos).state = Entry.FREE := by rw [← hq]; exact hfree
            rw [enq_impl_free fuel qa id hnf2 hfree2] at h
            simp at h
      · rw [hal] at h
        simp at h
      · rw [hal] at h
        simp at h
  · intro b buf1 q1 h
    unfold deq at h
    by_cases hemp : q.isEmpty = true
    · rw [if_pos hemp] at h
      simp only [Res.ok.injEq, Prod.mk.injEq] at h
      rw [← h.2.2]
    · rw [if_neg hemp] at h
      rcases hdi : deq_impl fuel q with ⟨id, qa⟩ | _ | _
      · rw [hdi] at h
        dsimp only at h
        have hqa := deq_impl_overflow fuel q id qa hdi
        by_cases hid : id = 0
        · rw [if_pos hid] at h
          simp only [Res.ok.injEq, Prod.mk.injEq] at h
          rw [← h.2.2]
          exact hqa
        · rw [if_neg hid] at h
          rcases hrel : qa.alc_.release fuel id with ⟨b2, alc2⟩ | _ | _
          · rw [hrel] at h
            cases b2
            · simp at h
            · simp only [Res.ok.injEq, Prod.mk.injEq] at h
              rw [← h.2.2]
              exact hqa
          · rw [hrel] at h
            simp at h
          · rw [hrel] at h
            simp at h
      · rw [hdi] at h
        simp at h
      · rw [hdi] at h
        simp at h

theorem overflow_accounting_witness :
    (after_enq (zero_queue 2 10).init 11 (sample_data 1) 1).overflowedCount
      = (zero_queue 2 10).init.overflowedCount ∧
    ((after_enq full_queue 11 (sample_data 2) 1).overflowedCount
        = (full_queue.overflowedCount + 1) % 2 ^ 32 ∧
      (after_enq full_queue 11 (sample_data 2) 1).read_pos = full_queue.read_pos ∧
      (after_enq full_queue 11 (sample_data 2) 1).write_pos = full_queue.write_pos ∧
      (after_enq full_queue 11 (sample_data 2) 1).entries = full_queue.entries) ∧
    (full_queue.isFull = true ∨
      ∃ alc1, full_queue.alc_.allocate 11 ((sizeof_size_t + 1) % 2 ^ 32) = .ok (0, alc1)) ∧
    (after_deq full_queue 11).overflowedCount = full_queue.overflowedCount :=
  ⟨(overflow_accounting (zero_queue 2 10).init 11 (sample_data 1) 1 []).1 _ rfl,
   (overflow_accounting full_queue 11 (sample_data 2) 1 []).2.1 _ rfl (Or.inl (by decide)),
   (overflow_accounting full_queue 11 (sample_data 2) 1 []).2.2.1
     (after_enq full_queue 11 (sample_data 2) 1) (by decide) rfl,
   (overflow_accounting full_queue 11 (sample_data 2) 1 []).2.2.2 true
     [10] (after_deq full_queue 11) rfl⟩

/-- C10, the claim as stated fails: in `stalled_queue` (2 slots, the slot at `write_pos`
USED, the ring not full on entry) the call `enq(sample_data 2, 1)` returns false,
`overflowedCount()` goes from 0 to 2 and `write_pos` from 0 to 1. -/
theorem overflow_counted_twice :
    stalled_queue.isFull = false ∧
    (stalled_queue.entries stalled_queue.write_pos).state = Entry.USED ∧
    stalled_queue.enq 11 (sample_data 2) 1
      = .ok (false, after_enq stalled_queue 11 (sample_data 2) 1) ∧
    stalled_queue.overflowedCount = 0 ∧
    (after_enq stalled_queue 11 (sample_data 2) 1).overflowedCount = 2 ∧
    stalled_queue.write_pos = 0 ∧
    (after_enq stalled_queue 11 (sample_data 2) 1).write_pos = 1 :=
  ⟨by decide, by decide, rfl, by decide, by decide, by decide, by decide⟩

end imque

namespace imque

/-! ## Records built from a node -/

/-- The three `change_` members give a record whose version is the node's version plus
one modulo 64 and keep the two fields they do not name; `join` takes its version from
the tail node. -/
theorem change_version (p t : Node) (x : Nat) :
    ((p.change_next x).version = (p.version + 1) % 64 ∧
      (p.change_next x).count = p.count ∧ (p.change_next x).status = p.status) ∧
    ((p.change_count x).version = (p.version + 1) % 64 ∧
      (p.change_count x).next = p.next ∧ (p.change_count x).status = p.status) ∧
    ((p.change_status x).version = (p.version + 1) % 64 ∧
      (p.change_status x).next = p.next ∧ (p.change_status x).count = p.count) ∧
    (p.join t).version = (t.version + 1) % 64 :=
  ⟨⟨rfl, rfl, rfl⟩, ⟨rfl, rfl, rfl⟩, ⟨rfl, rfl, rfl⟩, rfl⟩

/-- C19, the failing input: in `two_runs_allocator` node 1 is `{next 9, version 4,
count 8}` and node 9 is `{next 10, version 2, count 1}`. The step of the walk at node 1
marks both (versions 5 and 3) and stores `p.join(t)` for the marked records `p` and
`t`: its version is 4, the tail's version plus one, where `p.version + 1` is 6; node 1
has again the version it had before the step. -/
theorem join_version_from_tail :
    two_runs_allocator.nodes_ 1 = ⟨9, 4, 8, Node.AVAILABLE⟩ ∧
    two_runs_allocator.nodes_ 9 = ⟨10, 2, 1, Node.AVAILABLE⟩ ∧
    (Node.join ⟨9, 5, 8, Node.JOIN_HEAD⟩ ⟨10, 3, 1, Node.JOIN_TAIL⟩).version = 4 ∧
    ((⟨9, 5, 8, Node.JOIN_HEAD⟩ : Node).version + 1) % 64 = 6 ∧
    ((walk_step two_runs_allocator (snapshot_at two_runs_allocator 1)).get
      (false, two_runs_allocator, snapshot_at two_runs_allocator 1,
        snapshot_at two_runs_allocator 1)).2.1.nodes_ 1 = ⟨10, 4, 9, Node.AVAILABLE⟩ := by
  decide

/-! ## get_next_snapshot -/

/-- C20 (as amended). One step of the walk, `curr` being the node read at `pred.next`
and `pred` found unmodified (the assertions of `get_next_snapshot` holding):
`get_next_snapshot` reports failure, and `find_candidate` then starts over from the
head with one retry less, whenever `pred` does not have JOIN_HEAD set and `curr` has
JOIN_TAIL set; it reports success otherwise. -/
theorem get_next_snapshot_check (a : VariableAllocator) (pred : NodeSnapshot)
    (hnext : pred.val.next ≠ a.node_count_) (hmod : isModified a pred = false)
    (hassert : (a.nodes_ pred.val.next).is_join_head = false ∨
      is_joinable (snapshot_at a pred.val.next) = true) :
    ((pred.val.is_join_head = false ∧ (a.nodes_ pred.val.next).is_join_tail = true) →
      get_next_snapshot a pred = .ok (false, snapshot_at a pred.val.next) ∧
      ∀ (fn : NodeSnapshot → Bool) (fuel : Nat) (retry : Int), 0 ≤ retry →
        find_candidate fn (fuel + 1) a pred retry
          = find_candidate fn fuel a (snapshot_at a 0) (retry - 1)) ∧
    (¬ (pred.val.is_join_head = false ∧ (a.nodes_ pred.val.next).is_join_tail = true) →
      get_next_snapshot a pred = .ok (true, snapshot_at a pred.val.next)) := by
  have h2 : ((a.nodes_ pred.val.next).is_join_head && !is_joinable (snapshot_at a pred.val.next))
      = false := by
    rcases hassert with h | h <;> simp [h]
  constructor
  · rintro ⟨hh, ht⟩
    have hg : get_next_snapshot a pred = .ok (false, snapshot_at a pred.val.next) := by
      unfold get_next_snapshot
      rw [if_neg hnext]
      simp only [hmod, snapshot_at, hh, ht] at h2 ⊢
      simp [h2]
    refine ⟨hg, ?_⟩
    intro fn fuel retry hr
    rw [find_candidate, if_neg (not_lt.2 hr), if_neg hnext]
    simp only [walk_step, hg]
  · intro hn
    unfold get_next_snapshot
    rw [if_neg hnext]
    simp only [hmod, snapshot_at] at h2 ⊢
    simp only [h2]
    have : (!pred.val.is_join_head && (a.nodes_ pred.val.next).is_join_tail) = false := by
      cases h1 : pred.val.is_join_head <;> cases h3 : (a.nodes_ pred.val.next).is_join_tail <;>
        simp_all
    simp [this]

theorem get_next_snapshot_check_witness :
    get_next_snapshot stale_tail_allocator (snapshot_at stale_tail_allocator 1)
      = .ok (false, snapshot_at stale_tail_allocator 4) ∧
    get_next_snapshot abandoned_allocator (snapshot_at abandoned_allocator 1)
      = .ok (true, snapshot_at abandoned_allocator 4) :=
  ⟨((get_next_snapshot_check stale_tail_allocator (snapshot_at stale_tail_allocator 1)
      (by decide) (by decide) (by decide)).1 (by decide)).1,
   (get_next_snapshot_check abandoned_allocator (snapshot_at abandoned_allocator 1)
      (by decide) (by decide) (by decide)).2 (by decide)⟩

/-- C20, the claim as stated fails: in `abandoned_allocator` the node `pred` (node 1) is
unmodified and has JOIN_HEAD set, `curr` (node 4) does not have JOIN_TAIL set, and
`get_next_snapshot` reports success; in `stale_tail_allocator` `pred` does not have
JOIN_HEAD set, `curr` has JOIN_TAIL set, and `get_next_snapshot` reports failure. -/
theorem get_next_snapshot_head_without_tail :
    (abandoned_allocator.nodes_ 1).is_join_head = true ∧
    (abandoned_allocator.nodes_ 4).is_join_tail = false ∧
    isModified abandoned_allocator (snapshot_at abandoned_allocator 1) = false ∧
    get_next_snapshot abandoned_allocator (snapshot_at abandoned_allocator 1)
      = .ok (true, snapshot_at abandoned_allocator 4) ∧
    (stale_tail_allocator.nodes_ 1).is_join_head = false ∧
    (stale_tail_allocator.nodes_ 4).is_join_tail = true ∧
    isModified stale_tail_allocator (snapshot_at stale_tail_allocator 1) = false ∧
    get_next_snapshot stale_tail_allocator (snapshot_at stale_tail_allocator 1)
      = .ok (false, snapshot_at stale_tail_allocator 4) :=
  ⟨by decide, by decide, by decide, rfl, by decide, by decide, by decide, rfl⟩

end imque

namespace imque

open QueueImpl

/-! ## Region layout and the validity test -/

/-- C13 (as amended). Region layout arithmetic: for a region of `size` bytes and a ring
of `entry_count` slots, the header occupies `H = 16 + 4 * entry_count` bytes and the
allocator's `node_count_` equals `(size - H) / (8 + 32)` (integer division), a node
record being two 32-bit words (8 bytes) and a chunk 32 bytes. -/
theorem region_layout (entry_count size : Nat) (shm_ok : Bool) (region : QueueImpl)
    (he : entry_count < 2 ^ 32) (hH : 16 + 4 * entry_count ≤ size)
    (hs : size - (16 + 4 * entry_count) < 2 ^ 32) :
    que_size entry_count = 16 + 4 * entry_count ∧
    (construct entry_count size shm_ok region).alc_.node_count_
      = (size - (16 + 4 * entry_count)) / (8 + 32) ∧
    sizeof_Node = 8 ∧ sizeof_Chunk = 32 := by
  have hq : que_size entry_count = 16 + 4 * entry_count := by
    unfold que_size sizeof_Header sizeof_Entry
    norm_num
    omega
  refine ⟨hq, ?_, rfl, rfl⟩
  show ((((size + 2 ^ 64 - que_size entry_count) % 2 ^ 64) % 2 ^ 32)
    / (sizeof_Node + sizeof_Chunk)) % 2 ^ 32 = _
  rw [hq]
  have e1 : (size + 2 ^ 64 - (16 + 4 * entry_count)) % 2 ^ 64 = size - (16 + 4 * entry_count) := by
    omega
  rw [e1, Nat.mod_eq_of_lt hs]
  have e2 : sizeof_Node + sizeof_Chunk = 8 + 32 := rfl
  rw [e2]
  have : (size - (16 + 4 * entry_count)) / (8 + 32) ≤ size - (16 + 4 * entry_count) :=
    Nat.div_le_self _ _
  omega

theorem region_layout_witness :
    que_size 4 = 16 + 4 * 4 ∧
    (construct 4 392 true (zero_queue 0 0)).alc_.node_count_ = (392 - (16 + 4 * 4)) / (8 + 32) ∧
    sizeof_Node = 8 ∧ sizeof_Chunk = 32 :=
  region_layout 4 392 true (zero_queue 0 0) (by decide) (by decide) (by decide)

/-- C13, the claim as stated fails: for a region of 392 bytes and 4 slots the header
takes 32 bytes and the allocator gets 360 bytes; `node_count_` is 9, not
`360 / (4 + 32) = 10`, a node record being 8 bytes. -/
theorem region_layout_node_is_two_words :
    que_size 4 = 32 ∧
    (construct 4 392 true (zero_queue 0 0)).alc_.node_count_ = 9 ∧
    (392 - que_size 4) / (4 + 32) = 10 ∧
    sizeof_Node * 8 = 64 := by
  decide

/-- C14 (as amended). Minimum region size: the allocator reports itself valid exactly
when the region is not null, `node_count_ >= 3` and `node_count_ < NODE_COUNT_LIMIT`;
for a region of `size` bytes that is `size >= 3 * (node_size + chunk_size)` with
`size / (node_size + chunk_size) < NODE_COUNT_LIMIT`. A valid allocator's `init` sets
up the free list (node 0 with next 1 and count 0, node 1 with next `node_count_` and
count `node_count_ - 1`, both AVAILABLE); on an allocator that is not valid `init`
does nothing. -/
theorem minimum_region_size (a : VariableAllocator) :
    (a.is_valid = true ↔
      (a.nodes_is_null = false ∧ 3 ≤ a.node_count_ ∧ a.node_count_ < NODE_COUNT_LIMIT)) ∧
    (∀ (region : Nat → Node) (size : Nat), size < 2 ^ 32 →
      ((VariableAllocator.construct false region size).is_valid = true ↔
        (3 * (sizeof_Node + sizeof_Chunk) ≤ size ∧
          size / (sizeof_Node + sizeof_Chunk) < NODE_COUNT_LIMIT))) ∧
    (a.is_valid = true →
      ((a.init.nodes_ 0).next = 1 ∧ (a.init.nodes_ 0).count = 0 ∧
        (a.init.nodes_ 0).status = Node.AVAILABLE) ∧
      ((a.init.nodes_ 1).next = a.node_count_ ∧ (a.init.nodes_ 1).count = a.node_count_ - 1 ∧
        (a.init.nodes_ 1).status = Node.AVAILABLE)) ∧
    (a.is_valid = false → a.init = a) := by
  have hv : ∀ b : VariableAllocator, b.is_valid = true ↔
      (b.nodes_is_null = false ∧ 3 ≤ b.node_count_ ∧ b.node_count_ < NODE_COUNT_LIMIT) := by
    intro b
    unfold VariableAllocator.is_valid
    simp only [Bool.and_eq_true, Bool.not_eq_true', decide_eq_true_eq]
    constructor
    · rintro ⟨⟨h1, h2⟩, h3⟩
      exact ⟨h1, h2, h3⟩
    · rintro ⟨h1, h2, h3⟩
      exact ⟨⟨h1, h2⟩, h3⟩
  refine ⟨hv a, ?_, ?_, ?_⟩
  · intro region size hs
    rw [hv]
    have hlt : size / (sizeof_Node + sizeof_Chunk) < 2 ^ 32 :=
      lt_of_le_of_lt (Nat.div_le_self _ _) hs
    show (false = false ∧ 3 ≤ (size / (sizeof_Node + sizeof_Chunk)) % 2 ^ 32 ∧
      (size / (sizeof_Node + sizeof_Chunk)) % 2 ^ 32 < NODE_COUNT_LIMIT) ↔ _
    rw [Nat.mod_eq_of_lt hlt]
    have e2 : sizeof_Node + sizeof_Chunk = 40 := rfl
    rw [e2]
    constructor
    · rintro ⟨_, h3, hl⟩
      exact ⟨by omega, hl⟩
    · rintro ⟨h3, hl⟩
      exact ⟨rfl, by omega, hl⟩
  · intro h
    exact ⟨init_node0 a h, init_node1 a h⟩
  · intro h
    unfold VariableAllocator.init
    rw [h]
    rfl

theorem minimum_region_size_witness :
    ((VariableAllocator.construct false (fun _ => ⟨0, 0, 0, 0⟩) 120).is_valid = true ↔
      (3 * (sizeof_Node + sizeof_Chunk) ≤ 120 ∧
        120 / (sizeof_Node + sizeof_Chunk) < NODE_COUNT_LIMIT)) ∧
    ((zero_allocator 10).init.nodes_ 1).count = (zero_allocator 10).node_count_ - 1 ∧
    (zero_allocator 2).init = zero_allocator 2 :=
  ⟨(minimum_region_size (zero_allocator 10)).2.1 _ 120 (by decide),
   ((minimum_region_size (zero_allocator 10)).2.2.1 (by decide)).2.2.1,
   (minimum_region_size (zero_allocator 2)).2.2.2 (by decide)⟩

/-- C14, the claim as stated fails: a region that is not null and has room for exactly
two nodes and two chunks (80 bytes, `node_count_ = 2`, below NODE_COUNT_LIMIT) is not
valid, and `init` leaves node 0 as it was. -/
theorem two_nodes_not_valid :
    (VariableAllocator.construct false (fun _ => ⟨0, 0, 0, 0⟩) (2 * (sizeof_Node + sizeof_Chunk))).node_count_
      = 2 ∧
    (VariableAllocator.construct false (fun _ => ⟨0, 0, 0, 0⟩)
      (2 * (sizeof_Node + sizeof_Chunk))).is_valid = false ∧
    ((VariableAllocator.construct false (fun _ => ⟨0, 0, 0, 0⟩)
      (2 * (sizeof_Node + sizeof_Chunk))).init.nodes_ 0).next = 0 := by
  decide

/-! ## The queue after init -/

/-- C12 (as amended). Empty region: for every queue with `entry_count >= 1`,
immediately after `init`, `isEmpty()` is true, `isFull()` is false when
`entry_count >= 2` and true when `entry_count = 1`, `deq` returns false leaving the
buffer and the state unchanged, and `overflowedCount()` is 0. -/
theorem empty_after_init (q : QueueImpl) (buf : List Nat) (fuel : Nat)
    (_he : 1 ≤ q.entry_count) :
    q.init.isEmpty = true ∧
    (2 ≤ q.entry_count → q.init.isFull = false) ∧
    (q.entry_count = 1 → q.init.isFull = true) ∧
    q.init.deq fuel buf = .ok (false, buf, q.init) ∧
    q.init.overflowedCount = 0 := by
  refine ⟨rfl, ?_, ?_, rfl, rfl⟩
  · intro h2
    show (0 == ((0 + 1) % 2 ^ 32) % q.entry_count) = false
    have : ((0 + 1) % 2 ^ 32) % q.entry_count = 1 := by
      rw [Nat.mod_eq_of_lt (by norm_num : (0 + 1) < 2 ^ 32)]
      exact Nat.mod_eq_of_lt (by omega)
    rw [this]
    rfl
  · intro h1
    show (0 == ((0 + 1) % 2 ^ 32) % q.entry_count) = true
    rw [h1]
    rfl

theorem empty_after_init_witness :
    (zero_queue 4 10).init.isEmpty = true ∧
    (zero_queue 4 10).init.isFull = false ∧
    (zero_queue 1 10).init.isFull = true ∧
    (zero_queue 4 10).init.deq 11 [] = .ok (false, [], (zero_queue 4 10).init) ∧
    (zero_queue 4 10).init.overflowedCount = 0 :=
  ⟨(empty_after_init (zero_queue 4 10) [] 11 (by decide)).1,
   (empty_after_init (zero_queue 4 10) [] 11 (by decide)).2.1 (by decide),
   (empty_after_init (zero_queue 1 10) [] 11 (by decide)).2.2.1 rfl,
   (empty_after_init (zero_queue 4 10) [] 11 (by decide)).2.2.2.1,
   (empty_after_init (zero_queue 4 10) [] 11 (by decide)).2.2.2.2⟩

/-- C12, the claim as stated fails: on a valid queue with `entry_count = 1`, `isFull()`
is true immediately after `init`. -/
theorem full_after_init_one_slot :
    (zero_queue 1 10).is_valid = true ∧ (zero_queue 1 10).entry_count = 1 ∧
    (zero_queue 1 10).init.isFull = true := by
  decide

end imque

namespace imque

/-! ## Shape of the free list in reachable states -/

theorem Repr_chain (nodes : Nat → Node) (T : Nat) : ∀ l : List (Nat × Nat),
    WF T l → Repr nodes T l →
    List.Chain' (fun r s : Nat × Nat => (nodes r.1).next = s.1 ∧ r.1 < s.1) l ∧
    (∀ r, l.getLast? = some r → (nodes r.1).next = T) ∧
    ∀ r ∈ l, r.2 = (nodes r.1).count ∧ r.1 < (nodes r.1).next ∧
      r.1 + (nodes r.1).count ≤ (nodes r.1).next
  | [], _, _ => ⟨List.chain'_nil, by simp, by simp⟩
  | [p], hwf, hrep => by
    refine ⟨List.chain'_singleton p, ?_, ?_⟩
    · intro r hr
      simp only [List.getLast?_singleton, Option.some.injEq] at hr
      subst hr
      exact hrep.1
    · intro r hr
      simp only [List.mem_singleton] at hr
      subst hr
      have h1 := hwf.1
      have h2 := hwf.2.1
      rw [hrep.1, hrep.2.1]
      exact ⟨rfl, h2, h1⟩
  | p :: q :: rest, hwf, hrep => by
    obtain ⟨ih1, ih2, ih3⟩ := Repr_chain nodes T (q :: rest) hwf.2.2 hrep.2.2.2
    refine ⟨List.Chain'.cons ⟨hrep.1, hwf.2.1⟩ ih1, ?_, ?_⟩
    · intro r hr
      rw [List.getLast?_cons_cons] at hr
      exact ih2 r hr
    · intro r hr
      rcases List.mem_cons.1 hr with h | h
      · subst h
        have h1 := hwf.1
        have h2 := hwf.2.1
        rw [hrep.1, hrep.2.1]
        exact ⟨rfl, h2, h1⟩
      · exact ih3 r h

theorem count_le_count_sum : ∀ (l : List (Nat × Nat)) (r : Nat × Nat), r ∈ l → r.2 ≤ count_sum l
  | [], r, h => by simp at h
  | p :: rest, r, h => by
    rcases List.mem_cons.1 h with h1 | h1
    · subst h1
      simp only [count_sum]
      omega
    · have := count_le_count_sum rest r h1
      simp only [count_sum]
      omega

/-- In a state satisfying the invariant the list starts with node 0 and node 1. -/
theorem Inv.first_run {a : VariableAllocator} {fl : List (Nat × Nat)} {held : List Nat}
    (h : Inv a fl held) :
    ∃ rest, fl = (0, 0) :: (1, (a.nodes_ 1).count) :: rest ∧ 1 ≤ (a.nodes_ 1).count ∧
      (a.nodes_ 0).next = 1 ∧ (a.nodes_ 0).count = 0 := by
  obtain ⟨runs, hfl, hfi⟩ := h.head
  have hb := h.bounds
  have hrep := h.repr
  have hpos := h.pos
  subst hfl
  cases runs with
  | nil =>
    simp only [first_index] at hfi
    omega
  | cons r rest =>
    simp only [first_index] at hfi
    have hr1 : (a.nodes_ r.1).count = r.2 := hrep.2.2.2.2.1
    have h0n : (a.nodes_ 0).next = r.1 := hrep.1
    have h0c : (a.nodes_ 0).count = 0 := hrep.2.1
    have hp : 1 ≤ r.2 := hpos r (by simp) (by omega)
    rw [hfi] at hr1 h0n
    refine ⟨rest, ?_, by omega, h0n, h0c⟩
    rw [hr1]
    congr 2
    exact Prod.ext hfi rfl

/-- A call of `allocate` that returned a descriptor, in a state satisfying the
invariant. -/
theorem Inv.allocate_ok {a a1 : VariableAllocator} {fl : List (Nat × Nat)} {held : List Nat}
    (hinv : Inv a fl held) {size fuel d : Nat} (hs : size < 2 ^ 32)
    (hal : a.allocate fuel size = .ok (d, a1)) (hd : d ≠ 0) :
    0 < size ∧ (∀ e ∈ held, a1.nodes_ e = a.nodes_ e) ∧ (a1.nodes_ d).count = (size + 31) / 32 ∧
      a1.node_count_ = a.node_count_ ∧ ∃ fl1, Inv a1 fl1 (d :: held) := by
  by_cases hs0 : size = 0
  · subst hs0
    exact absurd (allocate_zero_of_ok a a1 fuel d hal).1 hd
  · obtain ⟨a2, hal2, hN, hframe, hcnt, hinv2⟩ :=
      Inv_allocate a fl held hinv size (max fuel (fl.length + 1)) (Nat.pos_of_ne_zero hs0) hs
        (by omega)
    have := allocate_fuel_mono fuel (max fuel (fl.length + 1)) a size _ (le_max_left _ _) hal
    rw [this] at hal2
    simp only [Res.ok.injEq, Prod.mk.injEq] at hal2
    obtain ⟨hd2, ha⟩ := hal2
    rw [← hd2] at hinv2 hcnt
    rw [if_neg hd] at hinv2
    subst ha
    exact ⟨Nat.pos_of_ne_zero hs0, hframe, hcnt hd, hN, _, hinv2⟩

/-- Two runs with no chunk in common, the first not empty, lie one after the other. -/
theorem disjoint_of_not_covers (l : List (Nat × Nat)) (d k : Nat) (hk : 1 ≤ k)
    (h : ∀ x, d ≤ x → x < d + k → ¬ covers l x) :
    ∀ r ∈ l, (1 ≤ r.2 ∨ r.1 ≤ d) → d + k ≤ r.1 ∨ r.1 + r.2 ≤ d := by
  intro r hr hr2
  by_contra hc
  push_neg at hc
  by_cases hdr : d ≤ r.1
  · exact h r.1 hdr hc.1 ⟨r, hr, le_refl _, by omega⟩
  · exact h d (le_refl _) (by omega) ⟨r, hr, by omega, hc.2⟩

/-- C15. Sorted free list: in every state reachable from `init` by calls of `allocate`
and of `release` on held descriptors, the walk from node 0 through `next` starts at
node 0, goes from each node to a node of strictly larger index, and ends at a node
whose `next` is `node_count_`; every visited node other than node 0 has `count >= 1`
and `index + count <= next`. -/
theorem sorted_free_list (a : VariableAllocator) (held : List Nat) (h : Reachable a held) :
    (∃ runs, a.free_list = (0, (a.nodes_ 0).count) :: runs) ∧
    List.Chain' (fun r s : Nat × Nat => (a.nodes_ r.1).next = s.1 ∧ r.1 < s.1) a.free_list ∧
    (∀ r, a.free_list.getLast? = some r → (a.nodes_ r.1).next = a.node_count_) ∧
    (∀ r ∈ a.free_list, r.2 = (a.nodes_ r.1).count ∧ r.1 < (a.nodes_ r.1).next ∧
      (a.nodes_ r.1).next ≤ a.node_count_) ∧
    (∀ r ∈ a.free_list, r.1 ≠ 0 →
      1 ≤ (a.nodes_ r.1).count ∧ r.1 + (a.nodes_ r.1).count ≤ (a.nodes_ r.1).next) := by
  obtain ⟨fl, hinv⟩ := h.inv
  rw [hinv.free_list_eq]
  obtain ⟨rest, hfl, _, _, h0c⟩ := hinv.first_run
  obtain ⟨c1, c2, c3⟩ := Repr_chain a.nodes_ a.node_count_ fl hinv.wf hinv.repr
  refine ⟨⟨_, by rw [hfl, h0c]⟩, c1, c2, ?_, ?_⟩
  · intro r hr
    obtain ⟨e1, e2, e3⟩ := c3 r hr
    refine ⟨e1, e2, ?_⟩
    obtain ⟨l1, l2, hsplit⟩ := List.append_of_mem hr
    have hwf := hinv.wf
    have hrep := hinv.repr
    rw [hsplit] at hwf hrep
    have hwf2 : WF a.node_count_ (r :: l2) := (WF_append _ _ _ |>.1 hwf).2
    have hrep2 : Repr a.nodes_ a.node_count_ (r :: l2) := (Repr_append _ _ _ _ |>.1 hrep).2
    rw [hrep2.1]
    exact first_index_le _ _ hwf2.2.2
  · intro r hr hr0
    obtain ⟨e1, _, e3⟩ := c3 r hr
    have := hinv.pos r hr hr0
    exact ⟨by omega, e3⟩

theorem sorted_free_list_witness :
    (∃ runs, (after_allocate (zero_allocator 10).init 11 32).free_list
      = (0, ((after_allocate (zero_allocator 10).init 11 32).nodes_ 0).count) :: runs) ∧
    (1 ≤ ((after_allocate (zero_allocator 10).init 11 32).nodes_ 1).count ∧
      1 + ((after_allocate (zero_allocator 10).init 11 32).nodes_ 1).count
        ≤ ((after_allocate (zero_allocator 10).init 11 32).nodes_ 1).next) :=
  ⟨(sorted_free_list _ _ reach_one).1,
   (sorted_free_list _ _ reach_one).2.2.2.2 (1, 8) (by decide) (by decide)⟩

end imque

namespace imque

/-! ## Held runs -/

/-- C16. No overlapping allocations: in every state reachable from `init` by calls of
`allocate` and of `release` on held descriptors, every held run is not empty, the
chunk ranges `[d, d + count(d))` of two distinct held descriptors are disjoint, each is
disjoint from the range `[i, i + count(i))` of every node `i` on the free list, and a
call of `allocate` that returns a descriptor hands out a run disjoint from every held
run and leaves the held runs as they are. -/
theorem no_overlap (a : VariableAllocator) (held : List Nat) (h : Reachable a held) :
    (∀ d ∈ held, 1 ≤ (a.nodes_ d).count) ∧
    (∀ d ∈ held, ∀ e ∈ held, d ≠ e →
      d + (a.nodes_ d).count ≤ e ∨ e + (a.nodes_ e).count ≤ d) ∧
    (∀ d ∈ held, ∀ r ∈ a.free_list,
      d + (a.nodes_ d).count ≤ r.1 ∨ r.1 + (a.nodes_ r.1).count ≤ d) ∧
    (∀ (size fuel d : Nat) (a1 : VariableAllocator), size < 2 ^ 32 →
      a.allocate fuel size = .ok (d, a1) → d ≠ 0 →
      (a1.nodes_ d).count = (size + 31) / 32 ∧
      ∀ e ∈ held, (a1.nodes_ e).count = (a.nodes_ e).count ∧
        (d + (size + 31) / 32 ≤ e ∨ e + (a.nodes_ e).count ≤ d)) := by
  obtain ⟨fl, hinv⟩ := h.inv
  rw [hinv.free_list_eq]
  refine ⟨fun d hd => (hinv.held_ok d hd).2.1, hinv.disj_held, ?_, ?_⟩
  · intro d hd r hr
    have hk := (hinv.held_ok d hd).2.1
    have hc := (Repr_chain a.nodes_ a.node_count_ fl hinv.wf hinv.repr).2.2 r hr
    rw [← hc.1]
    refine disjoint_of_not_covers fl d _ hk (hinv.disj_free d hd) r hr ?_
    by_cases hr0 : r.1 = 0
    · right
      omega
    · exact Or.inl (hinv.pos r hr hr0)
  · intro size fuel d a1 hs hal hd
    obtain ⟨_, hframe, hcnt, _, fl1, hinv1⟩ := hinv.allocate_ok hs hal hd
    refine ⟨hcnt, ?_⟩
    intro e he
    have hde : d ≠ e := by
      rintro rfl
      have := hinv1.held_nodup
      simp only [List.nodup_cons] at this
      exact this.1 he
    have := hinv1.disj_held d (List.mem_cons_self _ _) e (List.mem_cons_of_mem _ he) hde
    rw [hcnt, hframe e he] at this
    exact ⟨by rw [hframe e he], this⟩

theorem no_overlap_witness :
    9 + ((after_allocate (zero_allocator 10).init 11 32).nodes_ 9).count ≤ 1 ∨
    1 + ((after_allocate (zero_allocator 10).init 11 32).nodes_ 1).count ≤ 9 :=
  (no_overlap _ _ reach_one).2.2.1 9 (List.mem_singleton.2 rfl) (1, 8) (by decide)

/-- C17. Descriptor bounds and surviving first run: in every state reachable from `init`
by calls of `allocate` and of `release` on held descriptors, node 0 has `next = 1` and
`count = 0`, node 1 is on the free list with `count >= 1`, every call of `allocate(size)`
that returns a descriptor returns `d` with `2 <= d` and
`d + ceil(size/32) <= node_count_`, and the held runs have at most `node_count_ - 2`
chunks together. -/
theorem descriptor_bounds (a : VariableAllocator) (held : List Nat) (h : Reachable a held) :
    ((a.nodes_ 0).next = 1 ∧ (a.nodes_ 0).count = 0) ∧
    ((1, (a.nodes_ 1).count) ∈ a.free_list ∧ 1 ≤ (a.nodes_ 1).count) ∧
    (∀ (size fuel d : Nat) (a1 : VariableAllocator), size < 2 ^ 32 →
      a.allocate fuel size = .ok (d, a1) → d ≠ 0 →
      2 ≤ d ∧ d + (size + 31) / 32 ≤ a.node_count_) ∧
    a.held_count held ≤ a.node_count_ - 2 := by
  obtain ⟨fl, hinv⟩ := h.inv
  rw [hinv.free_list_eq]
  obtain ⟨rest, hfl, h1c, h0n, h0c⟩ := hinv.first_run
  refine ⟨⟨h0n, h0c⟩, ⟨by rw [hfl]; simp, h1c⟩, ?_, ?_⟩
  · intro size fuel d a1 hs hal hd
    obtain ⟨_, _, hcnt, hN, fl1, hinv1⟩ := hinv.allocate_ok hs hal hd
    have hok := hinv1.held_ok d (List.mem_cons_self _ _)
    rw [hcnt, hN] at hok
    refine ⟨?_, hok.2.2.2⟩
    obtain ⟨rest1, hfl1, _⟩ := hinv1.first_run
    have hni := hinv1.held_not_index (List.mem_cons_self d held)
    have hd1 : d ≠ 1 := by
      rintro rfl
      apply hni
      rw [hfl1]
      simp
    omega
  · have ht := hinv.total
    have hle := count_le_count_sum fl (1, (a.nodes_ 1).count) (by rw [hfl]; simp)
    show (held.map fun d => (a.nodes_ d).count).sum ≤ a.node_count_ - 2
    have hle2 : 1 ≤ count_sum fl := le_trans h1c hle
    omega

theorem descriptor_bounds_witness :
    (2 ≤ 8 ∧ 8 + (32 + 31) / 32 ≤ (after_allocate (zero_allocator 10).init 11 32).node_count_) ∧
    (after_allocate (zero_allocator 10).init 11 32).held_count [9]
      ≤ (after_allocate (zero_allocator 10).init 11 32).node_count_ - 2 :=
  ⟨(descriptor_bounds _ _ reach_one).2.2.1 32 11 8
      (after_allocate (after_allocate (zero_allocator 10).init 11 32) 11 32) (by decide) rfl
      (by decide),
   (descriptor_bounds _ _ reach_one).2.2.2⟩

end imque

namespace imque

/-! ## Joins made by the walk -/

/-- The member `join_nodes_if_need` changes memory only by storing `pred.join(curr)` at
`pred`, and only when `pred` ends where its successor starts. -/
theorem join_nodes_if_need_changes (b : VariableAllocator) (pred curr : NodeSnapshot)
    (ok : Bool) (b1 : VariableAllocator) (pred1 curr1 : NodeSnapshot)
    (h : join_nodes_if_need b pred curr = .ok (ok, b1, pred1, curr1)) (hne : b1 ≠ b) :
    pred.val.next = (pred.place + pred.val.count) % 2 ^ 32 ∧
    b1.nodes_ = Function.update b.nodes_ pred.place (pred.val.join curr.val) ∧
    b1.node_count_ = b.node_count_ := by
  unfold join_nodes_if_need at h
  by_cases h1 : (!(pred.val.is_join_head && curr.val.is_join_tail)) = true
  · rw [if_pos h1] at h
    simp only [Res.ok.injEq, Prod.mk.injEq] at h
    exact absurd h.2.1.symm hne
  · rw [if_neg h1] at h
    by_cases h2 : (!is_joinable pred) = true
    · rw [if_pos h2] at h
      simp at h
    · rw [if_neg h2] at h
      have hj : is_joinable pred = true := by simpa using h2
      unfold compare_and_swap at h
      by_cases h3 : b.nodes_ pred.place = pred.val
      · rw [if_pos h3] at h
        simp only [Res.ok.injEq, Prod.mk.injEq] at h
        obtain ⟨_, hb1, _, _⟩ := h
        subst hb1
        refine ⟨?_, rfl, rfl⟩
        unfold is_joinable at hj
        exact beq_iff_eq.1 hj
      · rw [if_neg h3] at h
        simp only [Res.ok.injEq, Prod.mk.injEq] at h
        exact absurd h.2.1.symm hne

/-- The node that follows a node of the list which is not the last. -/
theorem Repr_next_in (nodes : Nat → Node) (T : Nat) : ∀ (l : List (Nat × Nat)) (r : Nat × Nat),
    WF T l → Repr nodes T l → r ∈ l → (nodes r.1).next ≠ T →
    ∃ q ∈ l, q.1 = (nodes r.1).next ∧ (nodes q.1).status = 0 ∧ (nodes q.1).count = q.2 ∧
      q.1 + q.2 ≤ T
  | [], r, _, _, hr, _ => by simp at hr
  | p :: rest, r, hwf, hrep, hr, hn => by
    rcases List.mem_cons.1 hr with h | h
    · subst h
      cases rest with
      | nil => exact absurd hrep.1 hn
      | cons q rest =>
        refine ⟨q, by simp, hrep.1.symm, hrep.2.2.2.2.2.1, hrep.2.2.2.2.1, ?_⟩
        exact (WF_bound T _ hwf q (by simp)).1
    · obtain ⟨q, hq, hq1⟩ := Repr_next_in nodes T rest r hwf.2.2 hrep.2.2.2 h hn
      exact ⟨q, List.mem_cons_of_mem _ hq, hq1⟩

/-- A whole walk from node 0 in a state satisfying the invariant returns and leaves the
set of free chunks as it was. -/
theorem Inv.walk_free_chunks {a : VariableAllocator} {fl : List (Nat × Nat)} {held : List Nat}
    (hinv : Inv a fl held) (fn : NodeSnapshot → Bool) (P : Nat → Nat → Nat → Bool)
    (hfn : ∀ s : NodeSnapshot, s.val.status = 0 → fn s = P s.place s.val.count s.val.next)
    (fuel : Nat) (hf : a.node_count_ < fuel) :
    ∃ (res : Option NodeSnapshot) (a1 : VariableAllocator),
      find_candidate fn fuel a (snapshot_at a 0) RETRY_LIMIT = .ok (res, a1) ∧
      ∀ x, a1.is_free_chunk x = a.is_free_chunk x := by
  obtain ⟨runs, hfl, hfi⟩ := hinv.head
  have hb := hinv.bounds
  have hlen := hinv.length_le
  have hwf := hinv.wf
  have hrep := hinv.repr
  have hfree := hinv.free_list_eq
  subst hfl
  obtain ⟨a1, hfc, hN1, _, hrep1, _⟩ :=
    find_candidate_sim fn P hfn a.node_count_ hb.2 runs (0, 0) a fuel RETRY_LIMIT rfl hwf hrep
      (by simp only [List.length_cons] at hlen; omega) (by decide)
  refine ⟨_, a1, hfc, ?_⟩
  have hwf1 := awalk_WF a.node_count_ P runs (0, 0) hwf
  obtain ⟨l, o, hw, _⟩ := awalk_head a.node_count_ P (0, 0) runs (by rw [hfi]; decide)
  have hfirst : first_index a.node_count_ (aresult (awalk a.node_count_ P (0, 0) runs)) = 0 := by
    rw [hw]
    unfold aresult
    cases o with
    | none => rfl
    | some mp => rfl
  have hlen1 := WF_length _ _ hwf1
  have hfl1 : a1.free_list = aresult (awalk a.node_count_ P (0, 0) runs) := by
    have := free_list_from_eq a1 (aresult (awalk a.node_count_ P (0, 0) runs)) a1.node_count_
      (by rw [hN1]; exact hwf1) (by rw [hN1]; exact hrep1) (by rw [hN1]; omega)
    rw [hN1, hfirst] at this
    unfold VariableAllocator.free_list
    rw [hN1]
    exact this
  intro x
  rw [Bool.eq_iff_iff, is_free_chunk_iff, is_free_chunk_iff, hfl1, hfree]
  exact awalk_covers a.node_count_ P x runs (0, 0)

/-- C18. Coalescing only merges neighbours: `join_nodes_if_need` changes memory only by
storing `pred.join(curr)` at `pred`, and only when `index(pred) + pred.count ==
pred.next`; the joined record has `next = curr.next`, `count = pred.count + curr.count`
(in 30 bits) and status (`pred.status` with JOIN_HEAD cleared) OR (`curr.status` with
JOIN_TAIL cleared). In every state reachable from `init` by calls of `allocate` and of
`release` on held descriptors, a step of the walk at a node of the free list leaves
memory as it is when `index(pred) + pred.count` is not `pred.next` and otherwise puts
at `pred` a record with `next = curr.next`, `count = pred.count + curr.count` and status
AVAILABLE; and every walk of `find_candidate` made by `allocate` or `release` returns and
leaves the set of free chunks as it was. -/
theorem coalesce_only_neighbours (a : VariableAllocator) (held : List Nat)
    (h : Reachable a held) :
    (∀ (b : VariableAllocator) (pred curr : NodeSnapshot) (ok : Bool) (b1 : VariableAllocator)
        (pred1 curr1 : NodeSnapshot),
      join_nodes_if_need b pred curr = .ok (ok, b1, pred1, curr1) → b1 ≠ b →
      pred.val.next = (pred.place + pred.val.count) % 2 ^ 32 ∧
      b1.nodes_ = Function.update b.nodes_ pred.place (pred.val.join curr.val)) ∧
    (∀ p t : Node, (p.join t).next = t.next ∧ (p.join t).count = (p.count + t.count) % 2 ^ 30 ∧
      (p.join t).status
        = (p.status &&& (3 - Node.JOIN_HEAD)) ||| (t.status &&& (3 - Node.JOIN_TAIL))) ∧
    (∀ r ∈ a.free_list, (a.nodes_ r.1).next ≠ a.node_count_ →
      (r.1 + (a.nodes_ r.1).count ≠ (a.nodes_ r.1).next →
        walk_step a (snapshot_at a r.1)
          = .ok (true, a, snapshot_at a r.1, snapshot_at a (a.nodes_ r.1).next)) ∧
      (r.1 + (a.nodes_ r.1).count = (a.nodes_ r.1).next →
        ∃ a3 : VariableAllocator,
          walk_step a (snapshot_at a r.1) = .ok (true, a3, snapshot_at a3 r.1, snapshot_at a3 r.1) ∧
          (a3.nodes_ r.1).next = (a.nodes_ (a.nodes_ r.1).next).next ∧
          (a3.nodes_ r.1).count = (a.nodes_ r.1).count + (a.nodes_ (a.nodes_ r.1).next).count ∧
          (a3.nodes_ r.1).status = Node.AVAILABLE)) ∧
    (∀ n fuel : Nat, a.node_count_ < fuel →
      ∃ (res : Option NodeSnapshot) (a1 : VariableAllocator),
        find_candidate (IsEnoughChunk n) fuel a (snapshot_at a 0) RETRY_LIMIT = .ok (res, a1) ∧
        ∀ x, a1.is_free_chunk x = a.is_free_chunk x) ∧
    (∀ d fuel : Nat, a.node_count_ < fuel →
      ∃ (res : Option NodeSnapshot) (a1 : VariableAllocator),
        find_candidate (IsPredecessor d) fuel a (snapshot_at a 0) RETRY_LIMIT = .ok (res, a1) ∧
        ∀ x, a1.is_free_chunk x = a.is_free_chunk x) := by
  obtain ⟨fl, hinv⟩ := h.inv
  refine ⟨?_, fun p t => ⟨rfl, rfl, rfl⟩, ?_, ?_, ?_⟩
  · intro b pred curr ok b1 pred1 curr1 hj hne
    obtain ⟨h1, h2, _⟩ := join_nodes_if_need_changes b pred curr ok b1 pred1 curr1 hj hne
    exact ⟨h1, h2⟩
  · rw [hinv.free_list_eq]
    intro r hr hn
    have hb := hinv.bounds
    obtain ⟨_, _, hc3⟩ := Repr_chain a.nodes_ a.node_count_ fl hinv.wf hinv.repr
    obtain ⟨e1, e2, e3⟩ := hc3 r hr
    obtain ⟨q, hq, hq1, hqs, hqc, hqb⟩ :=
      Repr_next_in a.nodes_ a.node_count_ fl r hinv.wf hinv.repr hr hn
    have hrb := WF_bound _ _ hinv.wf r hr
    have hps : (a.nodes_ r.1).status = 0 := by
      obtain ⟨l1, l2, hsplit⟩ := List.append_of_mem hr
      have hrep := hinv.repr
      rw [hsplit] at hrep
      exact ((Repr_append _ _ _ _).1 hrep).2.2.2.1
    have hlt : r.1 + (a.nodes_ r.1).count < 2 ^ 32 := by
      rw [← e1]
      omega
    constructor
    · intro hj
      exact walk_step_nojoin a r.1 hn hps (by rw [← hq1]; exact hqs) hlt (Ne.symm hj)
    · intro hj
      obtain ⟨a3, hw, _, _, hnx, hcn, hst, _⟩ :=
        walk_step_join a r.1 hn hps (by rw [← hq1]; exact hqs) (by omega) hlt hj.symm
      refine ⟨a3, hw, hnx, ?_, hst⟩
      rw [hcn]
      apply Nat.mod_eq_of_lt
      rw [← hq1, hqc, ← e1]
      rw [← e1, ← hq1] at hj
      omega
  · intro n fuel hf
    exact hinv.walk_free_chunks (IsEnoughChunk n) (fun _ c _ => decide (n < c))
      (IsEnoughChunk_eq n) fuel hf
  · intro d fuel hf
    exact hinv.walk_free_chunks (IsPredecessor d) (fun _ _ nx => decide (d < nx))
      (fun s _ => IsPredecessor_eq d s) fuel hf

theorem coalesce_only_neighbours_witness :
    (∃ a3 : VariableAllocator,
      walk_step two_runs_allocator (snapshot_at two_runs_allocator 1)
        = .ok (true, a3, snapshot_at a3 1, snapshot_at a3 1) ∧
      (a3.nodes_ 1).next = (two_runs_allocator.nodes_ (two_runs_allocator.nodes_ 1).next).next ∧
      (a3.nodes_ 1).count = (two_runs_allocator.nodes_ 1).count
        + (two_runs_allocator.nodes_ (two_runs_allocator.nodes_ 1).next).count ∧
      (a3.nodes_ 1).status = Node.AVAILABLE) ∧
    ∃ (res : Option NodeSnapshot) (a1 : VariableAllocator),
      find_candidate (IsEnoughChunk 8) 11 two_runs_allocator (snapshot_at two_runs_allocator 0)
        RETRY_LIMIT = .ok (res, a1) ∧
      ∀ x, a1.is_free_chunk x = two_runs_allocator.is_free_chunk x :=
  ⟨((coalesce_only_neighbours two_runs_allocator [] reach_two_runs).2.2.1 (1, 8) (by decide)
      (by decide)).2 (by decide),
   (coalesce_only_neighbours two_runs_allocator [] reach_two_runs).2.2.2.1 8 11 (by decide)⟩

end imque

namespace imque

open QueueImpl

/-! ## Dequeue and the allocator -/

theorem arelease_count_sum (T d k : Nat) (p : Nat × Nat) (rest : List (Nat × Nat))
    (hfound : (awalk T (fun _ _ nx => decide (d < nx)) p rest).2 ≠ none) :
    count_sum (arelease T d k (p :: rest)) = count_sum (p :: rest) + k := by
  have hsum := awalk_count_sum T (fun _ _ nx => decide (d < nx)) rest p
  rcases hw : awalk T (fun _ _ nx => decide (d < nx)) p rest with ⟨pre, _ | ⟨m, post⟩⟩
  · rw [hw] at hfound; exact absurd rfl hfound
  rw [hw, aresult_found] at hsum
  rw [← hsum]
  simp only [arelease, hw]
  split_ifs with hnb
  · simp only [count_sum_append, count_sum]
    omega
  · simp only [count_sum_append, count_sum]
    omega

/-- In a state satisfying the invariant the descriptors in the ring are those of the
pending messages. -/
theorem QInv.held_descriptors_eq {q : QueueImpl} {fl : List (Nat × Nat)} {held : List Nat}
    {pending : List (Nat × List Nat)} (h : QInv q fl held pending) :
    q.held_descriptors = pending.map Prod.fst := by
  have hrd := h.rd
  have hlen := h.len
  have hcount : (q.write_pos + q.entry_count - q.read_pos) % q.entry_count = pending.length := by
    rw [h.wr, mod_two (q.read_pos + pending.length) q.entry_count (by omega)]
    by_cases hlt : q.read_pos + pending.length < q.entry_count
    · rw [if_pos hlt]
      have e : q.read_pos + pending.length + q.entry_count - q.read_pos
          = pending.length + q.entry_count := by omega
      rw [e, Nat.add_mod_right]
      exact Nat.mod_eq_of_lt hlen
    · rw [if_neg hlt]
      have e : q.read_pos + pending.length - q.entry_count + q.entry_count - q.read_pos
          = pending.length := by omega
      rw [e]
      exact Nat.mod_eq_of_lt hlen
  unfold held_descriptors
  rw [hcount]
  apply List.ext_getElem
  · simp
  · intro i h1 h2
    simp only [List.length_map, List.length_range] at h1
    simp only [List.getElem_map, List.getElem_range]
    have := h.used i pending[i] (List.getElem?_eq_getElem h1)
    rw [this]

/-- Every reachable state of the queue satisfies the invariant. -/
theorem QReachable.qinv {q : QueueImpl} (h : QReachable q) :
    ∃ fl held pending, QInv q fl held pending := by
  induction h with
  | init q hv h1 h2 => exact ⟨_, _, _, QInv_init q hv h1 h2⟩
  | enq q q1 fuel data size b _ hs hf henq ih =>
    obtain ⟨fl, held, pending, hinv⟩ := ih
    obtain ⟨c1, c2, c3⟩ := QInv_enq q fl held pending hinv data size fuel hs hf
    by_cases hfull : q.isFull = true
    · rw [c1 hfull] at henq
      simp only [Res.ok.injEq, Prod.mk.injEq] at henq
      rw [← henq.2]
      exact ⟨_, _, _, QInv_add_overflow hinv⟩
    · have hfull : q.isFull = false := by simpa using hfull
      by_cases hal : (aalloc q.alc_.node_count_ ((8 + size + 31) / 32) fl).1 = 0
      · obtain ⟨q2, henq2, _, _, _, _, _, _, hq2⟩ := c2 hfull hal
        rw [henq2] at henq
        simp only [Res.ok.injEq, Prod.mk.injEq] at henq
        rw [← henq.2]
        exact ⟨_, _, _, hq2⟩
      · obtain ⟨q2, henq2, _, _, _, hq2⟩ := c3 hfull hal
        rw [henq2] at henq
        simp only [Res.ok.injEq, Prod.mk.injEq] at henq
        rw [← henq.2]
        exact ⟨_, _, _, hq2⟩
  | deq q q1 fuel buf buf1 b _ hf hdeq ih =>
    obtain ⟨fl, held, pending, hinv⟩ := ih
    obtain ⟨c1, c2⟩ := QInv_deq q fl held pending hinv buf fuel hf
    cases pending with
    | nil =>
      rw [c1 rfl] at hdeq
      simp only [Res.ok.injEq, Prod.mk.injEq] at hdeq
      rw [← hdeq.2.2]
      exact ⟨_, _, _, hinv⟩
    | cons p rest =>
      obtain ⟨q2, hdeq2, _, _, _, hq2⟩ := c2 p.1 p.2 rest rfl
      rw [hdeq2] at hdeq
      simp only [Res.ok.injEq, Prod.mk.injEq] at hdeq
      rw [← hdeq.2.2]
      exact ⟨_, _, _, hq2⟩

theorem reach_full_queue : QReachable full_queue :=
  QReachable.enq (zero_queue 2 10).init _ 11 (sample_data 1) 1 true
    (QReachable.init _ (by decide) (by decide) (by decide)) (by decide) (by decide) rfl

/-- Dequeue gives the memory back when assertions are enabled: in every state of the
queue reached from `init` by calls of `enq` and `deq`, a `deq` that returns true has
read the descriptor `d` from
the USED slot at `read_pos` and has released its run: the chunks `d .. d+count-1`, not
free before the call, are free after it and no other chunk changes, the number of free
chunks is larger by exactly `count`, and `d` is no longer in the ring. -/
theorem deq_gives_memory_back (q : QueueImpl) (h : QReachable q) (fuel : Nat)
    (buf buf1 : List Nat) (q1 : QueueImpl) (hf : q.alc_.node_count_ < fuel)
    (hdeq : q.deq fuel buf = .ok (true, buf1, q1)) :
    (q.entries q.read_pos).state = Entry.USED ∧
    (q.entries q.read_pos).value ∈ q.held_descriptors ∧
    (q.entries q.read_pos).value ∉ q1.held_descriptors ∧
    1 ≤ (q.alc_.nodes_ (q.entries q.read_pos).value).count ∧
    count_sum q1.alc_.free_list
      = count_sum q.alc_.free_list + (q.alc_.nodes_ (q.entries q.read_pos).value).count ∧
    (∀ x, (q.entries q.read_pos).value ≤ x →
      x < (q.entries q.read_pos).value + (q.alc_.nodes_ (q.entries q.read_pos).value).count →
      q.alc_.is_free_chunk x = false ∧ q1.alc_.is_free_chunk x = true) ∧
    (∀ x, ¬ ((q.entries q.read_pos).value ≤ x ∧
        x < (q.entries q.read_pos).value + (q.alc_.nodes_ (q.entries q.read_pos).value).count) →
      q1.alc_.is_free_chunk x = q.alc_.is_free_chunk x) := by
  obtain ⟨fl, held, pending, hinv⟩ := h.qinv
  obtain ⟨c1, c2⟩ := QInv_deq q fl held pending hinv buf fuel hf
  cases pending with
  | nil =>
    rw [c1 rfl] at hdeq
    simp at hdeq
  | cons p rest =>
    obtain ⟨d, b⟩ := p
    obtain ⟨q2, hdeq2, _, _, _, hq2⟩ := c2 d b rest rfl
    rw [hdeq2] at hdeq
    simp only [Res.ok.injEq, Prod.mk.injEq, true_and] at hdeq
    obtain ⟨_, hq⟩ := hdeq
    subst hq
    have hrd := hinv.rd
    have hslot : q.entries q.read_pos = ⟨Entry.USED, d⟩ := by
      have := hinv.used 0 (d, b) (by simp)
      rwa [Nat.add_zero, Nat.mod_eq_of_lt hrd] at this
    have hdh : d ∈ held := (hinv.held_iff d).2 (by simp)
    have hok := hinv.alloc.held_ok d hdh
    have hb := hinv.alloc.bounds
    obtain ⟨runs, hfl, hfi⟩ := hinv.alloc.head
    have hruns : runs ≠ [] := by
      intro h0
      rw [h0] at hfi
      simp only [first_index] at hfi
      omega
    obtain ⟨m, post, hfound⟩ := awalk_pred_found q.alc_.node_count_ d (by omega) runs (0, 0) hruns
    have hfound2 : (awalk q.alc_.node_count_ (fun _ _ nx => decide (d < nx)) (0, 0) runs).2
        ≠ none := by
      rw [hfound]
      simp
    have hfree0 := hinv.alloc.free_list_eq
    have hfree1 := hq2.alloc.free_list_eq
    have hnd := hinv.nodup
    have hdisj := hinv.alloc.disj_free d hdh
    rw [hinv.held_descriptors_eq, hq2.held_descriptors_eq, hslot, hfree0, hfree1]
    subst hfl
    have hcov := arelease_covers q.alc_.node_count_ d (q.alc_.nodes_ d).count (0, 0) runs hfound2
    refine ⟨rfl, by simp, ?_, hok.2.1, ?_, ?_, ?_⟩
    · simp only [List.map_cons, List.nodup_cons] at hnd
      exact hnd.1
    · exact arelease_count_sum _ _ _ _ _ hfound2
    · intro x hx1 hx2
      constructor
      · rw [← Bool.not_eq_true, is_free_chunk_iff, hfree0]
        exact hdisj x hx1 hx2
      · rw [is_free_chunk_iff, hfree1]
        exact (hcov x).2 (Or.inr ⟨hx1, hx2⟩)
    · intro x hx
      rw [Bool.eq_iff_iff, is_free_chunk_iff, is_free_chunk_iff, hfree0, hfree1, hcov x]
      constructor
      · rintro (h1 | h1)
        · exact h1
        · exact absurd h1 hx
      · exact Or.inl

theorem deq_gives_memory_back_witness :
    (full_queue.entries full_queue.read_pos).state = Entry.USED ∧
    (full_queue.entries full_queue.read_pos).value ∉ (after_deq full_queue 11).held_descriptors ∧
    count_sum (after_deq full_queue 11).alc_.free_list
      = count_sum full_queue.alc_.free_list
        + (full_queue.alc_.nodes_ (full_queue.entries full_queue.read_pos).value).count :=
  ⟨(deq_gives_memory_back full_queue reach_full_queue 11 [] [10] (after_deq full_queue 11)
      (by decide) rfl).1,
   (deq_gives_memory_back full_queue reach_full_queue 11 [] [10] (after_deq full_queue 11)
      (by decide) rfl).2.2.1,
   (deq_gives_memory_back full_queue reach_full_queue 11 [] [10] (after_deq full_queue 11)
      (by decide) rfl).2.2.2.2.1⟩

end imque

namespace imque

/-! ## Walks whose compare-and-swaps succeed -/

theorem walk_step_no_failure (o : Oracle) (ho : ∀ j, o.walk j = false) (k : Nat)
    (a : VariableAllocator) (pred : NodeSnapshot) (b : Bool) (a1 : VariableAllocator)
    (pred1 curr1 : NodeSnapshot) (h : walk_step a pred = .ok (b, a1, pred1, curr1)) :
    ∃ k1, Contended.walk_step o k a pred = .ok (b, a1, pred1, curr1, k1) := by
  unfold walk_step at h
  unfold Contended.walk_step
  rcases hg : get_next_snapshot a pred with ⟨bg, curr⟩ | _ | _
  · rw [hg] at h
    cases bg
    · simp only [Res.ok.injEq, Prod.mk.injEq] at h
      obtain ⟨rfl, rfl, rfl, rfl⟩ := h
      exact ⟨k, rfl⟩
    · simp only at h ⊢
      unfold update_node_status at h
      unfold Contended.update_node_status
      by_cases hj : (!is_joinable pred) = true
      · rw [if_pos hj] at h ⊢
        simp only at h ⊢
        unfold join_nodes_if_need at h
        unfold Contended.join_nodes_if_need
        by_cases h1 : (!(pred.val.is_join_head && curr.val.is_join_tail)) = true
        · rw [if_pos h1] at h ⊢
          simp only [Res.ok.injEq, Prod.mk.injEq] at h
          obtain ⟨rfl, rfl, rfl, rfl⟩ := h
          exact ⟨k, rfl⟩
        · rw [if_neg h1] at h ⊢
          rw [if_pos hj] at h
          simp at h
      · rw [if_neg hj] at h ⊢
        simp only [Contended.compare_and_swap, ho, Bool.false_eq_true, if_false]
        rcases hc1 : compare_and_swap a pred
            (pred.val.change_status (pred.val.status ||| Node.JOIN_HEAD)) with ⟨b1, a2, p2⟩
        rw [hc1] at h
        cases b1
        · simp only [Res.ok.injEq, Prod.mk.injEq] at h ⊢
          obtain ⟨rfl, rfl, rfl, rfl⟩ := h
          exact ⟨k + 1, rfl, rfl, rfl, rfl, rfl⟩
        · simp only at h ⊢
          rcases hc2 : compare_and_swap a2 curr
              (curr.val.change_status (curr.val.status ||| Node.JOIN_TAIL)) with ⟨b2, a3, c3⟩
          rw [hc2] at h
          cases b2
          · simp only [Res.ok.injEq, Prod.mk.injEq] at h ⊢
            obtain ⟨rfl, rfl, rfl, rfl⟩ := h
            exact ⟨k + 2, rfl, rfl, rfl, rfl, rfl⟩
          · simp only at h ⊢
            unfold join_nodes_if_need at h
            unfold Contended.join_nodes_if_need
            by_cases h1 : (!(p2.val.is_join_head && c3.val.is_join_tail)) = true
            · rw [if_pos h1] at h ⊢
              simp only [Res.ok.injEq, Prod.mk.injEq] at h
              obtain ⟨rfl, rfl, rfl, rfl⟩ := h
              exact ⟨k + 2, rfl⟩
            · rw [if_neg h1] at h ⊢
              by_cases h2 : (!is_joinable p2) = true
              · rw [if_pos h2] at h
                simp at h
              · rw [if_neg h2] at h ⊢
                simp only [Contended.compare_and_swap, ho, Bool.false_eq_true, if_false]
                rcases hc3 : compare_and_swap a3 p2 (p2.val.join c3.val) with ⟨b3, a4, p4⟩
                rw [hc3] at h
                cases b3
                · simp only [Res.ok.injEq, Prod.mk.injEq] at h ⊢
                  obtain ⟨rfl, rfl, rfl, rfl⟩ := h
                  exact ⟨k + 2 + 1, rfl, rfl, rfl, rfl, rfl⟩
                · simp only [Res.ok.injEq, Prod.mk.injEq] at h ⊢
                  obtain ⟨rfl, rfl, rfl, rfl⟩ := h
                  exact ⟨k + 2 + 1, rfl, rfl, rfl, rfl, rfl⟩
  · rw [hg] at h
    simp at h
  · rw [hg] at h
    simp at h

/-- A walk whose compare-and-swaps succeed, on a list of AVAILABLE runs: it returns what
`find_candidate` returns, never decrements `retry`, makes at most one call per run, and
ends with a node the callback accepts or at the node whose `next` is `node_count_`. -/
theorem walk_counters (fn : NodeSnapshot → Bool) (N : Nat) (hN : N < 2 ^ 24) (o : Oracle) (ho : ∀ j, o.walk j = false) :
    ∀ (rest : List (Nat × Nat)) (p : Nat × Nat) (a : VariableAllocator) (fuel : Nat) (retry : Int)
      (k r c : Nat),
      a.node_count_ = N → WF N (p :: rest) → Repr a.nodes_ N (p :: rest) →
      rest.length < fuel → 0 ≤ retry →
      ∃ w : Walk,
        Contended.find_candidate fn o fuel k a (snapshot_at a p.1) retry r c = .ok w ∧
        find_candidate fn fuel a (snapshot_at a p.1) retry = .ok (w.found, w.mem) ∧
        w.restarts = r ∧ w.calls ≤ c + rest.length + 1 ∧
        (w.found = none → w.last.val.next = N) ∧
        (∀ s, w.found = some s → fn s = true) := by
  intro rest
  induction rest with
  | nil =>
    intro p a fuel retry k r c haN hwf hrep hfuel hretry
    obtain ⟨j, rfl⟩ : ∃ j, fuel = j + 1 := ⟨fuel - 1, by simp at hfuel; omega⟩
    have hnext : (a.nodes_ p.1).next = a.node_count_ := by rw [haN]; exact hrep.1
    refine ⟨⟨none, a, snapshot_at a p.1, k, r, c + 1⟩, ?_, ?_, rfl, by simp, ?_, by simp⟩
    · simp [Contended.find_candidate, snapshot_at, hnext, not_lt.2 hretry]
    · simp [find_candidate, snapshot_at, hnext, not_lt.2 hretry]
    · intro _
      show (a.nodes_ p.1).next = N
      rw [hnext, haN]
  | cons q rest ih =>
    intro p a fuel retry k r c haN hwf hrep hfuel hretry
    obtain ⟨j, rfl⟩ : ∃ j, fuel = j + 1 := ⟨fuel - 1, by simp at hfuel; omega⟩
    have hk : rest.length < j := by simpa using hfuel
    have hnx : (a.nodes_ p.1).next = q.1 := hrep.1
    have hcnt : (a.nodes_ p.1).count = p.2 := hrep.2.1
    have hps : (a.nodes_ p.1).status = 0 := hrep.2.2.1
    have hrq := hrep.2.2.2
    have hqnx : (a.nodes_ q.1).next = first_index N rest := hrq.1
    have hqcnt : (a.nodes_ q.1).count = q.2 := hrq.2.1
    have hqs : (a.nodes_ q.1).status = 0 := hrq.2.2.1
    have hpq : p.1 < q.1 := hwf.2.1
    have hpq2 : p.1 + p.2 ≤ q.1 := hwf.1
    have hq1 : q.1 + q.2 ≤ first_index N rest := hwf.2.2.1
    have hq2 : q.1 < first_index N rest := hwf.2.2.2.1
    have hfi : first_index N rest ≤ N := first_index_le N rest hwf.2.2.2.2
    have hnext : (a.nodes_ p.1).next ≠ a.node_count_ := by rw [hnx, haN]; omega
    have hnext2 : ¬ (snapshot_at a p.1).val.next = a.node_count_ := hnext
    have hqs1 : (a.nodes_ (a.nodes_ p.1).next).status = 0 := by rw [hnx]; exact hqs
    have hb : p.1 + (a.nodes_ p.1).count < 2 ^ 32 := by rw [hcnt]; omega
    have hlt := WF_lt_of_mem N rest q hwf.2.2
    have hlen : (q :: rest).length = rest.length + 1 := rfl
    by_cases hj : p.1 + p.2 = q.1
    · obtain ⟨a3, hstep, h3N, h3null, h3nx, h3cnt, h3s, h3frame⟩ :=
        walk_step_join a p.1 hnext hps hqs1 (by rw [hnx]; omega) hb (by rw [hnx, hcnt]; omega)
      obtain ⟨k1, hstepc⟩ := walk_step_no_failure o ho k a _ _ _ _ _ hstep
      rw [hnx] at h3nx h3cnt h3frame
      rw [hqnx] at h3nx
      rw [hcnt, hqcnt, Nat.mod_eq_of_lt (by omega)] at h3cnt
      have hrep3 : Repr a3.nodes_ N ((p.1, p.2 + q.2) :: rest) := by
        refine ⟨h3nx, h3cnt, h3s, ?_⟩
        refine Repr_congr N rest (fun r hr => h3frame r.1 ?_ ?_) hrq.2.2.2
        · have := hlt r hr; omega
        · have := hlt r hr; omega
      by_cases hP : fn (snapshot_at a3 p.1) = true
      · refine ⟨⟨some (snapshot_at a3 p.1), a3, snapshot_at a3 p.1, k1, r, c + 1⟩, ?_, ?_, rfl,
          by simp only [hlen]; omega, by simp, ?_⟩
        · rw [Contended.find_candidate, if_neg (not_lt.2 hretry), if_neg hnext2, hstepc]
          simp only [hP, if_true]
        · rw [find_candidate, if_neg (not_lt.2 hretry), if_neg hnext2, hstep]
          simp only [hP, if_true]
        · intro s hs
          simp only [Option.some.injEq] at hs
          rw [← hs]
          exact hP
      · have hwf3 : WF N ((p.1, p.2 + q.2) :: rest) := by
          refine ⟨?_, ?_, hwf.2.2.2.2⟩
          · show p.1 + (p.2 + q.2) ≤ first_index N rest
            omega
          · show p.1 < first_index N rest
            omega
        obtain ⟨w, hw1, hw2, hw3, hw4, hw5, hw6⟩ :=
          ih (p.1, p.2 + q.2) a3 j retry k1 r (c + 1) (by rw [h3N, haN]) hwf3 hrep3 hk hretry
        refine ⟨w, ?_, ?_, hw3, by simp only [hlen]; omega, hw5, hw6⟩
        · rw [Contended.find_candidate, if_neg (not_lt.2 hretry), if_neg hnext2, hstepc]
          simp only [hP, Bool.false_eq_true, if_false]
          exact hw1
        · rw [find_candidate, if_neg (not_lt.2 hretry), if_neg hnext2, hstep]
          simp only [hP, Bool.false_eq_true, if_false]
          exact hw2
    · have hstep := walk_step_nojoin a p.1 hnext hps hqs1 hb (by rw [hnx, hcnt]; omega)
      obtain ⟨k1, hstepc⟩ := walk_step_no_failure o ho k a _ _ _ _ _ hstep
      rw [hnx] at hstep hstepc
      by_cases hP : fn (snapshot_at a q.1) = true
      · refine ⟨⟨some (snapshot_at a q.1), a, snapshot_at a p.1, k1, r, c + 1⟩, ?_, ?_, rfl,
          by simp only [hlen]; omega, by simp, ?_⟩
        · rw [Contended.find_candidate, if_neg (not_lt.2 hretry), if_neg hnext2, hstepc]
          simp only [hP, if_true]
        · rw [find_candidate, if_neg (not_lt.2 hretry), if_neg hnext2, hstep]
          simp only [hP, if_true]
        · intro s hs
          simp only [Option.some.injEq] at hs
          rw [← hs]
          exact hP
      · obtain ⟨w, hw1, hw2, hw3, hw4, hw5, hw6⟩ :=
          ih q a j retry k1 r (c + 1) haN hwf.2.2 hrq hk hretry
        refine ⟨w, ?_, ?_, hw3, by simp only [hlen]; omega, hw5, hw6⟩
        · rw [Contended.find_candidate, if_neg (not_lt.2 hretry), if_neg hnext2, hstepc]
          simp only [hP, Bool.false_eq_true, if_false]
          exact hw1
        · rw [find_candidate, if_neg (not_lt.2 hretry), if_neg hnext2, hstep]
          simp only [hP, Bool.false_eq_true, if_false]
          exact hw2

/-- In a reachable state the list read from memory is sorted and its nodes are
AVAILABLE. -/
theorem Reachable.sorted {a : VariableAllocator} {held : List Nat} (h : Reachable a held) :
    WF a.node_count_ a.free_list ∧ Repr a.nodes_ a.node_count_ a.free_list := by
  obtain ⟨fl, hinv⟩ := h.inv
  rw [hinv.free_list_eq]
  exact ⟨hinv.wf, hinv.repr⟩

/-- C21 (as amended). Walk termination: for every state of a valid allocator satisfying
the sorted-free-list invariant in which every node of the free list is AVAILABLE, and
every predicate, a `find_candidate` walk from node 0 whose compare-and-swaps are not
disturbed returns after at most `node_count_` calls of the (pred, curr) recursion
without decrementing `retry`, ending either with a found node (which the predicate
accepts) or at the node whose `next` is `node_count_`. -/
theorem walk_termination (a : VariableAllocator) (fn : NodeSnapshot → Bool) (o : Oracle)
    (retry : Int) (fuel : Nat) (hv : a.is_valid = true)
    (hwf : WF a.node_count_ a.free_list) (hrep : Repr a.nodes_ a.node_count_ a.free_list)
    (ho : ∀ j, o.walk j = false) (hr : 0 ≤ retry) (hf : a.node_count_ ≤ fuel) :
    ∃ w : Walk,
      Contended.find_candidate fn o fuel 0 a (snapshot_at a 0) retry 0 0 = .ok w ∧
      find_candidate fn fuel a (snapshot_at a 0) retry = .ok (w.found, w.mem) ∧
      w.calls ≤ a.node_count_ ∧ w.restarts = 0 ∧
      (w.found = none → w.last.val.next = a.node_count_) ∧
      (∀ s, w.found = some s → fn s = true) := by
  have hb := is_valid_bounds a hv
  have hlen := WF_length _ _ hwf
  have hfl : a.free_list = (0, (a.nodes_ 0).count) ::
      a.free_list_from (a.node_count_ - 1) (a.nodes_ 0).next := by
    unfold VariableAllocator.free_list
    obtain ⟨n, hn⟩ : ∃ n, a.node_count_ = n + 1 := ⟨a.node_count_ - 1, by omega⟩
    rw [hn]
    simp only [VariableAllocator.free_list_from, Nat.add_sub_cancel]
    rw [if_neg (by omega)]
  rw [hfl] at hwf hrep hlen
  simp only [List.length_cons, first_index] at hlen
  obtain ⟨w, h1, h2, h3, h4, h5, h6⟩ :=
    walk_counters fn a.node_count_ hb.2 o ho _ (0, (a.nodes_ 0).count) a fuel retry 0 0 0 rfl
      hwf hrep (by omega) hr
  exact ⟨w, h1, h2, by omega, h3, h5, h6⟩

theorem walk_termination_witness :
    ∃ w : Walk,
      Contended.find_candidate (IsEnoughChunk 8) no_failure 10 0 two_runs_allocator
        (snapshot_at two_runs_allocator 0) RETRY_LIMIT 0 0 = .ok w ∧
      find_candidate (IsEnoughChunk 8) 10 two_runs_allocator (snapshot_at two_runs_allocator 0)
        RETRY_LIMIT = .ok (w.found, w.mem) ∧
      w.calls ≤ two_runs_allocator.node_count_ ∧ w.restarts = 0 ∧
      (w.found = none → w.last.val.next = two_runs_allocator.node_count_) ∧
      (∀ s, w.found = some s → IsEnoughChunk 8 s = true) :=
  walk_termination two_runs_allocator (IsEnoughChunk 8) no_failure RETRY_LIMIT 10 (by decide)
    (Reachable.sorted reach_two_runs).1 (Reachable.sorted reach_two_runs).2 (fun _ => rfl)
    (by decide) (by decide)

/-- C21, the claim as stated fails: `stale_tail_allocator` has a sorted free list (node 0,
node 1 with 2 chunks and `next = 4`, node 4 with 6 chunks and `next = 10 =
node_count_`), and node 4 carries JOIN_TAIL. The undisturbed walk for `IsEnoughChunk(5)`
decrements `retry` 33 times, makes 67 calls and returns false at node 0, whose `next` is
1. -/
theorem walk_restarts_on_stale_tail :
    stale_tail_allocator.is_valid = true ∧
    stale_tail_allocator.free_list = [(0, 0), (1, 2), (4, 6)] ∧
    (stale_tail_allocator.nodes_ 0).next = 1 ∧ (stale_tail_allocator.nodes_ 1).next = 4 ∧
    (stale_tail_allocator.nodes_ 4).next = stale_tail_allocator.node_count_ ∧
    ((Contended.find_candidate (IsEnoughChunk 5) no_failure 100 0 stale_tail_allocator
      (snapshot_at stale_tail_allocator 0) RETRY_LIMIT 0 0).get
        ⟨none, stale_tail_allocator, snapshot_at stale_tail_allocator 0, 0, 0, 0⟩).restarts = 33 ∧
    ((Contended.find_candidate (IsEnoughChunk 5) no_failure 100 0 stale_tail_allocator
      (snapshot_at stale_tail_allocator 0) RETRY_LIMIT 0 0).get
        ⟨none, stale_tail_allocator, snapshot_at stale_tail_allocator 0, 0, 0, 0⟩).calls = 67 ∧
    ((Contended.find_candidate (IsEnoughChunk 5) no_failure 100 0 stale_tail_allocator
      (snapshot_at stale_tail_allocator 0) RETRY_LIMIT 0 0).get
        ⟨none, stale_tail_allocator, snapshot_at stale_tail_allocator 0, 0, 0, 0⟩).last.val.next
      = 1 ∧
    find_candidate (IsEnoughChunk 5) 100 stale_tail_allocator
      (snapshot_at stale_tail_allocator 0) RETRY_LIMIT = .ok (none, stale_tail_allocator) :=
  ⟨by decide, by decide, by decide, by decide, by decide, by decide, by decide, by decide, rfl⟩

end imque

namespace imque

/-! ## The state a walk leaves -/

theorem awalk_length (T : Nat) (P : Nat → Nat → Nat → Bool) :
    ∀ (rest : List (Nat × Nat)) (p : Nat × Nat),
      (aresult (awalk T P p rest)).length ≤ (p :: rest).length
  | [], p => by simp [awalk, aresult]
  | q :: rest, p => by
    unfold awalk
    split_ifs with h1 h2 h3
    · simp [aresult]
    · have := awalk_length T P rest (p.1, p.2 + q.2)
      simp only [List.length_cons] at this ⊢
      omega
    · simp [aresult]
    · have := awalk_length T P rest q
      rw [aresult_cons]
      simp only [List.length_cons, Prod.mk.eta] at this ⊢
      omega

/-- A walk, followed by writes that keep the count and status of the held nodes, leaves
a state that satisfies the invariant with the same held descriptors and the same free
chunks. -/
theorem Inv.after_walk {a : VariableAllocator} {runs : List (Nat × Nat)} {held : List Nat}
    (hinv : Inv a ((0, 0) :: runs) held) (P : Nat → Nat → Nat → Bool) (a2 : VariableAllocator)
    (h2N : a2.node_count_ = a.node_count_) (h2null : a2.nodes_is_null = a.nodes_is_null)
    (h2rep : Repr a2.nodes_ a.node_count_ (aresult (awalk a.node_count_ P (0, 0) runs)))
    (h2held : ∀ e ∈ held, (a2.nodes_ e).count = (a.nodes_ e).count ∧
      (a2.nodes_ e).status = (a.nodes_ e).status) :
    Inv a2 (aresult (awalk a.node_count_ P (0, 0) runs)) held ∧
    ∀ x, a2.is_free_chunk x = a.is_free_chunk x := by
  obtain ⟨runs0, hfl0, hfi⟩ := hinv.head
  have hruns : runs0 = runs := by
    simp only [List.cons.injEq, true_and] at hfl0
    exact hfl0.symm
  subst hruns
  have hcov := fun x => awalk_covers a.node_count_ P x runs0 (0, 0)
  obtain ⟨l, o, hw, hfl⟩ := awalk_head a.node_count_ P (0, 0) runs0 (by rw [hfi]; simp)
  have hmap : (held.map fun d => (a2.nodes_ d).count) = held.map fun d => (a.nodes_ d).count :=
    List.map_congr_left fun e he => (h2held e he).1
  have hI : Inv a2 (aresult (awalk a.node_count_ P (0, 0) runs0)) held := by
    refine ⟨is_valid_congr a a2 h2N h2null hinv.valid, ?_, ?_, ?_, ?_, hinv.held_nodup, ?_, ?_,
      ?_, ?_⟩
    · rw [hw, aresult_cons, h2N]
      exact ⟨_, rfl, by rw [hfl, hfi]⟩
    · rw [h2N]
      exact awalk_WF _ P runs0 (0, 0) hinv.wf
    · exact awalk_pos _ P runs0 (0, 0) hinv.pos
    · rw [h2N]
      exact h2rep
    · intro e he
      rw [(h2held e he).1, (h2held e he).2, h2N]
      exact hinv.held_ok e he
    · intro e he x hx1 hx2 hc
      rw [(h2held e he).1] at hx2
      exact hinv.disj_free e he x hx1 hx2 ((hcov x).1 hc)
    · intro e he e1 he1 hne
      rw [(h2held e he).1, (h2held e1 he1).1]
      exact hinv.disj_held e he e1 he1 hne
    · rw [hmap, awalk_count_sum, h2N]
      exact hinv.total
  refine ⟨hI, ?_⟩
  intro x
  rw [Bool.eq_iff_iff, is_free_chunk_iff, is_free_chunk_iff, hI.free_list_eq, hinv.free_list_eq]
  exact hcov x

/-- In a state satisfying the invariant the walk for a held descriptor `d` finds a run
that ends at or before `d`. -/
theorem Inv.pred_found {a : VariableAllocator} {runs : List (Nat × Nat)} {held : List Nat}
    (hinv : Inv a ((0, 0) :: runs) held) {d : Nat} (hd : d ∈ held) :
    ∃ pre m post,
      awalk a.node_count_ (fun _ _ nx => decide (d < nx)) (0, 0) runs = (pre, some (m, post)) ∧
      m.1 + m.2 ≤ d := by
  obtain ⟨runs0, hfl0, hfi⟩ := hinv.head
  have hruns0 : runs0 = runs := by
    simp only [List.cons.injEq, true_and] at hfl0
    exact hfl0.symm
  subst hruns0
  have hb := hinv.bounds
  have hok := hinv.held_ok d hd
  have hruns : runs0 ≠ [] := by
    intro h0
    rw [h0] at hfi
    simp only [first_index] at hfi
    omega
  have hcovW := fun x => awalk_covers a.node_count_ (fun _ _ nx => decide (d < nx)) x runs0 (0, 0)
  have hle := awalk_pred_le a.node_count_ d runs0 (0, 0)
  obtain ⟨m, post, hfound⟩ := awalk_pred_found a.node_count_ d (by omega) runs0 (0, 0) hruns
  rcases hw : awalk a.node_count_ (fun _ _ nx => decide (d < nx)) (0, 0) runs0
    with ⟨pre, _ | ⟨m1, post1⟩⟩
  · rw [hw] at hfound; simp at hfound
  refine ⟨pre, m1, post1, rfl, ?_⟩
  rw [hw] at hcovW hle
  rw [aresult_found] at hcovW
  have hmle : m1.1 ≤ d := hle m1 post1 (by simp) (by rw [hfi]; exact hok.2.2.1) rfl
  by_contra hcon
  exact hinv.disj_free d hd d (le_refl _) (by omega)
    ((hcovW d).1 ⟨m1, List.mem_append.2 (Or.inr (List.mem_cons_self _ _)), hmle, by omega⟩)

end imque

namespace imque

/-! ## One attempt of release -/

/-- One attempt of `release_impl` on a held descriptor in a state satisfying the
invariant, the compare-and-swaps of the walk succeeding: when the install fails, the
fast variant returns false and the full variant starts again, in a state `a2` that
satisfies the invariant with the same held descriptors and the same free chunks, where
only the `next` of node `d` and records of free-list nodes may differ; when the install
succeeds the call returns true with the memory the undisturbed call leaves. -/
theorem release_attempt (a : VariableAllocator) (fl : List (Nat × Nat)) (held : List Nat)
    (hinv : Inv a fl held) (d : Nat) (hd : d ∈ held) (o : Oracle) (ho : ∀ j, o.walk j = false)
    (rl : Int) (hrl : 0 ≤ rl) (fast : Bool) (fuel : Nat) (hf : fl.length < fuel + 1) (k n : Nat) :
    ∃ (a2 : VariableAllocator) (fl2 : List (Nat × Nat)) (k1 : Nat),
      Inv a2 fl2 held ∧ fl2.length ≤ fl.length ∧ a2.node_count_ = a.node_count_ ∧
      (∀ x, a2.is_free_chunk x = a.is_free_chunk x) ∧
      (∀ e ∈ held, e ≠ d → a2.nodes_ e = a.nodes_ e) ∧
      ((a2.nodes_ d).count = (a.nodes_ d).count ∧ (a2.nodes_ d).status = (a.nodes_ d).status ∧
        (a2.nodes_ d).version = (a.nodes_ d).version) ∧
      (o.install n = true →
        Contended.release_impl o (fuel + 1) a d rl fast k n
          = if fast then .ok ⟨false, a2, k1, n + 1⟩
            else Contended.release_impl o fuel a2 d rl fast k1 (n + 1)) ∧
      (o.install n = false →
        ∃ a3, Contended.release_impl o (fuel + 1) a d rl fast k n = .ok ⟨true, a3, k1, n + 1⟩ ∧
          VariableAllocator.release_impl (fuel + 1) a d rl fast = .ok (true, a3)) := by
  obtain ⟨runs, hfl, hfi⟩ := hinv.head
  subst hfl
  have hb := hinv.bounds
  have hok := hinv.held_ok d hd
  have hdi := hinv.held_not_index hd
  have hj : runs.length < fuel := by simpa using hf
  obtain ⟨pre, m, post, hw, hmd⟩ := hinv.pred_found hd
  obtain ⟨a1, hfc, h1N, h1null, h1rep, h1frame⟩ :=
    find_candidate_sim (IsPredecessor d) (fun _ _ nx => decide (d < nx))
      (fun s _ => IsPredecessor_eq d s) a.node_count_ hb.2 runs (0, 0) a fuel rl rfl
      hinv.wf hinv.repr hj hrl
  obtain ⟨w, hwc, hwb, _, _, _, _⟩ :=
    walk_counters (IsPredecessor d) a.node_count_ hb.2 o ho runs (0, 0) a fuel rl k 0 0 rfl
      hinv.wf hinv.repr hj hrl
  have hwf1 := awalk_WF a.node_count_ (fun _ _ nx => decide (d < nx)) runs (0, 0) hinv.wf
  have hidx := awalk_indices a.node_count_ (fun _ _ nx => decide (d < nx)) runs (0, 0)
  have hlen := awalk_length a.node_count_ (fun _ _ nx => decide (d < nx)) runs (0, 0)
  rw [hfc] at hwb
  obtain ⟨wfound, wmem, wlast, wk, wr, wc⟩ := w
  simp only [Res.ok.injEq, Prod.mk.injEq] at hwb
  obtain ⟨hwfound, hwmem⟩ := hwb
  rw [hw] at hwfound
  simp only [Option.map_some'] at hwfound
  subst hwfound
  subst hwmem
  have h1rep0 := h1rep
  rw [hw, aresult_found] at h1rep hwf1 hidx
  have hrepm := ((Repr_append _ _ _ _).1 h1rep).2
  have hwfm := ((WF_append _ _ _).1 hwf1).2
  have hmN := WF_bound a.node_count_ _ hwfm m (List.mem_cons_self _ _)
  have hmcnt : (a1.nodes_ m.1).count = m.2 := hrepm.2.1
  have hms : (a1.nodes_ m.1).status = 0 := hrepm.2.2.1
  have hmne : m.1 ≠ d := fun h => hdi (h ▸ hidx m (by simp))
  have h1d : a1.nodes_ d = a.nodes_ d := h1frame d hdi
  have hmod : (m.1 + (a1.nodes_ m.1).count) % 2 ^ 32 = m.1 + m.2 := by rw [hmcnt]; omega
  have hge : ¬ ¬ (d ≥ (m.1 + (a1.nodes_ m.1).count) % 2 ^ 32) := by
    rw [hmod]; exact not_not.2 hmd
  have hav : ¬ ¬ ((a1.nodes_ m.1).is_avaiable = true) := by
    simp [Node.is_avaiable, hms, Node.AVAILABLE]
  have hdN : ¬ (d = 0 ∨ d ≥ a.node_count_) := by omega
  have hfr1 : ∀ e ∈ held, a1.nodes_ e = a.nodes_ e := fun e he =>
    h1frame e (hinv.held_not_index he)
  by_cases hnb : d = m.1 + m.2
  · -- the run would be appended to the run before it: nothing is written before the install
    have hbeq : (d == (m.1 + (a1.nodes_ m.1).count) % 2 ^ 32) = true := by
      rw [hmod]; simpa using hnb
    obtain ⟨hI, hchunks⟩ := hinv.after_walk (fun _ _ nx => decide (d < nx)) a1 h1N h1null h1rep0
      (fun e he => by rw [hfr1 e he]; exact ⟨rfl, rfl⟩)
    let nm : Node := (a1.nodes_ m.1).change_count (((a1.nodes_ m.1).count + (a1.nodes_ d).count) % 2 ^ 32)
    have hcas := cas_ok a1 (snapshot_at a1 m.1) nm rfl
    refine ⟨a1, _, wk, hI, hlen, h1N, hchunks, fun e he _ => hfr1 e he,
      by rw [h1d]; exact ⟨rfl, rfl, rfl⟩, ?_, ?_⟩
    · intro hfail
      rw [Contended.release_impl, if_neg hdN, hwc]
      simp only [snapshot_at] at hcas ⊢
      rw [if_neg hge, if_neg hav]
      simp only [hbeq, if_true, Contended.compare_and_swap, hfail]
    · intro hsucc
      refine ⟨{ a1 with nodes_ := Function.update a1.nodes_ m.1 nm }, ?_, ?_⟩
      · rw [Contended.release_impl, if_neg hdN, hwc]
        simp only [snapshot_at] at hcas ⊢
        rw [if_neg hge, if_neg hav]
        simp only [hbeq, if_true, Contended.compare_and_swap, hsucc, Bool.false_eq_true, if_false]
        rw [hcas]
      · rw [VariableAllocator.release_impl, if_neg hdN, hfc, hw]
        simp only [Option.map_some', snapshot_at] at hcas ⊢
        rw [if_neg hge, if_neg hav]
        simp only [hbeq, if_true]
        rw [hcas]
  · -- the run would become a node of the list: its `next` is written before the install
    have hbeq : (d == (m.1 + (a1.nodes_ m.1).count) % 2 ^ 32) = false := by
      rw [hmod]; simpa using hnb
    let nd : Node := { a1.nodes_ d with next := (a1.nodes_ m.1).next }
    let na : Nat → Node := Function.update a1.nodes_ d nd
    let nm : Node := (a1.nodes_ m.1).change_next d
    have hcas := cas_ok { a1 with nodes_ := na } (snapshot_at a1 m.1) nm
      (Function.update_noteq hmne _ _)
    have hnaD : na d = nd := Function.update_same _ _ _
    have hnaO : ∀ i, i ≠ d → na i = a1.nodes_ i := fun i hi => Function.update_noteq hi _ _
    have h2rep : Repr na a.node_count_
        (aresult (awalk a.node_count_ (fun _ _ nx => decide (d < nx)) (0, 0) runs)) := by
      refine Repr_congr _ _ (fun r hr => hnaO r.1 ?_) h1rep0
      intro h
      exact hdi (h ▸ awalk_indices a.node_count_ (fun _ _ nx => decide (d < nx)) runs (0, 0) r hr)
    obtain ⟨hI, hchunks⟩ := hinv.after_walk (fun _ _ nx => decide (d < nx))
      { a1 with nodes_ := na } h1N h1null h2rep
      (fun e he => by
        by_cases hed : e = d
        · subst hed
          show (na e).count = _ ∧ (na e).status = _
          rw [hnaD, ← h1d]
          exact ⟨rfl, rfl⟩
        · show (na e).count = _ ∧ (na e).status = _
          rw [hnaO e hed, hfr1 e he]
          exact ⟨rfl, rfl⟩)
    refine ⟨{ a1 with nodes_ := na }, _, wk, hI, hlen, h1N, hchunks, ?_, ?_, ?_, ?_⟩
    · intro e he hed
      show na e = a.nodes_ e
      rw [hnaO e hed, hfr1 e he]
    · show (na d).count = _ ∧ (na d).status = _ ∧ (na d).version = _
      rw [hnaD, ← h1d]
      exact ⟨rfl, rfl, rfl⟩
    · intro hfail
      rw [Contended.release_impl, if_neg hdN, hwc]
      simp only [snapshot_at] at hcas ⊢
      rw [if_neg hge, if_neg hav]
      simp only [hbeq, Bool.false_eq_true, if_false, Contended.compare_and_swap, hfail, if_true]
    · intro hsucc
      refine ⟨{ a1 with nodes_ := Function.update na m.1 nm }, ?_, ?_⟩
      · rw [Contended.release_impl, if_neg hdN, hwc]
        simp only [snapshot_at] at hcas ⊢
        rw [if_neg hge, if_neg hav]
        simp only [hbeq, Bool.false_eq_true, if_false, Contended.compare_and_swap, hsucc]
        rw [hcas]
      · rw [VariableAllocator.release_impl, if_neg hdN, hfc, hw]
        simp only [Option.map_some', snapshot_at] at hcas ⊢
        rw [if_neg hge, if_neg hav]
        simp only [hbeq, Bool.false_eq_true, if_false]
        rw [hcas]

end imque

namespace imque

/-! ## The retry budget of a walk -/

theorem walk_budget (fn : NodeSnapshot → Bool) (o : Oracle) :
    ∀ (fuel k : Nat) (a : VariableAllocator) (pred : NodeSnapshot) (retry : Int) (r c : Nat)
      (w : Walk),
      Contended.find_candidate fn o fuel k a pred retry r c = .ok w → -1 ≤ retry →
      (w.restarts : Int) ≤ r + (retry + 1) ∧
      ((w.restarts : Int) = r + (retry + 1) → w.found = none) := by
  intro fuel
  induction fuel with
  | zero =>
    intro k a pred retry r c w h
    simp [Contended.find_candidate] at h
  | succ fuel ih =>
    intro k a pred retry r c w h hr
    rw [Contended.find_candidate] at h
    by_cases h0 : retry < 0
    · rw [if_pos h0] at h
      simp only [Res.ok.injEq] at h
      subst h
      exact ⟨by show (r : Int) ≤ r + (retry + 1); omega, fun _ => rfl⟩
    · rw [if_neg h0] at h
      by_cases h1 : pred.val.next = a.node_count_
      · rw [if_pos h1] at h
        simp only [Res.ok.injEq] at h
        subst h
        exact ⟨by show (r : Int) ≤ r + (retry + 1); omega, fun _ => rfl⟩
      · rw [if_neg h1] at h
        rcases hs : Contended.walk_step o k a pred with ⟨b, a1, p1, c1, k1⟩ | _ | _
        · rw [hs] at h
          cases b
          · simp only at h
            obtain ⟨i1, i2⟩ := ih _ _ _ _ _ _ _ h (by omega)
            push_cast at i1 i2
            exact ⟨by omega, fun e => i2 (by omega)⟩
          · simp only at h
            by_cases hfn : fn c1 = true
            · rw [if_pos hfn] at h
              simp only [Res.ok.injEq] at h
              subst h
              exact ⟨by show (r : Int) ≤ r + (retry + 1); omega,
                fun e => by exfalso; have e : (r : Int) = r + (retry + 1) := e; omega⟩
            · rw [if_neg hfn] at h
              obtain ⟨i1, i2⟩ := ih _ _ _ _ _ _ _ h hr
              exact ⟨i1, i2⟩
        · rw [hs] at h
          simp at h
        · rw [hs] at h
          simp at h

/-! ## Attempts of release -/

theorem release_after_failed_installs (o : Oracle) (ho : ∀ j, o.walk j = false) (d : Nat)
    (held : List Nat) (hd : d ∈ held) :
    ∀ (m : Nat) (a : VariableAllocator) (fl : List (Nat × Nat)) (fuel k n : Nat),
      Inv a fl held → (∀ j, n ≤ j → j < n + m → o.install j = true) →
      o.install (n + m) = false → fl.length + m < fuel →
      ∃ res : Released,
        Contended.release_impl o fuel a d RETRY_LIMIT false k n = .ok res ∧
        res.result = true ∧ res.attempts = n + m + 1 ∧
        (∀ x, res.mem.is_free_chunk x = true ↔
          (a.is_free_chunk x = true ∨ (d ≤ x ∧ x < d + (a.nodes_ d).count))) ∧
        ∃ fl1, Inv res.mem fl1 (held.erase d) := by
  intro m
  induction m with
  | zero =>
    intro a fl fuel k n hinv _ hsucc hf
    obtain ⟨j, rfl⟩ : ∃ j, fuel = j + 1 := ⟨fuel - 1, by omega⟩
    obtain ⟨a2, fl2, k1, _, _, _, _, _, _, _, hS⟩ :=
      release_attempt a fl held hinv d hd o ho RETRY_LIMIT (by decide) false j (by omega) k n
    obtain ⟨a3, hc, hbase⟩ := hS hsucc
    obtain ⟨a4, hrel, _, _, hinv4⟩ := Inv_release a fl held hinv d (j + 1) hd (by omega)
    have h34 : a3 = a4 := by
      have : VariableAllocator.release_impl (j + 1) a d RETRY_LIMIT false = .ok (true, a4) := hrel
      rw [hbase] at this
      simp only [Res.ok.injEq, Prod.mk.injEq, true_and] at this
      exact this
    subst h34
    refine ⟨_, hc, rfl, rfl, ?_, _, hinv4⟩
    intro x
    obtain ⟨runs, hfl, _⟩ := hinv.head
    subst hfl
    obtain ⟨pre, mm, post, hw, _⟩ := hinv.pred_found hd
    show a3.is_free_chunk x = true ↔ _
    rw [is_free_chunk_iff, is_free_chunk_iff, hinv4.free_list_eq, hinv.free_list_eq]
    exact arelease_covers _ _ _ _ _ (by rw [hw]; simp) x
  | succ m ih =>
    intro a fl fuel k n hinv hfail hsucc hf
    obtain ⟨j, rfl⟩ : ∃ j, fuel = j + 1 := ⟨fuel - 1, by omega⟩
    obtain ⟨a2, fl2, k1, hinv2, hlen2, _, hchunks, _, hdrec, hF, _⟩ :=
      release_attempt a fl held hinv d hd o ho RETRY_LIMIT (by decide) false j (by omega) k n
    have hstep := hF (hfail n (le_refl _) (by omega))
    simp only [Bool.false_eq_true, if_false] at hstep
    obtain ⟨res, hres, hr1, hr2, hr3, hr4⟩ :=
      ih a2 fl2 j k1 (n + 1) hinv2 (fun i hi1 hi2 => hfail i (by omega) (by omega))
        (by rw [show n + 1 + m = n + (m + 1) by omega]; exact hsucc) (by omega)
    refine ⟨res, by rw [hstep]; exact hres, hr1, by rw [hr2]; omega, ?_, hr4⟩
    intro x
    rw [hr3 x, hchunks x, hdrec.1]

end imque

namespace imque

/-- C22 (as amended). Release retries, each compare-and-swap being able to fail: a walk
that returns has started over from the head at most `retry + 1` times (33 times for
`release`), and one that did so returns false; a failed install instead starts the whole
walk-and-install attempt again with the full retry budget, so the attempts are not
bounded by RETRY_LIMIT: in a state reachable from `init`, for a held descriptor `d` and
any `m`, when the compare-and-swaps of the walks succeed and the first `m` installs
fail, `release(d)` returns true after exactly `m + 1` attempts, having freed the chunks
of `d` and no others. -/
theorem release_attempts (o : Oracle) :
    (∀ (fn : NodeSnapshot → Bool) (fuel k : Nat) (a : VariableAllocator) (pred : NodeSnapshot)
        (retry : Int) (w : Walk),
      Contended.find_candidate fn o fuel k a pred retry 0 0 = .ok w → 0 ≤ retry →
      (w.restarts : Int) ≤ retry + 1 ∧ ((w.restarts : Int) = retry + 1 → w.found = none)) ∧
    (∀ (a : VariableAllocator) (held : List Nat) (d m fuel : Nat),
      Reachable a held → d ∈ held → (∀ j, o.walk j = false) →
      (∀ j, j < m → o.install j = true) → o.install m = false → a.node_count_ + m < fuel →
      ∃ res : Released,
        Contended.release o fuel a d = .ok res ∧ res.result = true ∧ res.attempts = m + 1 ∧
        (∀ x, res.mem.is_free_chunk x = true ↔
          (a.is_free_chunk x = true ∨ (d ≤ x ∧ x < d + (a.nodes_ d).count))) ∧
        ∃ fl1, Inv res.mem fl1 (held.erase d)) := by
  constructor
  · intro fn fuel k a pred retry w h hr
    have := walk_budget fn o fuel k a pred retry 0 0 w h (by omega)
    simpa using this
  · intro a held d m fuel hreach hd ho hfail hsucc hf
    obtain ⟨fl, hinv⟩ := hreach.inv
    have hlen := hinv.length_le
    obtain ⟨res, h1, h2, h3, h4, h5⟩ :=
      release_after_failed_installs o ho d held hd m a fl fuel 0 0 hinv
        (fun j _ hj => hfail j (by omega)) (by rw [Nat.zero_add]; exact hsucc) (by omega)
    exact ⟨res, h1, h2, by rw [h3]; omega, h4, h5⟩

theorem release_attempts_witness :
    ∃ res : Released,
      Contended.release (failing_installs 2) 13 (after_allocate (zero_allocator 10).init 11 32) 9
        = .ok res ∧
      res.result = true ∧ res.attempts = 2 + 1 ∧
      (∀ x, res.mem.is_free_chunk x = true ↔
        ((after_allocate (zero_allocator 10).init 11 32).is_free_chunk x = true ∨
          (9 ≤ x ∧ x < 9 + ((after_allocate (zero_allocator 10).init 11 32).nodes_ 9).count))) ∧
      ∃ fl1, Inv res.mem fl1 ([9].erase 9) :=
  (release_attempts (failing_installs 2)).2 _ [9] 9 2 13 reach_one (by decide) (fun _ => rfl)
    (fun j hj => by simp [failing_installs, hj]) (by decide) (by decide)

/-- C22, the claim as stated fails: on a 10-node allocator holding descriptor 9, when the
first 40 installs fail, `release(9)` starts its attempt from the top 40 more times after
the first one, more than RETRY_LIMIT = 32, and then returns true. -/
theorem release_retries_past_limit :
    RETRY_LIMIT = 32 ∧
    ((Contended.release (failing_installs 40) 60 (after_allocate (zero_allocator 10).init 11 32) 9).get
      ⟨false, zero_allocator 10, 0, 0⟩).attempts = 41 ∧
    ((Contended.release (failing_installs 40) 60 (after_allocate (zero_allocator 10).init 11 32) 9).get
      ⟨false, zero_allocator 10, 0, 0⟩).result = true := by
  decide

end imque

namespace imque

/-! ## fast_release -/

theorem fast_release_single (o : Oracle) (fuel : Nat) (a : VariableAllocator) (d : Nat)
    (rl : Int) (k n : Nat) (res : Released)
    (h : Contended.release_impl o fuel a d rl true k n = .ok res) : res.attempts ≤ n + 1 := by
  cases fuel with
  | zero => simp [Contended.release_impl] at h
  | succ fuel =>
    rw [Contended.release_impl] at h
    by_cases h1 : d = 0 ∨ d ≥ a.node_count_
    · rw [if_pos h1] at h
      by_cases h2 : d < a.node_count_
      · rw [if_pos h2] at h
        simp only [Res.ok.injEq] at h
        subst h
        exact Nat.le_succ _
      · rw [if_neg h2] at h
        simp at h
    · rw [if_neg h1] at h
      rcases hw : Contended.find_candidate (IsPredecessor d) o fuel k a (snapshot_at a 0) rl 0 0
        with ⟨wfound, wmem, wlast, wk, wr, wc⟩ | _ | _
      · rw [hw] at h
        cases wfound with
        | none =>
          simp only [Res.ok.injEq] at h
          subst h
          exact le_refl _
        | some pred =>
          simp only at h
          by_cases h3 : ¬ (d ≥ (pred.place + pred.val.count) % 2 ^ 32)
          · rw [if_pos h3] at h
            simp at h
          · rw [if_neg h3] at h
            by_cases h4 : ¬ pred.val.is_avaiable = true
            · rw [if_pos h4] at h
              simp at h
            · rw [if_neg h4] at h
              generalize Contended.compare_and_swap _ _ _ _ = r at h
              rcases r with ⟨b, a3, p3⟩
              cases b
              · simp only [if_true, Res.ok.injEq] at h
                subst h
                exact le_refl _
              · simp only [Res.ok.injEq] at h
                subst h
                exact le_refl _
      · rw [hw] at h
        simp at h
      · rw [hw] at h
        simp at h

/-- The records of `crowded_allocator` are those left by four calls `allocate(32)`,
`release(7)` and `release(6)` on a 10-node allocator. -/
theorem crowded_allocator_records :
    ∀ i < 10, crowded_allocator.nodes_ i
      = (after_release (after_release (after_allocate (after_allocate (after_allocate
          (after_allocate (zero_allocator 10).init 11 32) 11 32) 11 32) 11 32) 11 7) 11 6).nodes_ i := by
  decide

/-- C23 (as amended). `fast_release(d)`, each compare-and-swap being able to fail, never
makes a second attempt. In a state reachable from `init`, for a held descriptor `d`,
when the compare-and-swaps of the walk succeed and the install fails, it returns false
after one attempt and the set of free chunks is what it was, the record of every other
held node is identical, node `d` keeps its count, status and version, and the free list
is sorted with AVAILABLE nodes; the `next` of node `d` and the records of free-list
nodes joined by the walk are not promised to be unchanged. -/
theorem fast_release_one_attempt (o : Oracle) :
    (∀ (fuel : Nat) (a : VariableAllocator) (d : Nat) (res : Released),
      Contended.fast_release o fuel a d = .ok res → res.attempts ≤ 1) ∧
    (∀ (a : VariableAllocator) (held : List Nat) (d fuel : Nat),
      Reachable a held → d ∈ held → (∀ j, o.walk j = false) → o.install 0 = true →
      a.node_count_ < fuel →
      ∃ res : Released,
        Contended.fast_release o fuel a d = .ok res ∧ res.result = false ∧ res.attempts = 1 ∧
        (∀ x, res.mem.is_free_chunk x = a.is_free_chunk x) ∧
        (∀ e ∈ held, e ≠ d → res.mem.nodes_ e = a.nodes_ e) ∧
        ((res.mem.nodes_ d).count = (a.nodes_ d).count ∧
          (res.mem.nodes_ d).status = (a.nodes_ d).status ∧
          (res.mem.nodes_ d).version = (a.nodes_ d).version) ∧
        res.mem.node_count_ = a.node_count_ ∧
        WF res.mem.node_count_ res.mem.free_list ∧
        Repr res.mem.nodes_ res.mem.node_count_ res.mem.free_list) := by
  constructor
  · intro fuel a d res h
    exact fast_release_single o fuel a d FAST_RETRY_LIMIT 0 0 res h
  · intro a held d fuel hreach hd ho hfail hf
    obtain ⟨fl, hinv⟩ := hreach.inv
    have hlen := hinv.length_le
    obtain ⟨j, rfl⟩ : ∃ j, fuel = j + 1 := ⟨fuel - 1, by omega⟩
    obtain ⟨a2, fl2, k1, hinv2, _, h2N, hchunks, hothers, hdrec, hF, _⟩ :=
      release_attempt a fl held hinv d hd o ho FAST_RETRY_LIMIT (by decide) true j (by omega) 0 0
    have hstep := hF hfail
    simp only [if_true] at hstep
    refine ⟨_, hstep, rfl, rfl, hchunks, hothers, hdrec, h2N, ?_, ?_⟩
    · show WF a2.node_count_ a2.free_list
      rw [hinv2.free_list_eq]
      exact hinv2.wf
    · show Repr a2.nodes_ a2.node_count_ a2.free_list
      rw [hinv2.free_list_eq]
      exact hinv2.repr

theorem fast_release_one_attempt_witness :
    ∃ res : Released,
      Contended.fast_release (failing_installs 1) 11
        (after_allocate (zero_allocator 10).init 11 32) 9 = .ok res ∧
      res.result = false ∧ res.attempts = 1 ∧
      (∀ x, res.mem.is_free_chunk x
        = (after_allocate (zero_allocator 10).init 11 32).is_free_chunk x) ∧
      (∀ e ∈ [9], e ≠ 9 → res.mem.nodes_ e
        = (after_allocate (zero_allocator 10).init 11 32).nodes_ e) ∧
      ((res.mem.nodes_ 9).count = ((after_allocate (zero_allocator 10).init 11 32).nodes_ 9).count ∧
        (res.mem.nodes_ 9).status
          = ((after_allocate (zero_allocator 10).init 11 32).nodes_ 9).status ∧
        (res.mem.nodes_ 9).version
          = ((after_allocate (zero_allocator 10).init 11 32).nodes_ 9).version) ∧
      res.mem.node_count_ = (after_allocate (zero_allocator 10).init 11 32).node_count_ ∧
      WF res.mem.node_count_ res.mem.free_list ∧
      Repr res.mem.nodes_ res.mem.node_count_ res.mem.free_list :=
  (fast_release_one_attempt (failing_installs 1)).2 _ [9] 9 11
    reach_one (by decide) (fun _ => rfl) (by decide) (by decide)

/-- C23, the claim as stated fails: in `crowded_allocator` (descriptors 8 and 9 held,
free runs at node 1 and node 7), when the install fails, `fast_release(9)` returns
false, yet the walk has joined node 7 into node 1 (node 1 goes from `next 7, count 6` to
`next 10, count 7`, node 7 is left marked JOIN_TAIL) and the `next` of node 9 has been
written (0 before, 10 after). -/
theorem fast_release_leaves_writes :
    ((Contended.fast_release (failing_installs 1) 11 crowded_allocator 9).get
      ⟨true, crowded_allocator, 0, 0⟩).result = false ∧
    crowded_allocator.nodes_ 1 = ⟨7, 6, 6, Node.AVAILABLE⟩ ∧
    ((Contended.fast_release (failing_installs 1) 11 crowded_allocator 9).get
      ⟨true, crowded_allocator, 0, 0⟩).mem.nodes_ 1 = ⟨10, 6, 7, Node.AVAILABLE⟩ ∧
    crowded_allocator.nodes_ 7 = ⟨10, 4, 1, Node.AVAILABLE⟩ ∧
    ((Contended.fast_release (failing_installs 1) 11 crowded_allocator 9).get
      ⟨true, crowded_allocator, 0, 0⟩).mem.nodes_ 7 = ⟨10, 5, 1, Node.JOIN_TAIL⟩ ∧
    crowded_allocator.nodes_ 9 = ⟨0, 2, 1, Node.AVAILABLE⟩ ∧
    ((Contended.fast_release (failing_installs 1) 11 crowded_allocator 9).get
      ⟨true, crowded_allocator, 0, 0⟩).mem.nodes_ 9 = ⟨10, 2, 1, Node.AVAILABLE⟩ := by
  decide

end imque

namespace imque

open QueueImpl

/-! ## Dequeue compiled with NDEBUG -/

theorem deq_impl_alc (fuel : Nat) : ∀ (q : QueueImpl) (v : Nat) (q1 : QueueImpl),
    deq_impl fuel q = .ok (v, q1) → q1.alc_ = q.alc_ := by
  induction fuel with
  | zero => intro q v q1 h; simp [deq_impl] at h
  | succ fuel ih =>
    intro q v q1 h
    simp only [deq_impl] at h
    by_cases hemp : q.read_pos = q.write_pos
    · rw [if_pos hemp] at h
      simp only [Res.ok.injEq, Prod.mk.injEq] at h
      rw [← h.2]
    · rw [if_neg hemp] at h
      by_cases hfree : (q.entries q.read_pos).state = Entry.FREE
      · rw [if_pos hfree] at h
        have := ih _ _ _ h
        rw [this]
        unfold cas_read_pos
        split_ifs <;> rfl
      · rw [if_neg hfree] at h
        simp only [cas_entry, if_true] at h
        simp only [Res.ok.injEq, Prod.mk.injEq] at h
        rw [← h.2]
        unfold cas_read_pos
        split_ifs <;> rfl

/-- Compiled with `NDEBUG`, `deq` never changes the allocator: whatever it returns, no
chunk is given back. -/
theorem deq_ndebug_keeps_allocator (q : QueueImpl) (fuel : Nat) (buf buf1 : List Nat) (b : Bool)
    (q1 : QueueImpl) (h : q.deq_ndebug fuel buf = .ok (b, buf1, q1)) : q1.alc_ = q.alc_ := by
  unfold deq_ndebug at h
  by_cases hemp : q.isEmpty = true
  · rw [if_pos hemp] at h
    simp only [Res.ok.injEq, Prod.mk.injEq] at h
    rw [← h.2.2]
  · rw [if_neg hemp] at h
    rcases hdi : deq_impl fuel q with ⟨id, qa⟩ | _ | _
    · rw [hdi] at h
      dsimp only at h
      have hqa := deq_impl_alc fuel q id qa hdi
      by_cases hid : id = 0
      · rw [if_pos hid] at h
        simp only [Res.ok.injEq, Prod.mk.injEq] at h
        rw [← h.2.2]
        exact hqa
      · rw [if_neg hid] at h
        simp only [Res.ok.injEq, Prod.mk.injEq] at h
        rw [← h.2.2]
        exact hqa
    · rw [hdi] at h
      simp at h
    · rw [hdi] at h
      simp at h

/-- C11, the failing input: in a build with `NDEBUG`, on `full_queue` (2 slots, 10
allocator nodes, the one-byte message `[10]` in the ring with descriptor 9, whose run
has 1 chunk) `deq` returns true with the buffer `[10]` and descriptor 9 leaves the
ring, but the allocator is what it was: the free list still has 8 chunks and chunk 9 is
not free. With assertions enabled the same call leaves 9 free chunks. -/
theorem deq_ndebug_frees_nothing :
    full_queue.held_descriptors = [9] ∧ (full_queue.alc_.nodes_ 9).count = 1 ∧
    count_sum full_queue.alc_.free_list = 8 ∧
    ((full_queue.deq_ndebug 11 []).get (false, [], full_queue)).1 = true ∧
    ((full_queue.deq_ndebug 11 []).get (false, [], full_queue)).2.1 = [10] ∧
    ((full_queue.deq_ndebug 11 []).get (false, [], full_queue)).2.2.held_descriptors = [] ∧
    count_sum ((full_queue.deq_ndebug 11 []).get (false, [], full_queue)).2.2.alc_.free_list = 8 ∧
    ((full_queue.deq_ndebug 11 []).get (false, [], full_queue)).2.2.alc_.is_free_chunk 9 = false ∧
    count_sum (after_deq full_queue 11).alc_.free_list = 9 := by
  decide

end imque
